import Mathlib

/-!
# dbml-core model structure: `Database` and `Schema`

A shallow embedding of `packages/dbml-core/src/model_structure/database.js` and
`schema.js`.

* JavaScript objects are values; a reference to an object held in an array is the
  position of the object in that array (arrays are only ever appended to), and a
  cross-link between entities (`field._enum`, `enum.fields`, `table.tags`,
  `tag.tables`) is the identifier of the entity linked to.
* A method that can throw on a live object returns a `Res`: the value returned or the
  error raised, together with the state of the object afterwards in both cases.
* The constructors run in `Except Error`: when a constructor throws, no object is
  produced.
* `DEFAULT_SCHEMA_NAME` (from `config.js`, not part of the two files) is a parameter
  of every definition that reads it.
-/

namespace Dbml

/-! ## Errors and results -/

/-- The errors raised through `Element.error`, one constructor per message. -/
inductive Error where
  | schemaExisted (name : String)
  | tableExisted (schema : String) (table : String)
  | enumExisted (schema : String) (name : String)
  | tagExisted (name : String)
  | refDuplicated
  | tableGroupExisted (schema : String) (name : String)
  | schemaNotExist (name : String)
  deriving DecidableEq, Repr

/-- Outcome of a method call on a live object: a returned value or a raised error,
each with the state of the object after the call. -/
inductive Res (σ α : Type) where
  | ok (value : α) (state : σ)
  | raised (err : Error) (state : σ)
  deriving DecidableEq, Repr

/-- The state after the call, whatever its outcome. -/
def Res.state {σ α : Type} : Res σ α → σ
  | .ok _ s => s
  | .raised _ s => s

/-- Whether the call raised. -/
def Res.isRaised {σ α : Type} : Res σ α → Bool
  | .ok _ _ => false
  | .raised _ _ => true

/-- Inside a constructor a raised error aborts the construction: the state is dropped. -/
def Res.toExcept {σ α : Type} : Res σ α → Except Error (α × σ)
  | .ok a s => .ok (a, s)
  | .raised e _ => .error e

/-- `xs.forEach(x => body)` where the body updates a state and may throw. -/
def forEach {α σ : Type} (body : α → σ → Except Error σ) : List α → σ → Except Error σ
  | [], s => .ok s
  | a :: rest, s =>
    match body a s with
    | .error e => .error e
    | .ok s1 => forEach body rest s1

/-- `xs.forEach(x => body)` where the body mutates the element `x` itself and a shared
state, and cannot throw. -/
def mapAccum {α β : Type} (body : α → β → α × β) : List α → β → List α × β
  | [], b => ([], b)
  | a :: rest, b =>
    ((body a b).1 :: (mapAccum body rest (body a b).2).1, (mapAccum body rest (body a b).2).2)

/-- `xs.forEach(x => body)` where the body mutates the element `x` itself and a shared
state, and may throw. -/
def mapAccumE {α β : Type} (body : α → β → Except Error (α × β)) :
    List α → β → Except Error (List α × β)
  | [], b => .ok ([], b)
  | a :: rest, b =>
    match body a b with
    | .error e => .error e
    | .ok (a1, b1) =>
      match mapAccumE body rest b1 with
      | .error e => .error e
      | .ok (rest1, b2) => .ok (a1 :: rest1, b2)

/-- Position of the first element satisfying `p`: the object `xs.find(p)` returns. -/
def firstIdx {α : Type} (p : α → Bool) : List α → Option Nat
  | [] => none
  | a :: rest => if p a then some 0 else (firstIdx p rest).map (· + 1)

/-! ## JavaScript primitives -/

/-- Truthiness of an optional string property: `undefined` and `''` are falsy. -/
def truthy : Option String → Bool
  | some s => s != ""
  | none => false

/-- The expression `x || d` for an optional string `x`. -/
def orDefault (x : Option String) (d : String) : String :=
  match x with
  | some s => if s != "" then s else d
  | none => d

/-- Lodash `_.capitalize` on ASCII text: first character upper case, the rest lower
case. -/
def capitalize (s : String) : String :=
  match s.data with
  | [] => ""
  | c :: cs => String.mk (c.toUpper :: cs.map Char.toLower)

/-- The note `findSchema` gives a schema it creates under the default name. -/
def defaultSchemaNote (DEFAULT_SCHEMA_NAME : String) : String :=
  "Default " ++ capitalize DEFAULT_SCHEMA_NAME ++ " Schema"

/-! ## Identifier allocator -/

/-- The entity kinds the allocator keeps a counter for. -/
inductive IdKind where
  | dbId | schemaId | tableId | fieldId | enumId | refId | tableGroupId | tagId
  deriving DecidableEq, Repr

/-- Modelled from the spec: the identifier allocator `DbState` (`dbState.js` is not
part of the two files): one counter per entity kind. -/
structure DbState where
  dbId : Nat
  schemaId : Nat
  tableId : Nat
  fieldId : Nat
  enumId : Nat
  refId : Nat
  tableGroupId : Nat
  tagId : Nat
  deriving DecidableEq, Repr

/-- Modelled from the spec: a fresh allocator; every counter starts from the same fixed
base. -/
def DbState.new : DbState := ⟨1, 1, 1, 1, 1, 1, 1, 1⟩

/-- Modelled from the spec: `dbState.generateId(kind)` issues the counter of that kind
and increments it. -/
def DbState.generateId (st : DbState) : IdKind → Nat × DbState
  | .dbId => (st.dbId, { st with dbId := st.dbId + 1 })
  | .schemaId => (st.schemaId, { st with schemaId := st.schemaId + 1 })
  | .tableId => (st.tableId, { st with tableId := st.tableId + 1 })
  | .fieldId => (st.fieldId, { st with fieldId := st.fieldId + 1 })
  | .enumId => (st.enumId, { st with enumId := st.enumId + 1 })
  | .refId => (st.refId, { st with refId := st.refId + 1 })
  | .tableGroupId => (st.tableGroupId, { st with tableGroupId := st.tableGroupId + 1 })
  | .tagId => (st.tagId, { st with tagId := st.tagId + 1 })

/-! ## Raw records -/

/-- The declared type of a field: `field.type`. -/
structure FieldType where
  type_name : String
  schemaName : Option String
  deriving DecidableEq, Repr

/-- A raw field of a raw table. -/
structure RawField where
  name : String
  type : FieldType
  deriving DecidableEq, Repr

/-- A raw tag, top-level or declared on a table. -/
structure RawTag where
  schemaName : Option String
  name : String
  deriving DecidableEq, Repr

/-- A raw table. The property `alias` is spelled `alias_` throughout (`alias` is a
reserved word). -/
structure RawTable where
  schemaName : Option String
  name : String
  alias_ : Option String
  fields : List RawField
  tags : List RawTag
  deriving DecidableEq, Repr

/-- A raw enum. -/
structure RawEnum where
  schemaName : Option String
  name : String
  deriving DecidableEq, Repr

/-- One end of a reference. -/
structure Endpoint where
  schemaName : Option String
  tableName : String
  fieldNames : List String
  deriving DecidableEq, Repr

/-- A raw reference between two endpoints. -/
structure RawRef where
  schemaName : Option String
  name : Option String
  endpoints : Endpoint × Endpoint
  deriving DecidableEq, Repr

/-- A raw table group. -/
structure RawTableGroup where
  schemaName : Option String
  name : String
  deriving DecidableEq, Repr

/-- A raw schema of the explicit schema list. -/
structure RawSchema where
  name : String
  alias_ : Option String
  note : Option String
  tables : List RawTable
  refs : List RawRef
  enums : List RawEnum
  tags : List RawTag
  tableGroups : List RawTableGroup
  deriving DecidableEq, Repr

/-- The `project` record of the bundle. -/
structure RawProject where
  name : Option String
  note : Option String
  database_type : Option String
  deriving DecidableEq, Repr

/-- The raw bundle a `Database` is constructed from. -/
structure RawDatabase where
  schemas : List RawSchema
  tables : List RawTable
  enums : List RawEnum
  refs : List RawRef
  tableGroups : List RawTableGroup
  tags : List RawTag
  project : RawProject
  deriving DecidableEq, Repr

/-! ## Entities -/

/-- A field of a table; `_enum` is the identifier of the enum it is linked to. -/
structure Field where
  id : Nat
  name : String
  type : FieldType
  _enum : Option Nat
  deriving DecidableEq, Repr

/-- A table; `tags` holds the identifiers of the tags it is bound to. -/
structure Table where
  id : Nat
  name : String
  alias_ : Option String
  fields : List Field
  rawTags : List RawTag
  tags : List Nat
  deriving DecidableEq, Repr

/-- An enum; `fields` holds the identifiers of the fields linked to it. -/
structure Enum where
  id : Nat
  name : String
  fields : List Nat
  deriving DecidableEq, Repr

/-- A tag; `tables` holds the identifiers of the tables bound to it. -/
structure Tag where
  id : Nat
  name : String
  tables : List Nat
  deriving DecidableEq, Repr

/-- A reference. -/
structure Ref where
  id : Nat
  name : Option String
  endpoints : Endpoint × Endpoint
  deriving DecidableEq, Repr

/-- A table group. -/
structure TableGroup where
  id : Nat
  name : String
  deriving DecidableEq, Repr

/-- A schema (`schema.js`): the back-reference `database` is passed explicitly to the
methods that follow it. -/
structure Schema where
  id : Nat
  name : String
  note : Option String
  alias_ : Option String
  tables : List Table
  tags : List Tag
  enums : List Enum
  tableGroups : List TableGroup
  refs : List Ref
  deriving DecidableEq, Repr

/-- A database (`database.js`). -/
structure Database where
  dbState : DbState
  id : Nat
  hasDefaultSchema : Bool
  schemas : List Schema
  note : Option String
  databaseType : Option String
  name : Option String
  deriving DecidableEq, Repr

/-! ## Leaf entities

`table.js`, `enum.js`, `tag.js`, `ref.js` and `tableGroup.js` are not part of the two
files; the constructors and methods below follow the contract the spec gives for them. -/

/-- Modelled from the spec: the `Field` constructor: one identifier, no enum link yet. -/
def Field.new (raw : RawField) (st : DbState) : Field × DbState :=
  ({ id := (st.generateId .fieldId).1, name := raw.name, type := raw.type, _enum := none },
    (st.generateId .fieldId).2)

/-- Modelled from the spec: the fields of a table, constructed in order. -/
def Field.newAll : List RawField → DbState → List Field × DbState
  | [], st => ([], st)
  | rf :: rest, st =>
    ((Field.new rf st).1 :: (Field.newAll rest (Field.new rf st).2).1,
      (Field.newAll rest (Field.new rf st).2).2)

/-- Modelled from the spec: the `Table` constructor `new Table({ ...raw, schema })`: one
identifier for the table, then one field per raw field; `rawTags` is the raw `tags`. -/
def Table.new (raw : RawTable) (st : DbState) : Table × DbState :=
  ({ id := (st.generateId .tableId).1, name := raw.name, alias_ := raw.alias_,
     fields := (Field.newAll raw.fields (st.generateId .tableId).2).1,
     rawTags := raw.tags, tags := [] },
    (Field.newAll raw.fields (st.generateId .tableId).2).2)

/-- Modelled from the spec: `table.pushTag(tag)` appends the tag to the table's tags. -/
def Table.pushTag (this : Table) (tag : Tag) : Table :=
  { this with tags := this.tags ++ [tag.id] }

/-- Modelled from the spec: the `Enum` constructor: one identifier, no field yet. -/
def Enum.new (raw : RawEnum) (st : DbState) : Enum × DbState :=
  ({ id := (st.generateId .enumId).1, name := raw.name, fields := [] },
    (st.generateId .enumId).2)

/-- Modelled from the spec: `enum.pushField(field)` records the field on the enum. -/
def Enum.pushField (this : Enum) (field : Field) : Enum :=
  { this with fields := this.fields ++ [field.id] }

/-- Modelled from the spec: the `Tag` constructor: one identifier, no table yet. -/
def Tag.new (raw : RawTag) (st : DbState) : Tag × DbState :=
  ({ id := (st.generateId .tagId).1, name := raw.name, tables := [] },
    (st.generateId .tagId).2)

/-- Modelled from the spec: `tag.pushTable(table)` appends the table to the tag's
tables. -/
def Tag.pushTable (this : Tag) (table : Table) : Tag :=
  { this with tables := this.tables ++ [table.id] }

/-- Modelled from the spec: the `Ref` constructor: one identifier. -/
def Ref.new (raw : RawRef) (st : DbState) : Ref × DbState :=
  ({ id := (st.generateId .refId).1, name := raw.name, endpoints := raw.endpoints },
    (st.generateId .refId).2)

/-- Modelled from the spec: `ref.equals(other)`: both refs connect the same unordered
pair of endpoints. -/
def Ref.equals (this other : Ref) : Bool :=
  (this.endpoints.1 == other.endpoints.1 && this.endpoints.2 == other.endpoints.2)
    || (this.endpoints.1 == other.endpoints.2 && this.endpoints.2 == other.endpoints.1)

/-- Modelled from the spec: the `TableGroup` constructor: one identifier. -/
def TableGroup.new (raw : RawTableGroup) (st : DbState) : TableGroup × DbState :=
  ({ id := (st.generateId .tableGroupId).1, name := raw.name },
    (st.generateId .tableGroupId).2)

/-! ## `Schema` methods (`schema.js`) -/

/-- `checkTable`: the error it raises, if any. -/
def Schema.checkTable (this : Schema) (table : Table) : Option Error :=
  if this.tables.any (fun t => t.name == table.name) then
    some (.tableExisted this.name table.name)
  else none

/-- `pushTable`. -/
def Schema.pushTable (this : Schema) (table : Table) : Res Schema Unit :=
  match this.checkTable table with
  | some e => .raised e this
  | none => .ok () { this with tables := this.tables ++ [table] }

/-- `findTable`: by name or alias. -/
def Schema.findTable (this : Schema) (tableName : String) : Option Table :=
  this.tables.find? (fun t => t.name == tableName || t.alias_ == some tableName)

/-- `checkEnum`: the error it raises, if any. -/
def Schema.checkEnum (this : Schema) (_enum : Enum) : Option Error :=
  if this.enums.any (fun e => e.name == _enum.name) then
    some (.enumExisted this.name _enum.name)
  else none

/-- The body of the innermost loop of `bindEnumToField`, for one field of a table held
by `schema`. -/
def bindEnumField (DEFAULT_SCHEMA_NAME : String) (schemaName : String) (field : Field)
    (_enum : Enum) : Field × Enum :=
  if _enum.name == field.type.type_name
      && orDefault field.type.schemaName DEFAULT_SCHEMA_NAME == schemaName then
    ({ field with _enum := some _enum.id }, _enum.pushField field)
  else (field, _enum)

/-- `table.fields.forEach(...)` of `bindEnumToField`. -/
def bindEnumTable (DEFAULT_SCHEMA_NAME : String) (schemaName : String) (table : Table)
    (_enum : Enum) : Table × Enum :=
  ({ table with
      fields := (mapAccum (bindEnumField DEFAULT_SCHEMA_NAME schemaName) table.fields _enum).1 },
    (mapAccum (bindEnumField DEFAULT_SCHEMA_NAME schemaName) table.fields _enum).2)

/-- `schema.tables.forEach(...)` of `bindEnumToField`: `schema` is the loop variable, so
`schema.name` in the condition is the name of the schema holding the table. -/
def bindEnumSchema (DEFAULT_SCHEMA_NAME : String) (schema : Schema) (_enum : Enum) :
    Schema × Enum :=
  ({ schema with
      tables := (mapAccum (bindEnumTable DEFAULT_SCHEMA_NAME schema.name) schema.tables _enum).1 },
    (mapAccum (bindEnumTable DEFAULT_SCHEMA_NAME schema.name) schema.tables _enum).2)

/-- `bindEnumToField`: scans `this.database.schemas`; returns the schemas and the enum
after the scan. -/
def Schema.bindEnumToField (DEFAULT_SCHEMA_NAME : String) (schemas : List Schema)
    (_enum : Enum) : List Schema × Enum :=
  mapAccum (bindEnumSchema DEFAULT_SCHEMA_NAME) schemas _enum

/-- `pushEnum` on a schema that `database.schemas` does not hold (a schema under
construction). The enum object is held by `this.enums` while `bindEnumToField` adds
fields to it, so the enum held afterwards is the enum after the scan. -/
def Schema.pushEnum (DEFAULT_SCHEMA_NAME : String) (database : Database) (this : Schema)
    (_enum : Enum) : Res (Database × Schema) Unit :=
  match this.checkEnum _enum with
  | some e => .raised e (database, this)
  | none =>
    .ok ()
      ({ database with
          schemas := (Schema.bindEnumToField DEFAULT_SCHEMA_NAME database.schemas _enum).1 },
       { this with
          enums := this.enums ++
            [(Schema.bindEnumToField DEFAULT_SCHEMA_NAME database.schemas _enum).2] })

/-- `checkTag`: the error it raises, if any. -/
def Schema.checkTag (this : Schema) (tag : Tag) : Option Error :=
  if this.tags.any (fun t => t.name == tag.name) then some (.tagExisted tag.name) else none

/-- `pushTag`. -/
def Schema.pushTag (this : Schema) (tag : Tag) : Res Schema Unit :=
  match this.checkTag tag with
  | some e => .raised e this
  | none => .ok () { this with tags := this.tags ++ [tag] }

/-- `findTag`. -/
def Schema.findTag (this : Schema) (tagName : String) : Option Tag :=
  this.tags.find? (fun tag => tag.name == tagName)

/-- `checkRef`: the error it raises, if any. -/
def Schema.checkRef (this : Schema) (ref : Ref) : Option Error :=
  if this.refs.any (fun r => r.equals ref) then some .refDuplicated else none

/-- `pushRef`. -/
def Schema.pushRef (this : Schema) (ref : Ref) : Res Schema Unit :=
  match this.checkRef ref with
  | some e => .raised e this
  | none => .ok () { this with refs := this.refs ++ [ref] }

/-- `checkTableGroup`: the error it raises, if any. -/
def Schema.checkTableGroup (this : Schema) (tableGroup : TableGroup) : Option Error :=
  if this.tableGroups.any (fun tg => tg.name == tableGroup.name) then
    some (.tableGroupExisted this.name tableGroup.name)
  else none

/-- `pushTableGroup`. -/
def Schema.pushTableGroup (this : Schema) (tableGroup : TableGroup) : Res Schema Unit :=
  match this.checkTableGroup tableGroup with
  | some e => .raised e this
  | none => .ok () { this with tableGroups := this.tableGroups ++ [tableGroup] }

/-! ### The `Schema` constructor -/

/-- Body of the loop of `Schema.processTables`; the state is the owning database (its
allocator) and the schema under construction. -/
def Schema.processTable (table : RawTable) (st : Database × Schema) :
    Except Error (Database × Schema) :=
  match (st.2.pushTable (Table.new table st.1.dbState).1).toExcept with
  | .error e => .error e
  | .ok (_, this) => .ok ({ st.1 with dbState := (Table.new table st.1.dbState).2 }, this)

/-- Body of the loop of `Schema.processTags`. -/
def Schema.processTag (tag : RawTag) (st : Database × Schema) :
    Except Error (Database × Schema) :=
  match (st.2.pushTag (Tag.new tag st.1.dbState).1).toExcept with
  | .error e => .error e
  | .ok (_, this) => .ok ({ st.1 with dbState := (Tag.new tag st.1.dbState).2 }, this)

/-- Body of the loop of `Schema.processEnums`. -/
def Schema.processEnum (DEFAULT_SCHEMA_NAME : String) (_enum : RawEnum)
    (st : Database × Schema) : Except Error (Database × Schema) :=
  match (Schema.pushEnum DEFAULT_SCHEMA_NAME
      { st.1 with dbState := (Enum.new _enum st.1.dbState).2 } st.2
      (Enum.new _enum st.1.dbState).1).toExcept with
  | .error e => .error e
  | .ok (_, st1) => .ok st1

/-- Body of the loop of `Schema.processRefs`. -/
def Schema.processRef (ref : RawRef) (st : Database × Schema) :
    Except Error (Database × Schema) :=
  match (st.2.pushRef (Ref.new ref st.1.dbState).1).toExcept with
  | .error e => .error e
  | .ok (_, this) => .ok ({ st.1 with dbState := (Ref.new ref st.1.dbState).2 }, this)

/-- Body of the loop of `Schema.processTableGroups`. -/
def Schema.processTableGroup (tableGroup : RawTableGroup) (st : Database × Schema) :
    Except Error (Database × Schema) :=
  match (st.2.pushTableGroup (TableGroup.new tableGroup st.1.dbState).1).toExcept with
  | .error e => .error e
  | .ok (_, this) =>
    .ok ({ st.1 with dbState := (TableGroup.new tableGroup st.1.dbState).2 }, this)

/-- The `Schema` constructor `new Schema({ ...raw, database })`: the new schema and the
database afterwards (its allocator has issued identifiers, and enum binding may have
linked fields of the schemas it holds). -/
def Schema.new (DEFAULT_SCHEMA_NAME : String) (raw : RawSchema) (database : Database) :
    Except Error (Schema × Database) :=
  ((((((forEach Schema.processTable raw.tables
      ({ database with dbState := (database.dbState.generateId .schemaId).2 },
       { id := (database.dbState.generateId .schemaId).1, name := raw.name,
         note := raw.note, alias_ := raw.alias_, tables := [], tags := [], enums := [],
         tableGroups := [], refs := [] })).bind
    (forEach Schema.processTag raw.tags)).bind
    (forEach (Schema.processEnum DEFAULT_SCHEMA_NAME) raw.enums)).bind
    (forEach Schema.processRef raw.refs)).bind
    (forEach Schema.processTableGroup raw.tableGroups)).bind
    (fun st => .ok (st.2, st.1)))

/-! ## `Database` methods (`database.js`) -/

/-- `checkSchema`: the error it raises, if any. -/
def Database.checkSchema (this : Database) (schema : Schema) : Option Error :=
  if this.schemas.any (fun s => s.name == schema.name) then
    some (.schemaExisted schema.name)
  else none

/-- `pushSchema`. -/
def Database.pushSchema (this : Database) (schema : Schema) : Res Database Unit :=
  match this.checkSchema schema with
  | some e => .raised e this
  | none => .ok () { this with schemas := this.schemas ++ [schema] }

/-- Body of the loop of `processSchemas`. -/
def Database.processSchema (DEFAULT_SCHEMA_NAME : String) (schema : RawSchema)
    (this : Database) : Except Error Database :=
  match Schema.new DEFAULT_SCHEMA_NAME schema this with
  | .error e => .error e
  | .ok (s, db) =>
    match (db.pushSchema s).toExcept with
    | .error e => .error e
    | .ok (_, db1) => .ok db1

/-- The raw record `findSchema` constructs a schema from when it finds none. -/
def autoSchema (DEFAULT_SCHEMA_NAME : String) (schemaName : String) : RawSchema :=
  { name := schemaName,
    note := some (if schemaName == DEFAULT_SCHEMA_NAME then
      defaultSchemaNote DEFAULT_SCHEMA_NAME else ""),
    alias_ := none, tables := [], refs := [], enums := [], tags := [], tableGroups := [] }

/-- The test of `findSchema`: `s => s.name === schemaName || s.alias === schemaName`. -/
def schemaMatches (schemaName : String) (s : Schema) : Bool :=
  s.name == schemaName || s.alias_ == some schemaName

/-- `findSchema`: returns (the position in `schemas` of) the schema found or created. -/
def Database.findSchema (DEFAULT_SCHEMA_NAME : String) (this : Database)
    (schemaName : String) : Res Database Nat :=
  match firstIdx (schemaMatches schemaName) this.schemas with
  | some i => .ok i this
  | none =>
    match Schema.new DEFAULT_SCHEMA_NAME (autoSchema DEFAULT_SCHEMA_NAME schemaName) this with
    | .error e => .raised e { this with dbState := (this.dbState.generateId .schemaId).2 }
    | .ok (schema, db) =>
      match db.pushSchema schema with
      | .raised e db1 => .raised e db1
      | .ok _ db1 => .ok (db1.schemas.length - 1) db1

/-- A method call `schema.op(...)` on the schema held at position `i`. A position
outside `schemas` is not a reference `findSchema` returns. -/
def Database.atSchema (this : Database) (i : Nat) (op : Schema → Res Schema Unit) :
    Res Database Unit :=
  match this.schemas[i]? with
  | none => .ok () this
  | some s =>
    match op s with
    | .ok _ s1 => .ok () { this with schemas := this.schemas.set i s1 }
    | .raised e s1 => .raised e { this with schemas := this.schemas.set i s1 }

/-- `pushEnum` on the schema held at position `i` of `this.schemas`: the scan of
`bindEnumToField` runs over all held schemas, that one included. -/
def Database.pushEnumAt (DEFAULT_SCHEMA_NAME : String) (this : Database) (i : Nat)
    (_enum : Enum) : Res Database Unit :=
  match this.schemas[i]? with
  | none => .ok () this
  | some s =>
    match s.checkEnum _enum with
    | some e => .raised e this
    | none =>
      .ok ()
        { this with
          schemas := List.modify
            (fun s1 => { s1 with
              enums := s1.enums ++
                [(Schema.bindEnumToField DEFAULT_SCHEMA_NAME this.schemas _enum).2] })
            i (Schema.bindEnumToField DEFAULT_SCHEMA_NAME this.schemas _enum).1 }

/-- The block at the head of the body of each of the five process loops: the schema the
record is routed to, and the `hasDefaultSchema` flag. In the branch of a truthy
`schemaName` the name looked up, `orDefault schemaName DEFAULT_SCHEMA_NAME`, is
`schemaName` itself. -/
def Database.route (DEFAULT_SCHEMA_NAME : String) (this : Database)
    (schemaName : Option String) : Res Database Nat :=
  if truthy schemaName then
    match this.findSchema DEFAULT_SCHEMA_NAME (orDefault schemaName DEFAULT_SCHEMA_NAME) with
    | .raised e db => .raised e db
    | .ok i db =>
      .ok i (if schemaName == some DEFAULT_SCHEMA_NAME then
        { db with hasDefaultSchema := true } else db)
  else this.findSchema DEFAULT_SCHEMA_NAME DEFAULT_SCHEMA_NAME

/-- Body of the loop of `processTables`. -/
def Database.processTable (DEFAULT_SCHEMA_NAME : String) (table : RawTable)
    (this : Database) : Except Error Database :=
  match (this.route DEFAULT_SCHEMA_NAME table.schemaName).toExcept with
  | .error e => .error e
  | .ok (i, db) =>
    match (Database.atSchema { db with dbState := (Table.new table db.dbState).2 } i
        (fun schema => schema.pushTable (Table.new table db.dbState).1)).toExcept with
    | .error e => .error e
    | .ok (_, db1) => .ok db1

/-- Body of the first loop of `processTags`. -/
def Database.processTag (DEFAULT_SCHEMA_NAME : String) (tag : RawTag)
    (this : Database) : Except Error Database :=
  match (this.route DEFAULT_SCHEMA_NAME tag.schemaName).toExcept with
  | .error e => .error e
  | .ok (i, db) =>
    match (Database.atSchema { db with dbState := (Tag.new tag db.dbState).2 } i
        (fun schema => schema.pushTag (Tag.new tag db.dbState).1)).toExcept with
    | .error e => .error e
    | .ok (_, db1) => .ok db1

/-- Body of the innermost loop of `bindTagToTable`, for one raw tag of `table`:
`schema.tags.forEach` binds the table to every held tag of that name; when there was
none a tag is created, pushed (after `checkTag`) and bound. The new tag is one object,
bound right after it is pushed, so the tag held afterwards is the tag after binding. The
state is the table, its schema and the allocator. -/
def bindRawTag (rawTag : RawTag) (st : Table × Schema × DbState) :
    Except Error (Table × Schema × DbState) :=
  if st.2.1.tags.any (fun tag => tag.name == rawTag.name) then
    .ok (List.foldl Table.pushTag st.1
          (st.2.1.tags.filter (fun tag => tag.name == rawTag.name)),
        { st.2.1 with
          tags := st.2.1.tags.map
            (fun tag => if tag.name == rawTag.name then tag.pushTable st.1 else tag) },
        st.2.2)
  else
    match st.2.1.checkTag (Tag.new rawTag st.2.2).1 with
    | some e => .error e
    | none =>
      .ok (st.1.pushTag (Tag.new rawTag st.2.2).1,
          { st.2.1 with
            tags := st.2.1.tags ++ [(Tag.new rawTag st.2.2).1.pushTable st.1] },
          (Tag.new rawTag st.2.2).2)

/-- `table.rawTags.forEach(...)` of `bindTagToTable`, for one table of `schema`. -/
def bindTableTags (table : Table) (st : Schema × DbState) :
    Except Error (Table × Schema × DbState) :=
  forEach bindRawTag table.rawTags (table, st)

/-- `schema.tables.forEach(...)` of `bindTagToTable`, for one schema: the loop mutates
the tables one by one and the schema's tags. -/
def bindSchemaTags (schema : Schema) (st : DbState) : Except Error (Schema × DbState) :=
  match mapAccumE bindTableTags schema.tables (schema, st) with
  | .error e => .error e
  | .ok (tables, schema1, st1) => .ok ({ schema1 with tables := tables }, st1)

/-- `bindTagToTable`. -/
def Database.bindTagToTable (this : Database) : Except Error Database :=
  match mapAccumE bindSchemaTags this.schemas this.dbState with
  | .error e => .error e
  | .ok (schemas, st) => .ok { this with schemas := schemas, dbState := st }

/-- Body of the loop of `processRefs`. -/
def Database.processRef (DEFAULT_SCHEMA_NAME : String) (ref : RawRef)
    (this : Database) : Except Error Database :=
  match (this.route DEFAULT_SCHEMA_NAME ref.schemaName).toExcept with
  | .error e => .error e
  | .ok (i, db) =>
    match (Database.atSchema { db with dbState := (Ref.new ref db.dbState).2 } i
        (fun schema => schema.pushRef (Ref.new ref db.dbState).1)).toExcept with
    | .error e => .error e
    | .ok (_, db1) => .ok db1

/-- Body of the loop of `processEnums`. -/
def Database.processEnum (DEFAULT_SCHEMA_NAME : String) (_enum : RawEnum)
    (this : Database) : Except Error Database :=
  match (this.route DEFAULT_SCHEMA_NAME _enum.schemaName).toExcept with
  | .error e => .error e
  | .ok (i, db) =>
    match (Database.pushEnumAt DEFAULT_SCHEMA_NAME
        { db with dbState := (Enum.new _enum db.dbState).2 } i
        (Enum.new _enum db.dbState).1).toExcept with
    | .error e => .error e
    | .ok (_, db1) => .ok db1

/-- Body of the loop of `processTableGroups`. -/
def Database.processTableGroup (DEFAULT_SCHEMA_NAME : String) (tableGroup : RawTableGroup)
    (this : Database) : Except Error Database :=
  match (this.route DEFAULT_SCHEMA_NAME tableGroup.schemaName).toExcept with
  | .error e => .error e
  | .ok (i, db) =>
    match (Database.atSchema
        { db with dbState := (TableGroup.new tableGroup db.dbState).2 } i
        (fun schema => schema.pushTableGroup
          (TableGroup.new tableGroup db.dbState).1)).toExcept with
    | .error e => .error e
    | .ok (_, db1) => .ok db1

/-- `processSchemas`. -/
def Database.processSchemas (DEFAULT_SCHEMA_NAME : String) (rawSchemas : List RawSchema)
    (this : Database) : Except Error Database :=
  forEach (Database.processSchema DEFAULT_SCHEMA_NAME) rawSchemas this

/-- `processTables`. -/
def Database.processTables (DEFAULT_SCHEMA_NAME : String) (rawTables : List RawTable)
    (this : Database) : Except Error Database :=
  forEach (Database.processTable DEFAULT_SCHEMA_NAME) rawTables this

/-- `processTags`: the loop, then `bindTagToTable`. -/
def Database.processTags (DEFAULT_SCHEMA_NAME : String) (rawTags : List RawTag)
    (this : Database) : Except Error Database :=
  (forEach (Database.processTag DEFAULT_SCHEMA_NAME) rawTags this).bind
    Database.bindTagToTable

/-- `processRefs`. -/
def Database.processRefs (DEFAULT_SCHEMA_NAME : String) (rawRefs : List RawRef)
    (this : Database) : Except Error Database :=
  forEach (Database.processRef DEFAULT_SCHEMA_NAME) rawRefs this

/-- `processEnums`. -/
def Database.processEnums (DEFAULT_SCHEMA_NAME : String) (rawEnums : List RawEnum)
    (this : Database) : Except Error Database :=
  forEach (Database.processEnum DEFAULT_SCHEMA_NAME) rawEnums this

/-- `processTableGroups`. -/
def Database.processTableGroups (DEFAULT_SCHEMA_NAME : String)
    (rawTableGroups : List RawTableGroup) (this : Database) : Except Error Database :=
  forEach (Database.processTableGroup DEFAULT_SCHEMA_NAME) rawTableGroups this

/-- `findTable`: `findSchema` returns a schema object in every case, so `!schema` holds
only for a reference that designates no held schema. -/
def Database.findTable (DEFAULT_SCHEMA_NAME : String) (this : Database)
    (rawTable : RawTable) : Res Database (Option Table) :=
  match this.findSchema DEFAULT_SCHEMA_NAME
      (orDefault rawTable.schemaName DEFAULT_SCHEMA_NAME) with
  | .raised e db => .raised e db
  | .ok i db =>
    match db.schemas[i]? with
    | none => .raised (.schemaNotExist (orDefault rawTable.schemaName DEFAULT_SCHEMA_NAME)) db
    | some schema => .ok (schema.findTable rawTable.name) db

/-- The state of a `Database` under construction before the first process step: a
fresh allocator that has issued the database identifier, no schema. -/
def Database.init (raw : RawDatabase) : Database :=
  { dbState := (DbState.new.generateId .dbId).2, id := (DbState.new.generateId .dbId).1,
    hasDefaultSchema := false, schemas := [], note := raw.project.note,
    databaseType := raw.project.database_type, name := raw.project.name }

/-- The `Database` constructor: the six process steps in the order of the source. -/
def Database.new (DEFAULT_SCHEMA_NAME : String) (raw : RawDatabase) :
    Except Error Database :=
  (((((Database.processSchemas DEFAULT_SCHEMA_NAME raw.schemas (Database.init raw)).bind
    (Database.processTables DEFAULT_SCHEMA_NAME raw.tables)).bind
    (Database.processTags DEFAULT_SCHEMA_NAME raw.tags)).bind
    (Database.processRefs DEFAULT_SCHEMA_NAME raw.refs)).bind
    (Database.processEnums DEFAULT_SCHEMA_NAME raw.enums)).bind
    (Database.processTableGroups DEFAULT_SCHEMA_NAME raw.tableGroups)

/-! ## JavaScript values, plain records and the two views -/

/-- The values `checkSameId` can return: a boolean, or the falsy alias it stopped at. -/
inductive JsVal where
  | bool (b : Bool)
  | str (s : String)
  | undefined
  deriving DecidableEq, Repr

/-- Truthiness of a value. -/
def JsVal.truthy : JsVal → Bool
  | .bool b => b
  | .str s => s != ""
  | .undefined => false

/-- The expression `a || b`. -/
def JsVal.or (a b : JsVal) : JsVal := if a.truthy then a else b

/-- The expression `a && b`. -/
def JsVal.and (a b : JsVal) : JsVal := if a.truthy then b else a

/-- An optional string property as a value. -/
def JsVal.ofOption : Option String → JsVal
  | some s => .str s
  | none => .undefined

/-- `checkSameId`. -/
def Schema.checkSameId (this schema : Schema) : JsVal :=
  (((JsVal.bool (this.name == schema.name)).or
      (JsVal.bool (this.alias_ == some schema.name))).or
      (JsVal.bool (some this.name == schema.alias_))).or
    ((JsVal.ofOption this.alias_).and (JsVal.bool (this.alias_ == schema.alias_)))

/-- A plain JSON-like value; an object is the list of its properties in the order they
are written, a later property of the same key overriding an earlier one. -/
inductive Json where
  | undefined
  | bool (b : Bool)
  | num (n : Nat)
  | str (s : String)
  | arr (items : List Json)
  | obj (props : List (String × Json))

/-- An optional string property as a JSON value. -/
def Json.ofOption : Option String → Json
  | some s => .str s
  | none => .undefined

/-- The value of property `k` of an object written as the property list `props`. -/
def getProp (props : List (String × Json)) (k : String) : Option Json :=
  (props.reverse.find? (fun kv => kv.1 == k)).map (fun kv => kv.2)

/-- The value of property `k` of a JSON object. -/
def Json.prop (j : Json) (k : String) : Option Json :=
  match j with
  | .obj props => getProp props k
  | _ => none

/-- Modelled from the spec: `table.export()`, a plain record of the table (`table.js`
is not part of the two files); its name and alias are kept. -/
def Table.export (this : Table) : Json :=
  .obj [("name", .str this.name), ("alias", Json.ofOption this.alias_)]

/-- Modelled from the spec: `enum.export()`. -/
def Enum.export (this : Enum) : Json := .obj [("name", .str this.name)]

/-- Modelled from the spec: `tableGroup.export()`. -/
def TableGroup.export (this : TableGroup) : Json := .obj [("name", .str this.name)]

/-- Modelled from the spec: `ref.export()`. -/
def Ref.export (this : Ref) : Json := .obj [("name", Json.ofOption this.name)]

/-- Modelled from the spec: `tag.export()`. -/
def Tag.export (this : Tag) : Json := .obj [("name", .str this.name)]

/-- `Schema.exportChild`. -/
def Schema.exportChild (this : Schema) : List (String × Json) :=
  [("tables", .arr (this.tables.map Table.export)),
   ("enums", .arr (this.enums.map Enum.export)),
   ("tableGroups", .arr (this.tableGroups.map TableGroup.export)),
   ("refs", .arr (this.refs.map Ref.export)),
   ("tags", .arr (this.tags.map Tag.export))]

/-- `Schema.exportChildIds`. -/
def Schema.exportChildIds (this : Schema) : List (String × Json) :=
  [("tableIds", .arr (this.tables.map (fun t => Json.num t.id))),
   ("enumIds", .arr (this.enums.map (fun e => Json.num e.id))),
   ("tableGroupIds", .arr (this.tableGroups.map (fun tg => Json.num tg.id))),
   ("refIds", .arr (this.refs.map (fun r => Json.num r.id))),
   ("tagIds", .arr (this.tags.map (fun t => Json.num t.id)))]

/-- `Schema.exportParentIds`; `database` is the owning database `this.database`. -/
def Schema.exportParentIds (database : Database) : List (String × Json) :=
  [("databaseId", .num database.id)]

/-- `Schema.shallowExport`. -/
def Schema.shallowExport (this : Schema) : List (String × Json) :=
  [("name", .str this.name), ("note", Json.ofOption this.note),
   ("alias", Json.ofOption this.alias_)]

/-- `Schema.export`: `{ ...this.shallowExport(), ...this.exportChild() }`. -/
def Schema.export (this : Schema) : Json :=
  .obj (this.shallowExport ++ this.exportChild)

/-- The flat view `normalize` builds: one bucket per entity kind, each the list of its
entries (identifier and record) in insertion order. -/
structure NormalizedModel where
  database : List (Nat × List (String × Json))
  schemas : List (Nat × List (String × Json))
  refs : List (Nat × List (String × Json))
  enums : List (Nat × List (String × Json))
  tableGroups : List (Nat × List (String × Json))
  tags : List (Nat × List (String × Json))
  tables : List (Nat × List (String × Json))
  endpoints : List (Nat × List (String × Json))
  enumValues : List (Nat × List (String × Json))
  indexes : List (Nat × List (String × Json))
  indexColumns : List (Nat × List (String × Json))
  fields : List (Nat × List (String × Json))

/-- The bucket `{ ...bucket, [id]: record }`: the entry of an identifier already present
is overwritten in place, a new identifier is added at the end. -/
def setEntry (bucket : List (Nat × List (String × Json))) (id : Nat)
    (record : List (String × Json)) : List (Nat × List (String × Json)) :=
  if bucket.any (fun e => e.1 == id) then
    bucket.map (fun e => if e.1 == id then (id, record) else e)
  else bucket ++ [(id, record)]

/-- Modelled from the spec: `table.normalize(model)` inserts the table into the `tables`
bucket and its fields into the `fields` bucket. -/
def Table.normalize (this : Table) (model : NormalizedModel) : NormalizedModel :=
  { model with
    tables := setEntry model.tables this.id [("id", .num this.id), ("name", .str this.name)],
    fields := this.fields.foldl
      (fun b f => setEntry b f.id [("id", .num f.id), ("name", .str f.name)]) model.fields }

/-- Modelled from the spec: `enum.normalize(model)` inserts the enum into `enums`. -/
def Enum.normalize (this : Enum) (model : NormalizedModel) : NormalizedModel :=
  { model with
    enums := setEntry model.enums this.id [("id", .num this.id), ("name", .str this.name)] }

/-- Modelled from the spec: `tableGroup.normalize(model)`. -/
def TableGroup.normalize (this : TableGroup) (model : NormalizedModel) : NormalizedModel :=
  { model with
    tableGroups := setEntry model.tableGroups this.id
      [("id", .num this.id), ("name", .str this.name)] }

/-- Modelled from the spec: `ref.normalize(model)`. -/
def Ref.normalize (this : Ref) (model : NormalizedModel) : NormalizedModel :=
  { model with
    refs := setEntry model.refs this.id
      [("id", .num this.id), ("name", Json.ofOption this.name)] }

/-- Modelled from the spec: `tag.normalize(model)`. -/
def Tag.normalize (this : Tag) (model : NormalizedModel) : NormalizedModel :=
  { model with
    tags := setEntry model.tags this.id [("id", .num this.id), ("name", .str this.name)] }

/-- The record `Schema.normalize` inserts for the schema:
`{ id, ...shallowExport(), ...exportChildIds(), ...exportParentIds() }`. -/
def Schema.record (database : Database) (this : Schema) : List (String × Json) :=
  [("id", .num this.id)] ++ this.shallowExport ++ this.exportChildIds ++
    Schema.exportParentIds database

/-- `Schema.normalize`: the schema's entry, then its tables, enums, table groups, refs
and tags. -/
def Schema.normalize (database : Database) (this : Schema) (model : NormalizedModel) :
    NormalizedModel :=
  this.tags.foldl (fun m t => t.normalize m)
    (this.refs.foldl (fun m r => r.normalize m)
      (this.tableGroups.foldl (fun m tg => tg.normalize m)
        (this.enums.foldl (fun m e => e.normalize m)
          (this.tables.foldl (fun m t => t.normalize m)
            { model with
              schemas := setEntry model.schemas this.id (Schema.record database this) }))))

/-- `Database.exportChild`. -/
def Database.exportChild (this : Database) : List (String × Json) :=
  [("schemas", .arr (this.schemas.map Schema.export))]

/-- `Database.shallowExport`. -/
def Database.shallowExport (this : Database) : List (String × Json) :=
  [("hasDefaultSchema", .bool this.hasDefaultSchema), ("note", Json.ofOption this.note),
   ("databaseType", Json.ofOption this.databaseType), ("name", Json.ofOption this.name)]

/-- `Database.export`: the spread of `exportChild()` alone. -/
def Database.export (this : Database) : Json :=
  .obj this.exportChild

/-- `Database.exportChildIds`. -/
def Database.exportChildIds (this : Database) : List (String × Json) :=
  [("schemaIds", .arr (this.schemas.map (fun s => Json.num s.id)))]

/-- The record of the database in the `database` bucket:
`{ id, ...shallowExport(), ...exportChildIds() }`. -/
def Database.record (this : Database) : List (String × Json) :=
  [("id", .num this.id)] ++ this.shallowExport ++ this.exportChildIds

/-- `Database.normalize`. -/
def Database.normalize (this : Database) : NormalizedModel :=
  this.schemas.foldl (fun m schema => schema.normalize this m)
    { database := [(this.id, this.record)], schemas := [], refs := [], enums := [],
      tableGroups := [], tags := [], tables := [], endpoints := [], enumValues := [],
      indexes := [], indexColumns := [], fields := [] }

/-! ## Vocabulary of the statements -/

/-- A table with the enum links of its fields erased: what `bindEnumToField` leaves
untouched in a table. -/
def Table.unlink (t : Table) : Table :=
  { t with fields := t.fields.map (fun f => { f with _enum := none }) }

/-- A schema with the enum links of the fields of its tables erased. -/
def Schema.unlink (s : Schema) : Schema :=
  { s with tables := s.tables.map Table.unlink }

/-- Schema states reachable from a schema with empty collections by the push methods,
whether a call returns or raises; `pushEnum` is run on a schema under construction or on
a schema a database holds, and a schema a database holds is also visited by the scan of
a `pushEnum` on a sibling. -/
inductive Schema.Reachable (DEFAULT_SCHEMA_NAME : String) : Schema → Prop where
  | empty (s : Schema) (ht : s.tables = []) (he : s.enums = []) (hg : s.tags = [])
      (htg : s.tableGroups = []) (hr : s.refs = []) : Schema.Reachable DEFAULT_SCHEMA_NAME s
  | pushTable (s : Schema) (t : Table) (h : Schema.Reachable DEFAULT_SCHEMA_NAME s) :
      Schema.Reachable DEFAULT_SCHEMA_NAME (s.pushTable t).state
  | pushTag (s : Schema) (t : Tag) (h : Schema.Reachable DEFAULT_SCHEMA_NAME s) :
      Schema.Reachable DEFAULT_SCHEMA_NAME (s.pushTag t).state
  | pushTableGroup (s : Schema) (t : TableGroup)
      (h : Schema.Reachable DEFAULT_SCHEMA_NAME s) :
      Schema.Reachable DEFAULT_SCHEMA_NAME (s.pushTableGroup t).state
  | pushRef (s : Schema) (r : Ref) (h : Schema.Reachable DEFAULT_SCHEMA_NAME s) :
      Schema.Reachable DEFAULT_SCHEMA_NAME (s.pushRef r).state
  | pushEnum (db : Database) (s : Schema) (e : Enum)
      (h : Schema.Reachable DEFAULT_SCHEMA_NAME s) :
      Schema.Reachable DEFAULT_SCHEMA_NAME (Schema.pushEnum DEFAULT_SCHEMA_NAME db s e).state.2
  | pushEnumAt (db : Database) (i j : Nat) (e : Enum) (s s1 : Schema)
      (hs : db.schemas[j]? = some s)
      (hs1 : (Database.pushEnumAt DEFAULT_SCHEMA_NAME db i e).state.schemas[j]? = some s1)
      (h : Schema.Reachable DEFAULT_SCHEMA_NAME s) : Schema.Reachable DEFAULT_SCHEMA_NAME s1

/-- Schema states reachable by `pushRef` from a schema with an empty refs list. -/
inductive Schema.RefsReachable : Schema → Prop where
  | empty (s : Schema) (hr : s.refs = []) : Schema.RefsReachable s
  | pushRef (s : Schema) (r : Ref) (h : Schema.RefsReachable s) :
      Schema.RefsReachable (s.pushRef r).state

/-- What identifies an entity a schema holds, whatever links it has received since it
was constructed: the raw data of a table, the name of a tag, enum or table group, the
name and endpoints of a ref. -/
inductive Key where
  | table (name : String) (alias_ : Option String) (fields : List RawField)
      (rawTags : List RawTag)
  | tag (name : String)
  | enum (name : String)
  | tableGroup (name : String)
  | ref (name : Option String) (endpoints : Endpoint × Endpoint)
  deriving DecidableEq, Repr

/-- The key of a table. -/
def Table.key (t : Table) : Key :=
  .table t.name t.alias_ (t.fields.map (fun f => { name := f.name, type := f.type }))
    t.rawTags

/-- The key of the table, tag, enum, table group and ref constructed from a raw record. -/
def RawTable.key (r : RawTable) : Key := .table r.name r.alias_ r.fields r.tags

/-- The keys of the entities a schema holds. -/
def Schema.keys (s : Schema) : List Key :=
  s.tables.map Table.key ++ s.tags.map (fun t => Key.tag t.name) ++
    s.enums.map (fun e => Key.enum e.name) ++
    s.tableGroups.map (fun t => Key.tableGroup t.name) ++
    s.refs.map (fun r => Key.ref r.name r.endpoints)

/-- The schema `s1` is a later state of the schema `s`: same name and alias, and every
entity held is still held. -/
def Schema.Le (s s1 : Schema) : Prop :=
  s1.name = s.name ∧ s1.alias_ = s.alias_ ∧ s.keys ⊆ s1.keys

/-- The database `db1` is a later state of `db`: every held schema is still held at the
same position, in a later state. -/
def Database.Le (db db1 : Database) : Prop :=
  ∀ (i : Nat) (s : Schema), db.schemas[i]? = some s →
    ∃ s1, db1.schemas[i]? = some s1 ∧ Schema.Le s s1

/-- The schema `findSchema(schemaName)` constructs when it finds none. -/
def createdSchema (DEFAULT_SCHEMA_NAME : String) (db : Database) (schemaName : String) :
    Schema :=
  { id := (db.dbState.generateId .schemaId).1, name := schemaName,
    note := some (if schemaName == DEFAULT_SCHEMA_NAME then
      defaultSchemaNote DEFAULT_SCHEMA_NAME else ""),
    alias_ := none, tables := [], tags := [], enums := [], tableGroups := [], refs := [] }

/-- The schema `findSchema(schemaName)` finds holds an entity with key `k`. -/
def Database.HoldsIn (db : Database) (schemaName : String) (k : Key) : Prop :=
  ∃ i s, firstIdx (schemaMatches schemaName) db.schemas = some i ∧
    db.schemas[i]? = some s ∧ k ∈ s.keys

/-- The contribution of one routed record to `hasDefaultSchema`. -/
def setsDefaultFlag (DEFAULT_SCHEMA_NAME : String) (schemaName : Option String) : Bool :=
  truthy schemaName && schemaName == some DEFAULT_SCHEMA_NAME

/-- The `schemaName` properties of the top-level records of a bundle, in the order the
constructor processes them. -/
def RawDatabase.schemaNames (raw : RawDatabase) : List (Option String) :=
  raw.tables.map (fun r => r.schemaName) ++ raw.tags.map (fun r => r.schemaName) ++
    raw.refs.map (fun r => r.schemaName) ++ raw.enums.map (fun r => r.schemaName) ++
    raw.tableGroups.map (fun r => r.schemaName)

/-- One step of the construction pipeline: the database afterwards is a later state, and
distinct schema names stay distinct. -/
def Database.Step (db db1 : Database) : Prop :=
  Database.Le db db1 ∧
    ((db.schemas.map (fun s => s.name)).Nodup → (db1.schemas.map (fun s => s.name)).Nodup)

/-- The common shape of the bodies of `processTables`, `processTags`, `processRefs` and
`processTableGroups`: route the record, construct the entity (advancing the allocator
by `next`), push it with `op`. -/
def routedPush (DEFAULT_SCHEMA_NAME : String) (schemaName : Option String)
    (next : DbState → DbState) (op : DbState → Schema → Res Schema Unit)
    (this : Database) : Except Error Database :=
  match (this.route DEFAULT_SCHEMA_NAME schemaName).toExcept with
  | .error e => .error e
  | .ok (i, db) =>
    match (Database.atSchema { db with dbState := next db.dbState } i
        (op db.dbState)).toExcept with
    | .error e => .error e
    | .ok (_, db1) => .ok db1

/-- What the loops of the `Schema` constructor keep: the held schemas of the database up
to enum links, the `hasDefaultSchema` flag, and the name and alias of the schema under
construction. -/
def ctorFrame (st st1 : Database × Schema) : Prop :=
  st1.1.schemas.map Schema.unlink = st.1.schemas.map Schema.unlink ∧
    st1.1.hasDefaultSchema = st.1.hasDefaultSchema ∧
    st1.2.name = st.2.name ∧ st1.2.alias_ = st.2.alias_

/-- What tag binding keeps of a schema: everything but its tags, whose names are kept. -/
def tagFrame (s s1 : Schema) : Prop :=
  s1.name = s.name ∧ s1.alias_ = s.alias_ ∧ s1.tables = s.tables ∧ s1.enums = s.enums ∧
    s1.tableGroups = s.tableGroups ∧ s1.refs = s.refs ∧
    s.tags.map (fun t => t.name) ⊆ s1.tags.map (fun t => t.name)

/-- Schema states reachable from a schema without tables by successful `pushTable`
calls. -/
inductive Schema.TablesReachable : Schema → Prop where
  | empty (s : Schema) (ht : s.tables = []) : Schema.TablesReachable s
  | pushTable (s s1 : Schema) (t : Table) (h : Schema.TablesReachable s)
      (hp : s.pushTable t = .ok () s1) : Schema.TablesReachable s1

/-- What makes a property of the database an invariant of the construction pipeline: it
is kept by each elementary change the constructor makes. -/
structure PipelineInv (DEFAULT_SCHEMA_NAME : String) (I : Database → Prop) : Prop where
  flag : ∀ db : Database, I db → I { db with hasDefaultSchema := true }
  create : ∀ (db : Database) (name : String), I db →
    firstIdx (schemaMatches name) db.schemas = none →
    I { db with dbState := (db.dbState.generateId .schemaId).2,
                schemas := db.schemas ++ [createdSchema DEFAULT_SCHEMA_NAME db name] }
  table : ∀ (db : Database) (i : Nat) (s : Schema) (r : RawTable), I db →
    db.schemas[i]? = some s → (∀ x ∈ s.tables, x.name ≠ r.name) →
    I { db with dbState := (Table.new r db.dbState).2,
                schemas := db.schemas.set i
                  { s with tables := s.tables ++ [(Table.new r db.dbState).1] } }
  tag : ∀ (db : Database) (i : Nat) (s : Schema) (r : RawTag), I db →
    db.schemas[i]? = some s → (∀ x ∈ s.tags, x.name ≠ r.name) →
    I { db with dbState := (Tag.new r db.dbState).2,
                schemas := db.schemas.set i
                  { s with tags := s.tags ++ [(Tag.new r db.dbState).1] } }
  ref : ∀ (db : Database) (i : Nat) (s : Schema) (r : RawRef), I db →
    db.schemas[i]? = some s →
    I { db with dbState := (Ref.new r db.dbState).2,
                schemas := db.schemas.set i
                  { s with refs := s.refs ++ [(Ref.new r db.dbState).1] } }
  tableGroup : ∀ (db : Database) (i : Nat) (s : Schema) (r : RawTableGroup), I db →
    db.schemas[i]? = some s →
    I { db with dbState := (TableGroup.new r db.dbState).2,
                schemas := db.schemas.set i
                  { s with tableGroups := s.tableGroups ++ [(TableGroup.new r db.dbState).1] } }
  enumAt : ∀ (db : Database) (i : Nat) (r : RawEnum), I db →
    I (Database.pushEnumAt DEFAULT_SCHEMA_NAME
        { db with dbState := (Enum.new r db.dbState).2 } i (Enum.new r db.dbState).1).state
  schema : ∀ (db db1 : Database) (raw : RawSchema) (s : Schema), I db →
    Schema.new DEFAULT_SCHEMA_NAME raw db = .ok (s, db1) →
    (∀ x ∈ db1.schemas, x.name ≠ s.name) →
    I { db1 with schemas := db1.schemas ++ [s] }
  bind : ∀ db db1 : Database, I db → db.bindTagToTable = .ok db1 → I db1

/-- The tags `l1` are a later state of the tags `l` under tag binding: every tag is still
held with its identifier, its name and at least the tables it had; the names are the old
names followed by new ones; and distinct names stay distinct. -/
def tagsGrow (l l1 : List Tag) : Prop :=
  (∀ tag ∈ l, ∃ tag1 ∈ l1, tag1.id = tag.id ∧ tag1.name = tag.name ∧
      tag.tables ⊆ tag1.tables) ∧
    (∃ new : List String, l1.map (fun t => t.name) = l.map (fun t => t.name) ++ new) ∧
    ((l.map (fun t => t.name)).Nodup → (l1.map (fun t => t.name)).Nodup)

/-- The table `t1` is a later state of the table `t` under tag binding: only its tag list
has changed, by growing. -/
def tableGrow (t t1 : Table) : Prop :=
  t1.id = t.id ∧ t1.name = t.name ∧ t1.alias_ = t.alias_ ∧ t1.fields = t.fields ∧
    t1.rawTags = t.rawTags ∧ t.tags ⊆ t1.tags

/-- The table is bound to a tag named `n` among `tags`: the tag is in the table's tag list
and the table is in the tag's table list. -/
def Table.boundTo (t : Table) (tags : List Tag) (n : String) : Prop :=
  ∃ tag ∈ tags, tag.name = n ∧ tag.id ∈ t.tags ∧ t.id ∈ tag.tables

/-- Every table of the schema is bound, for each tag name it declares, to a tag of that
name held by the schema. -/
def Schema.AllBound (s : Schema) : Prop :=
  ∀ t ∈ s.tables, ∀ rawTag ∈ t.rawTags, t.boundTo s.tags rawTag.name

/-- What one step of tag binding does to the schema and the allocator it works on. -/
def bindStep (b b1 : Schema × DbState) : Prop :=
  b1.1.id = b.1.id ∧ b1.1.name = b.1.name ∧ b1.1.alias_ = b.1.alias_ ∧
    b1.1.enums = b.1.enums ∧ b1.1.tableGroups = b.1.tableGroups ∧ b1.1.refs = b.1.refs ∧
    b1.1.note = b.1.note ∧ tagsGrow b.1.tags b1.1.tags ∧ b1.2.schemaId = b.2.schemaId

/-- What tag binding does to one schema. -/
def schemaBound (s s1 : Schema) : Prop :=
  s1.id = s.id ∧ s1.name = s.name ∧ s1.alias_ = s.alias_ ∧ s1.enums = s.enums ∧
    s1.tableGroups = s.tableGroups ∧ s1.refs = s.refs ∧ s1.note = s.note ∧
    tagsGrow s.tags s1.tags ∧ List.Forall₂ tableGrow s.tables s1.tables ∧ s1.AllBound

/-- The schema identifiers increase strictly along the schemas list and are all below
the next identifier the allocator issues for a schema. -/
def Database.idsIncreasing (db : Database) : Prop :=
  (db.schemas.map (fun s => s.id)).Pairwise (fun a b => a < b) ∧
    ∀ s ∈ db.schemas, s.id < db.dbState.schemaId

/-- What the loops of the `Schema` constructor keep of the identifiers: the schema counter
of the allocator and the identifier of the schema under construction. -/
def ctorIds (st st1 : Database × Schema) : Prop :=
  st1.1.dbState.schemaId = st.1.dbState.schemaId ∧ st1.2.id = st.2.id

/-- The tag names of each held schema are pairwise distinct. -/
def Database.tagsDistinct (db : Database) : Prop :=
  ∀ s ∈ db.schemas, (s.tags.map (fun t => t.name)).Nodup

/-- Every table of every held schema is bound for each of its raw tags. -/
def Database.allBound (db : Database) : Prop :=
  ∀ s ∈ db.schemas, s.AllBound

/-! ## Concrete inputs -/

/-- The empty bundle. -/
def emptyBundle : RawDatabase :=
  { schemas := [], tables := [], enums := [], refs := [], tableGroups := [], tags := [],
    project := ⟨none, none, none⟩ }

/-- A table reference `{ name: "users", schemaName: "x" }`. -/
def usersInX : RawTable := ⟨some "x", "users", none, [], []⟩

/-- A bundle with one table `a.t` whose field `st` has the declared type `b.status`, and
one enum `b.status`. -/
def crossSchemaEnumBundle : RawDatabase :=
  { schemas := [],
    tables := [⟨some "a", "t", none, [⟨"st", ⟨"status", some "b"⟩⟩], []⟩],
    enums := [⟨some "b", "status"⟩], refs := [], tableGroups := [], tags := [],
    project := ⟨none, none, none⟩ }

/-- The bundle of the single raw table `{ name: "users" }`. -/
def usersBundle : RawDatabase :=
  { schemas := [], tables := [⟨none, "users", none, [], []⟩], enums := [], refs := [],
    tableGroups := [], tags := [], project := ⟨none, none, none⟩ }

/-- The bundle of the single raw table `{ name: "users", schemaName: "public" }`. -/
def publicUsersBundle : RawDatabase :=
  { schemas := [], tables := [⟨some "public", "users", none, [], []⟩], enums := [],
    refs := [], tableGroups := [], tags := [], project := ⟨none, none, none⟩ }

/-- A declared schema `foo` with alias `public`, and the raw table `{ name: "users" }`. -/
def aliasedDefaultBundle : RawDatabase :=
  { schemas := [⟨"foo", some "public", none, [], [], [], [], []⟩],
    tables := [⟨none, "users", none, [], []⟩], enums := [], refs := [],
    tableGroups := [], tags := [], project := ⟨none, none, none⟩ }

/-- Two declared schemas `a` and `b`, both with alias `x`. -/
def sharedAliasBundle : RawDatabase :=
  { schemas := [⟨"a", some "x", none, [], [], [], [], []⟩,
                ⟨"b", some "x", none, [], [], [], [], []⟩],
    tables := [], enums := [], refs := [], tableGroups := [], tags := [],
    project := ⟨none, none, none⟩ }

/-- Two raw tables `{ name: "users", schemaName: "public" }`. -/
def duplicateUsersBundle : RawDatabase :=
  { schemas := [],
    tables := [⟨some "public", "users", none, [], []⟩,
               ⟨some "public", "users", none, [], []⟩],
    enums := [], refs := [], tableGroups := [], tags := [],
    project := ⟨none, none, none⟩ }

/-- Two declared schemas both named `a`, and two raw tables
`{ name: "users", schemaName: "public" }`. -/
def duplicateSchemasBundle : RawDatabase :=
  { schemas := [⟨"a", none, none, [], [], [], [], []⟩, ⟨"a", none, none, [], [], [], [], []⟩],
    tables := [⟨some "public", "users", none, [], []⟩,
               ⟨some "public", "users", none, [], []⟩],
    enums := [], refs := [], tableGroups := [], tags := [],
    project := ⟨none, none, none⟩ }

/-- The first held schema with name or alias `name`: the schema `findSchema(name)`
returns when there is one. -/
def Database.FirstMatch (db : Database) (name : String) (s : Schema) : Prop :=
  ∃ i : Nat, db.schemas[i]? = some s ∧ (s.name = name ∨ s.alias_ = some name) ∧
    ∀ j : Nat, j < i → ∀ t : Schema, db.schemas[j]? = some t →
      ¬ (t.name = name ∨ t.alias_ = some name)

/-- A schema `public` with empty collections. -/
def emptySchema : Schema :=
  { id := 1, name := "public", note := none, alias_ := none, tables := [], tags := [],
    enums := [], tableGroups := [], refs := [] }

/-- A table `users` without fields. -/
def usersTable : Table :=
  { id := 1, name := "users", alias_ := none, fields := [], rawTags := [], tags := [] }

/-- A ref from `users.id` to `posts.user_id`. -/
def usersPostsRef : Ref :=
  { id := 1, name := none,
    endpoints := (⟨none, "users", ["id"]⟩, ⟨none, "posts", ["user_id"]⟩) }

/-- The same two endpoints in the other direction. -/
def postsUsersRef : Ref :=
  { id := 2, name := none,
    endpoints := (⟨none, "posts", ["user_id"]⟩, ⟨none, "users", ["id"]⟩) }

/-- A database holding the single schema `public`. -/
def publicDb : Database :=
  { Database.init emptyBundle with schemas := [emptySchema] }

/-- A bundle with one table `x.users` whose field `st` has the declared type
`x.status`, and one enum `zz.status`. -/
def foreignEnumBundle : RawDatabase :=
  { schemas := [],
    tables := [⟨some "x", "users", none, [⟨"st", ⟨"status", some "x"⟩⟩], []⟩],
    enums := [⟨some "zz", "status"⟩], refs := [], tableGroups := [], tags := [],
    project := ⟨none, none, none⟩ }

/-- A declared schema `public` holding the enum `status`, and a top-level table
`public.t` whose field `st` has the type name `status`. -/
def enumBeforeTableBundle : RawDatabase :=
  { schemas := [⟨"public", none, none, [], [], [⟨none, "status"⟩], [], []⟩],
    tables := [⟨some "public", "t", none, [⟨"st", ⟨"status", none⟩⟩], []⟩],
    enums := [], refs := [], tableGroups := [], tags := [],
    project := ⟨none, none, none⟩ }

/-- A table `u` with alias `users`. -/
def aliasedTable : Table :=
  { id := 2, name := "u", alias_ := some "users", fields := [], rawTags := [], tags := [] }

/-- A schema `u` with alias `public`. -/
def aliasPublicSchema : Schema :=
  { id := 2, name := "u", note := none, alias_ := some "public", tables := [], tags := [],
    enums := [], tableGroups := [], refs := [] }

/-- A bundle without records whose project is named `shop`, with a note and a database
type. -/
def shopBundle : RawDatabase :=
  { schemas := [⟨"public", none, some "main", [], [], [], [], []⟩], tables := [],
    enums := [], refs := [], tableGroups := [], tags := [],
    project := ⟨some "shop", some "the shop", some "PostgreSQL"⟩ }

/-- A database whose schema `public` holds the tables `users`, declaring the tag `pii`
twice, and `posts`, declaring it once, and no tag yet. -/
def taggedDb : Database :=
  { Database.init emptyBundle with
    schemas := [{ emptySchema with
      tables := [⟨1, "users", none, [], [⟨none, "pii"⟩, ⟨none, "pii"⟩], []⟩,
                 ⟨2, "posts", none, [], [⟨none, "pii"⟩], []⟩] }] }

/-- A declared schema `main`, a table routed to a schema `x` that is not declared, and
an enum without `schemaName`. -/
def mixedSchemasBundle : RawDatabase :=
  { schemas := [⟨"main", none, none, [], [], [], [], []⟩],
    tables := [⟨some "x", "users", none, [⟨"id", ⟨"int", none⟩⟩], []⟩],
    enums := [⟨none, "status"⟩], refs := [], tableGroups := [], tags := [],
    project := ⟨none, none, none⟩ }

/-- Two tables `users` and `posts` that both declare the tag `pii`. -/
def sharedTagBundle : RawDatabase :=
  { schemas := [],
    tables := [⟨none, "users", none, [], [⟨none, "pii"⟩]⟩,
               ⟨none, "posts", none, [], [⟨none, "pii"⟩]⟩],
    enums := [], refs := [], tableGroups := [], tags := [],
    project := ⟨none, none, none⟩ }

/-- The enum links of a database: per schema its name, the `_enum` of every field of
every table, and the field list of every enum. -/
def Database.enumLinks (db : Database) :
    List (String × List (List (Option Nat)) × List (List Nat)) :=
  db.schemas.map (fun s =>
    (s.name, s.tables.map (fun t => t.fields.map (fun f => f._enum)),
      s.enums.map (fun e => e.fields)))

/-! ## General lemmas -/

theorem firstIdx_eq_none {α : Type} (p : α → Bool) (l : List α) :
    firstIdx p l = none ↔ ∀ a ∈ l, p a = false := by
  induction l with
  | nil => simp [firstIdx]
  | cons a rest ih =>
    by_cases h : p a = true
    · simp [firstIdx, h]
    · simp [firstIdx, h, ih]

theorem firstIdx_eq_some {α : Type} (p : α → Bool) (l : List α) (i : Nat)
    (h : firstIdx p l = some i) :
    (∃ a, l[i]? = some a ∧ p a = true) ∧ ∀ j, j < i → ∀ b, l[j]? = some b → p b = false := by
  induction l generalizing i with
  | nil => simp [firstIdx] at h
  | cons a rest ih =>
    by_cases hp : p a = true
    · simp [firstIdx, hp] at h
      subst h
      simp [hp]
    · simp only [firstIdx, hp, Bool.false_eq_true, if_false, Option.map_eq_some'] at h
      obtain ⟨k, hk, rfl⟩ := h
      obtain ⟨⟨b, hb, hpb⟩, hlt⟩ := ih k hk
      refine ⟨⟨b, by simpa using hb, hpb⟩, ?_⟩
      intro j hj c hc
      cases j with
      | zero => simp at hc; subst hc; simpa using hp
      | succ j => exact hlt j (by omega) c (by simpa using hc)

theorem firstIdx_isSome_of_mem {α : Type} (p : α → Bool) (l : List α) (a : α)
    (ha : a ∈ l) (hp : p a = true) : ∃ i, firstIdx p l = some i := by
  cases h : firstIdx p l with
  | some i => exact ⟨i, rfl⟩
  | none =>
    have := (firstIdx_eq_none p l).1 h a ha
    simp [hp] at this


theorem mapAccum_map_eq {α β γ : Type} (f : α → β → α × β) (g : α → γ)
    (h : ∀ a b, g (f a b).1 = g a) (l : List α) (b : β) :
    (mapAccum f l b).1.map g = l.map g := by
  induction l generalizing b with
  | nil => simp [mapAccum]
  | cons a rest ih => simp [mapAccum, h, ih]

theorem mapAccum_snd_inv {α β : Type} (f : α → β → α × β) (P : β → Prop)
    (h : ∀ a b, P b → P (f a b).2) (l : List α) (b : β) (hb : P b) :
    P (mapAccum f l b).2 := by
  induction l generalizing b with
  | nil => simpa [mapAccum] using hb
  | cons a rest ih => exact ih _ (h a b hb)


theorem firstIdx_of_spec {α : Type} (p : α → Bool) (l : List α) (i : Nat) (a : α)
    (ha : l[i]? = some a) (hp : p a = true)
    (hlt : ∀ j, j < i → ∀ b, l[j]? = some b → p b = false) : firstIdx p l = some i := by
  induction l generalizing i with
  | nil => simp at ha
  | cons x rest ih =>
    cases i with
    | zero =>
      simp at ha
      subst ha
      simp [firstIdx, hp]
    | succ k =>
      have hx : p x = false := hlt 0 (by omega) x (by simp)
      have hk := ih k (by simpa using ha) (fun j hj b hb => hlt (j + 1) (by omega) b (by simpa using hb))
      simp [firstIdx, hx, hk]

theorem forEach_rel {α σ : Type} (body : α → σ → Except Error σ) (Q : σ → σ → Prop)
    (hrefl : ∀ s, Q s s) (htrans : ∀ a b c, Q a b → Q b c → Q a c)
    (h : ∀ a s s1, body a s = .ok s1 → Q s s1) (l : List α) (s s1 : σ)
    (hl : forEach body l s = .ok s1) : Q s s1 := by
  induction l generalizing s with
  | nil => simp only [forEach, Except.ok.injEq] at hl; subst hl; exact hrefl s
  | cons a rest ih =>
    simp only [forEach] at hl
    cases hb : body a s with
    | error e => simp [hb] at hl
    | ok s2 =>
      simp only [hb] at hl
      exact htrans _ _ _ (h a s s2 hb) (ih s2 hl)

theorem forEach_append {α σ : Type} (body : α → σ → Except Error σ) (l1 l2 : List α)
    (s : σ) : forEach body (l1 ++ l2) s = (forEach body l1 s).bind (forEach body l2) := by
  induction l1 generalizing s with
  | nil => simp [forEach, Except.bind]
  | cons a rest ih =>
    simp only [List.cons_append, forEach]
    cases hb : body a s with
    | error e => simp [Except.bind]
    | ok s2 => simp [ih]

theorem mapAccumE_rel {α β : Type} (body : α → β → Except Error (α × β))
    (R : α → α → Prop) (Q : β → β → Prop)
    (hrefl : ∀ b, Q b b) (htrans : ∀ a b c, Q a b → Q b c → Q a c)
    (h : ∀ a b a1 b1, body a b = .ok (a1, b1) → R a a1 ∧ Q b b1)
    (l : List α) (b : β) (l1 : List α) (b1 : β)
    (hl : mapAccumE body l b = .ok (l1, b1)) : List.Forall₂ R l l1 ∧ Q b b1 := by
  induction l generalizing b l1 with
  | nil =>
    simp only [mapAccumE, Except.ok.injEq, Prod.mk.injEq] at hl
    obtain ⟨rfl, rfl⟩ := hl
    exact ⟨List.Forall₂.nil, hrefl b⟩
  | cons a rest ih =>
    simp only [mapAccumE] at hl
    cases hb : body a b with
    | error e => simp [hb] at hl
    | ok r =>
      obtain ⟨a2, b2⟩ := r
      simp only [hb] at hl
      cases hr : mapAccumE body rest b2 with
      | error e => simp [hr] at hl
      | ok r2 =>
        obtain ⟨rest2, b3⟩ := r2
        simp only [hr, Except.ok.injEq, Prod.mk.injEq] at hl
        obtain ⟨rfl, rfl⟩ := hl
        obtain ⟨h1, h2⟩ := h a b a2 b2 hb
        obtain ⟨h3, h4⟩ := ih b2 rest2 hr
        exact ⟨List.Forall₂.cons h1 h3, htrans _ _ _ h2 h4⟩

theorem forall₂_getElem? {α : Type} (R : α → α → Prop) (l l1 : List α)
    (h : List.Forall₂ R l l1) (i : Nat) (a : α) (ha : l[i]? = some a) :
    ∃ a1, l1[i]? = some a1 ∧ R a a1 := by
  induction h generalizing i with
  | nil => simp at ha
  | cons hab _ ih =>
    cases i with
    | zero => simp at ha; subst ha; exact ⟨_, by simp, hab⟩
    | succ k => simpa using ih k (by simpa using ha)

/-! ## Enum binding: what the scan leaves untouched -/

theorem bindEnumField_unlink (D n : String) (f : Field) (e : Enum) :
    ({ (bindEnumField D n f e).1 with _enum := none } : Field) = { f with _enum := none } := by
  unfold bindEnumField
  split <;> rfl

theorem bindEnumField_enum (D n : String) (f : Field) (e : Enum) :
    (bindEnumField D n f e).2.id = e.id ∧ (bindEnumField D n f e).2.name = e.name := by
  unfold bindEnumField
  split <;> simp [Enum.pushField]

theorem bindEnumTable_unlink (D n : String) (t : Table) (e : Enum) :
    (bindEnumTable D n t e).1.unlink = t.unlink := by
  simp only [bindEnumTable, Table.unlink]
  congr 1
  exact mapAccum_map_eq _ (fun f : Field => ({ f with _enum := none } : Field))
    (fun a b => bindEnumField_unlink D n a b) _ _

theorem bindEnumTable_enum (D n : String) (t : Table) (e : Enum) :
    (bindEnumTable D n t e).2.id = e.id ∧ (bindEnumTable D n t e).2.name = e.name := by
  simp only [bindEnumTable]
  exact mapAccum_snd_inv _ (fun x : Enum => x.id = e.id ∧ x.name = e.name)
    (fun a b hb => by
      obtain ⟨h1, h2⟩ := bindEnumField_enum D n a b
      exact ⟨h1.trans hb.1, h2.trans hb.2⟩) _ _ ⟨rfl, rfl⟩

theorem bindEnumSchema_unlink (D : String) (s : Schema) (e : Enum) :
    (bindEnumSchema D s e).1.unlink = s.unlink := by
  simp only [bindEnumSchema, Schema.unlink]
  congr 1
  exact mapAccum_map_eq _ Table.unlink (fun a b => bindEnumTable_unlink D s.name a b) _ _

theorem bindEnumSchema_enum (D : String) (s : Schema) (e : Enum) :
    (bindEnumSchema D s e).2.id = e.id ∧ (bindEnumSchema D s e).2.name = e.name := by
  simp only [bindEnumSchema]
  exact mapAccum_snd_inv _ (fun x : Enum => x.id = e.id ∧ x.name = e.name)
    (fun a b hb => by
      obtain ⟨h1, h2⟩ := bindEnumTable_enum D s.name a b
      exact ⟨h1.trans hb.1, h2.trans hb.2⟩) _ _ ⟨rfl, rfl⟩

theorem bindEnumToField_unlink (D : String) (schemas : List Schema) (e : Enum) :
    (Schema.bindEnumToField D schemas e).1.map Schema.unlink = schemas.map Schema.unlink :=
  mapAccum_map_eq _ Schema.unlink (fun a b => bindEnumSchema_unlink D a b) _ _

theorem bindEnumToField_enum (D : String) (schemas : List Schema) (e : Enum) :
    (Schema.bindEnumToField D schemas e).2.id = e.id ∧
      (Schema.bindEnumToField D schemas e).2.name = e.name :=
  mapAccum_snd_inv _ (fun x : Enum => x.id = e.id ∧ x.name = e.name)
    (fun a b hb => by
      obtain ⟨h1, h2⟩ := bindEnumSchema_enum D a b
      exact ⟨h1.trans hb.1, h2.trans hb.2⟩) _ _ ⟨rfl, rfl⟩

theorem bindEnumToField_getElem? (D : String) (schemas : List Schema) (e : Enum) (j : Nat)
    (s : Schema) (hs : schemas[j]? = some s) :
    ∃ b, (Schema.bindEnumToField D schemas e).1[j]? = some b ∧ b.unlink = s.unlink := by
  have h := congrArg (fun l => l[j]?) (bindEnumToField_unlink D schemas e)
  simp only [List.getElem?_map, hs, Option.map_some'] at h
  cases hb : (Schema.bindEnumToField D schemas e).1[j]? with
  | none => simp [hb] at h
  | some b => exact ⟨b, rfl, by simpa [hb] using h⟩

theorem unlink_fields {a b : Schema} (h : a.unlink = b.unlink) :
    a.id = b.id ∧ a.name = b.name ∧ a.note = b.note ∧ a.alias_ = b.alias_ ∧
      a.tags = b.tags ∧ a.enums = b.enums ∧ a.tableGroups = b.tableGroups ∧
      a.refs = b.refs ∧ a.tables.map Table.unlink = b.tables.map Table.unlink := by
  simp only [Schema.unlink, Schema.mk.injEq] at h
  obtain ⟨h1, h2, h3, h4, h5, h6, h7, h8, h9⟩ := h
  exact ⟨h1, h2, h3, h4, h6, h7, h8, h9, h5⟩

theorem unlink_table_names {a b : List Table}
    (h : a.map Table.unlink = b.map Table.unlink) :
    a.map (fun t => t.name) = b.map (fun t => t.name) := by
  have := congrArg (List.map (fun t : Table => t.name)) h
  simpa [List.map_map, Function.comp_def, Table.unlink] using this

/-! ## `Database.pushSchema` and `Database.findSchema` -/

theorem checkSchema_eq_none (db : Database) (schema : Schema) :
    db.checkSchema schema = none ↔ ∀ s ∈ db.schemas, s.name ≠ schema.name := by
  unfold Database.checkSchema
  by_cases h : db.schemas.any (fun s => s.name == schema.name) = true
  · simp only [h, if_true]
    simp only [List.any_eq_true, beq_iff_eq] at h
    obtain ⟨s, hs, hn⟩ := h
    constructor
    · intro h0; cases h0
    · intro h0; exact absurd hn (h0 s hs)
  · simp only [h, Bool.false_eq_true, if_false, true_iff]
    simp only [List.any_eq_true, beq_iff_eq, not_exists, not_and] at h
    exact h

theorem schema_new_auto (D : String) (db : Database) (name : String) :
    Schema.new D (autoSchema D name) db =
      .ok (createdSchema D db name,
           { db with dbState := (db.dbState.generateId .schemaId).2 }) := by
  simp [Schema.new, autoSchema, createdSchema, forEach, Except.bind]

theorem schemaMatches_iff (name : String) (s : Schema) :
    schemaMatches name s = true ↔ (s.name = name ∨ s.alias_ = some name) := by
  simp [schemaMatches]

theorem schemaMatches_eq_false (name : String) (s : Schema) :
    schemaMatches name s = false ↔ ¬ (s.name = name ∨ s.alias_ = some name) := by
  rw [← schemaMatches_iff]; simp

/-- The two outcomes of `findSchema`: the first match is returned and nothing changes,
or no held schema matches and the created schema is appended and returned. -/
theorem findSchema_cases (D : String) (db : Database) (name : String) :
    (∃ i, firstIdx (schemaMatches name) db.schemas = some i ∧
      db.findSchema D name = .ok i db) ∨
    (firstIdx (schemaMatches name) db.schemas = none ∧
      db.findSchema D name = .ok db.schemas.length
        { db with dbState := (db.dbState.generateId .schemaId).2,
                  schemas := db.schemas ++ [createdSchema D db name] }) := by
  cases hfi : firstIdx (schemaMatches name) db.schemas with
  | some i => exact Or.inl ⟨i, rfl, by simp [Database.findSchema, hfi]⟩
  | none =>
    right
    have hcheck : Database.checkSchema
        { db with dbState := (db.dbState.generateId .schemaId).2 }
        (createdSchema D db name) = none := by
      rw [checkSchema_eq_none]
      intro a ha hn
      have := (firstIdx_eq_none _ _).1 hfi a ha
      rw [schemaMatches_eq_false] at this
      exact this (Or.inl hn)
    refine ⟨rfl, ?_⟩
    simp only [Database.findSchema, hfi, schema_new_auto, Database.pushSchema, hcheck]
    simp

/-- C1. `findSchema(name)`: when some held schema has name or alias `name`, the call
returns the first such schema and the database is unchanged; otherwise exactly one
schema is appended (earlier schemas unchanged, in order), named `name`, with empty
collections and note the default-schema note when `name` is `DEFAULT_SCHEMA_NAME` and
the empty string otherwise, and that schema is returned. -/
theorem findSchema_spec (DEFAULT_SCHEMA_NAME : String) (db : Database) (name : String) :
    ((∃ s ∈ db.schemas, s.name = name ∨ s.alias_ = some name) →
      ∃ i s, db.findSchema DEFAULT_SCHEMA_NAME name = .ok i db ∧
        db.schemas[i]? = some s ∧ (s.name = name ∨ s.alias_ = some name) ∧
        ∀ j, j < i → ∀ t, db.schemas[j]? = some t →
          ¬ (t.name = name ∨ t.alias_ = some name)) ∧
    ((¬ ∃ s ∈ db.schemas, s.name = name ∨ s.alias_ = some name) →
      ∃ i db1 s, db.findSchema DEFAULT_SCHEMA_NAME name = .ok i db1 ∧
        db1.schemas = db.schemas ++ [s] ∧ db1.schemas[i]? = some s ∧
        s.name = name ∧ s.alias_ = none ∧
        s.tables = [] ∧ s.tags = [] ∧ s.enums = [] ∧ s.tableGroups = [] ∧ s.refs = [] ∧
        s.note = some (if name = DEFAULT_SCHEMA_NAME then
          defaultSchemaNote DEFAULT_SCHEMA_NAME else "")) := by
  constructor
  · rintro ⟨s, hs, hm⟩
    rcases findSchema_cases DEFAULT_SCHEMA_NAME db name with ⟨i, hi, hfs⟩ | ⟨hnone, _⟩
    · obtain ⟨⟨a, ha, hpa⟩, hlt⟩ := firstIdx_eq_some _ _ _ hi
      refine ⟨i, a, hfs, ha, (schemaMatches_iff name a).1 hpa, ?_⟩
      intro j hj t ht
      exact (schemaMatches_eq_false name t).1 (hlt j hj t ht)
    · have := (firstIdx_eq_none _ _).1 hnone s hs
      exact absurd hm ((schemaMatches_eq_false name s).1 this)
  · intro hno
    rcases findSchema_cases DEFAULT_SCHEMA_NAME db name with ⟨i, hi, _⟩ | ⟨_, hfs⟩
    · obtain ⟨⟨a, ha, hpa⟩, _⟩ := firstIdx_eq_some _ _ _ hi
      exact absurd ⟨a, List.getElem?_mem ha, (schemaMatches_iff name a).1 hpa⟩ hno
    · refine ⟨_, _, createdSchema DEFAULT_SCHEMA_NAME db name, hfs, rfl, by simp, rfl, rfl,
        rfl, rfl, rfl, rfl, rfl, ?_⟩
      simp [createdSchema]

/-- C1 at two concrete calls: `findSchema("public")` on a database holding `public`
returns that schema and changes nothing; `findSchema("x")` on it appends a schema `x`. -/
theorem findSchema_spec_witness :
    (∃ i s, publicDb.findSchema "public" "public" = .ok i publicDb ∧
      publicDb.schemas[i]? = some s ∧ (s.name = "public" ∨ s.alias_ = some "public") ∧
      ∀ j, j < i → ∀ t, publicDb.schemas[j]? = some t →
        ¬ (t.name = "public" ∨ t.alias_ = some "public")) ∧
    (∃ i db1 s, publicDb.findSchema "public" "x" = .ok i db1 ∧
      db1.schemas = publicDb.schemas ++ [s] ∧ db1.schemas[i]? = some s ∧
      s.name = "x" ∧ s.alias_ = none ∧
      s.tables = [] ∧ s.tags = [] ∧ s.enums = [] ∧ s.tableGroups = [] ∧ s.refs = [] ∧
      s.note = some (if "x" = "public" then defaultSchemaNote "public" else "")) :=
  ⟨(findSchema_spec "public" publicDb "public").1
      ⟨emptySchema, List.mem_singleton.2 rfl, Or.inl rfl⟩,
    (findSchema_spec "public" publicDb "x").2 (by
      rintro ⟨s, hs, hn⟩
      have hs1 : s = emptySchema := List.mem_singleton.1 hs
      subst hs1
      rcases hn with h | h
      · exact absurd h (by decide)
      · exact absurd h (by decide))⟩

/-- C5. `pushSchema(schema)` raises (a duplicate-name error) exactly when a held schema
has the name of `schema`; when it raises the database is unchanged, and otherwise the
new schemas list is the old one with `schema` appended. -/
theorem pushSchema_spec (db : Database) (schema : Schema) :
    ((∃ s ∈ db.schemas, s.name = schema.name) ↔ (db.pushSchema schema).isRaised = true) ∧
    ((db.pushSchema schema).isRaised = true →
      db.pushSchema schema = .raised (.schemaExisted schema.name) db) ∧
    ((db.pushSchema schema).isRaised = false →
      db.pushSchema schema = .ok () { db with schemas := db.schemas ++ [schema] }) := by
  unfold Database.pushSchema Database.checkSchema
  by_cases h : db.schemas.any (fun s => s.name == schema.name) = true
  · simp only [h, if_true, Res.isRaised]
    simp only [List.any_eq_true, beq_iff_eq] at h
    simp [h]
  · simp only [h, Bool.false_eq_true, if_false, Res.isRaised]
    simp only [List.any_eq_true, beq_iff_eq] at h
    simp [h]

/-- C5 at two concrete calls: pushing a second schema `public` raises and changes
nothing. -/
theorem pushSchema_spec_witness :
    (∃ s ∈ publicDb.schemas, s.name = emptySchema.name) ∧
    publicDb.pushSchema emptySchema = .raised (.schemaExisted "public") publicDb :=
  ⟨⟨emptySchema, List.mem_singleton.2 rfl, rfl⟩,
    (pushSchema_spec publicDb emptySchema).2.1
      ((pushSchema_spec publicDb emptySchema).1.1
        ⟨emptySchema, List.mem_singleton.2 rfl, rfl⟩)⟩

/-! ## The push methods of `Schema` -/

theorem if_any_eq_none {α : Type} (l : List α) (p : α → Bool) (e : Error) :
    (if l.any p = true then some e else none) = none ↔ ∀ x ∈ l, p x = false := by
  by_cases h : l.any p = true
  · simp only [h, if_true]
    simp only [List.any_eq_true] at h
    obtain ⟨x, hx, hp⟩ := h
    constructor
    · intro h0; cases h0
    · intro h0; have := h0 x hx; simp [hp] at this
  · simp only [h, Bool.false_eq_true, if_false, true_iff]
    simp only [List.any_eq_true, not_exists, not_and, Bool.not_eq_true] at h
    exact h

theorem checkTable_eq_none (s : Schema) (t : Table) :
    s.checkTable t = none ↔ ∀ x ∈ s.tables, x.name ≠ t.name := by
  unfold Schema.checkTable
  rw [if_any_eq_none]
  simp

theorem checkEnum_eq_none (s : Schema) (e : Enum) :
    s.checkEnum e = none ↔ ∀ x ∈ s.enums, x.name ≠ e.name := by
  unfold Schema.checkEnum
  rw [if_any_eq_none]
  simp

theorem checkTag_eq_none (s : Schema) (t : Tag) :
    s.checkTag t = none ↔ ∀ x ∈ s.tags, x.name ≠ t.name := by
  unfold Schema.checkTag
  rw [if_any_eq_none]
  simp

theorem checkTableGroup_eq_none (s : Schema) (t : TableGroup) :
    s.checkTableGroup t = none ↔ ∀ x ∈ s.tableGroups, x.name ≠ t.name := by
  unfold Schema.checkTableGroup
  rw [if_any_eq_none]
  simp

theorem checkRef_eq_none (s : Schema) (r : Ref) :
    s.checkRef r = none ↔ ∀ x ∈ s.refs, x.equals r = false := by
  unfold Schema.checkRef
  rw [if_any_eq_none]

theorem pushTable_state (s : Schema) (t : Table) :
    (s.pushTable t = .raised (.tableExisted s.name t.name) s ∧
      ∃ x ∈ s.tables, x.name = t.name) ∨
    (s.pushTable t = .ok () { s with tables := s.tables ++ [t] } ∧
      ∀ x ∈ s.tables, x.name ≠ t.name) := by
  unfold Schema.pushTable
  cases h : s.checkTable t with
  | none => exact Or.inr ⟨rfl, (checkTable_eq_none s t).1 h⟩
  | some e =>
    left
    have hne : ¬ ∀ x ∈ s.tables, x.name ≠ t.name := fun h0 => by
      rw [(checkTable_eq_none s t).2 h0] at h; cases h
    unfold Schema.checkTable at h
    split at h
    · cases h; exact ⟨rfl, by simpa using hne⟩
    · cases h

theorem pushTag_state (s : Schema) (t : Tag) :
    (s.pushTag t = .raised (.tagExisted t.name) s ∧ ∃ x ∈ s.tags, x.name = t.name) ∨
    (s.pushTag t = .ok () { s with tags := s.tags ++ [t] } ∧
      ∀ x ∈ s.tags, x.name ≠ t.name) := by
  unfold Schema.pushTag
  cases h : s.checkTag t with
  | none => exact Or.inr ⟨rfl, (checkTag_eq_none s t).1 h⟩
  | some e =>
    left
    have hne : ¬ ∀ x ∈ s.tags, x.name ≠ t.name := fun h0 => by
      rw [(checkTag_eq_none s t).2 h0] at h; cases h
    unfold Schema.checkTag at h
    split at h
    · cases h; exact ⟨rfl, by simpa using hne⟩
    · cases h

theorem pushTableGroup_state (s : Schema) (t : TableGroup) :
    (s.pushTableGroup t = .raised (.tableGroupExisted s.name t.name) s ∧
      ∃ x ∈ s.tableGroups, x.name = t.name) ∨
    (s.pushTableGroup t = .ok () { s with tableGroups := s.tableGroups ++ [t] } ∧
      ∀ x ∈ s.tableGroups, x.name ≠ t.name) := by
  unfold Schema.pushTableGroup
  cases h : s.checkTableGroup t with
  | none => exact Or.inr ⟨rfl, (checkTableGroup_eq_none s t).1 h⟩
  | some e =>
    left
    have hne : ¬ ∀ x ∈ s.tableGroups, x.name ≠ t.name := fun h0 => by
      rw [(checkTableGroup_eq_none s t).2 h0] at h; cases h
    unfold Schema.checkTableGroup at h
    split at h
    · cases h; exact ⟨rfl, by simpa using hne⟩
    · cases h

theorem pushRef_state (s : Schema) (r : Ref) :
    (s.pushRef r = .raised .refDuplicated s ∧ ∃ x ∈ s.refs, x.equals r = true) ∨
    (s.pushRef r = .ok () { s with refs := s.refs ++ [r] } ∧
      ∀ x ∈ s.refs, x.equals r = false) := by
  unfold Schema.pushRef
  cases h : s.checkRef r with
  | none => exact Or.inr ⟨rfl, (checkRef_eq_none s r).1 h⟩
  | some e =>
    left
    have hne : ¬ ∀ x ∈ s.refs, x.equals r = false := fun h0 => by
      rw [(checkRef_eq_none s r).2 h0] at h; cases h
    unfold Schema.checkRef at h
    split at h
    · cases h; exact ⟨rfl, by simpa using hne⟩
    · cases h

theorem pushEnum_state (D : String) (db : Database) (s : Schema) (e : Enum) :
    (Schema.pushEnum D db s e = .raised (.enumExisted s.name e.name) (db, s) ∧
      ∃ x ∈ s.enums, x.name = e.name) ∨
    (Schema.pushEnum D db s e = .ok ()
        ({ db with schemas := (Schema.bindEnumToField D db.schemas e).1 },
         { s with enums := s.enums ++ [(Schema.bindEnumToField D db.schemas e).2] }) ∧
      ∀ x ∈ s.enums, x.name ≠ e.name) := by
  unfold Schema.pushEnum
  cases h : s.checkEnum e with
  | none => exact Or.inr ⟨rfl, (checkEnum_eq_none s e).1 h⟩
  | some err =>
    left
    have hne : ¬ ∀ x ∈ s.enums, x.name ≠ e.name := fun h0 => by
      rw [(checkEnum_eq_none s e).2 h0] at h; cases h
    unfold Schema.checkEnum at h
    split at h
    · cases h; exact ⟨rfl, by simpa using hne⟩
    · cases h

theorem pushEnumAt_state (D : String) (db : Database) (i : Nat) (e : Enum) :
    ((Database.pushEnumAt D db i e).state = db ∧
      (db.schemas[i]? = none ∨
        ∃ s, db.schemas[i]? = some s ∧ (∃ x ∈ s.enums, x.name = e.name) ∧
          Database.pushEnumAt D db i e = .raised (.enumExisted s.name e.name) db)) ∨
    (∃ s, db.schemas[i]? = some s ∧ (∀ x ∈ s.enums, x.name ≠ e.name) ∧
      Database.pushEnumAt D db i e = .ok ()
        { db with
          schemas := List.modify
            (fun s1 => { s1 with
              enums := s1.enums ++ [(Schema.bindEnumToField D db.schemas e).2] })
            i (Schema.bindEnumToField D db.schemas e).1 }) := by
  cases hs : db.schemas[i]? with
  | none => exact Or.inl ⟨by simp [Database.pushEnumAt, hs, Res.state], Or.inl rfl⟩
  | some s =>
    cases h : s.checkEnum e with
    | none =>
      exact Or.inr ⟨s, rfl, (checkEnum_eq_none s e).1 h, by simp [Database.pushEnumAt, hs, h]⟩
    | some err =>
      left
      have hne : ¬ ∀ x ∈ s.enums, x.name ≠ e.name := fun h0 => by
        rw [(checkEnum_eq_none s e).2 h0] at h; cases h
      have herr : err = .enumExisted s.name e.name := by
        unfold Schema.checkEnum at h
        split at h
        · cases h; rfl
        · cases h
      subst herr
      exact ⟨by simp [Database.pushEnumAt, hs, h, Res.state],
        Or.inr ⟨s, rfl, by simpa using hne, by simp [Database.pushEnumAt, hs, h]⟩⟩

/-- What `pushEnum` on the schema held at position `i` does to the schema held at
position `j`: everything but the enum links of its fields is kept, and an enum with the
identifier and name of the pushed one is appended when `j = i` and the check passes. -/
theorem pushEnumAt_getElem? (D : String) (db : Database) (i j : Nat) (e : Enum)
    (s : Schema) (hs : db.schemas[j]? = some s) :
    ∃ s1, (Database.pushEnumAt D db i e).state.schemas[j]? = some s1 ∧
      s1.id = s.id ∧ s1.name = s.name ∧ s1.note = s.note ∧ s1.alias_ = s.alias_ ∧
      s1.tags = s.tags ∧ s1.tableGroups = s.tableGroups ∧ s1.refs = s.refs ∧
      s1.tables.map Table.unlink = s.tables.map Table.unlink ∧
      (s1.enums = s.enums ∨
        (i = j ∧ (∀ x ∈ s.enums, x.name ≠ e.name) ∧
          (Database.pushEnumAt D db i e).isRaised = false ∧
          ∃ e1, e1.id = e.id ∧ e1.name = e.name ∧ s1.enums = s.enums ++ [e1])) := by
  rcases pushEnumAt_state D db i e with ⟨hst, _⟩ | ⟨si, hsi, hck, heq⟩
  · rw [hst]
    exact ⟨s, hs, rfl, rfl, rfl, rfl, rfl, rfl, rfl, rfl, Or.inl rfl⟩
  · obtain ⟨b, hb, hub⟩ := bindEnumToField_getElem? D db.schemas e j s hs
    obtain ⟨h1, h2, h3, h4, h5, h6, h7, h8, h9⟩ := unlink_fields hub
    rw [heq]
    simp only [Res.state, List.getElem?_modify, hb, Option.map_eq_map, Option.map_some']
    by_cases hij : i = j
    · subst hij
      rw [hsi] at hs
      cases hs
      refine ⟨{ b with enums := b.enums ++ [(Schema.bindEnumToField D db.schemas e).2] },
        by simp, h1, h2, h3, h4, h5, h7, h8, h9, Or.inr ⟨rfl, hck, rfl, ?_⟩⟩
      exact ⟨_, (bindEnumToField_enum D db.schemas e).1, (bindEnumToField_enum D db.schemas e).2,
        by simp [h6]⟩
    · exact ⟨b, by simp [hij], h1, h2, h3, h4, h5, h7, h8, h9, Or.inl h6⟩

theorem nodup_map_append_singleton {α : Type} (f : α → String) (l : List α) (a : α)
    (hl : (l.map f).Nodup) (ha : ∀ x ∈ l, f x ≠ f a) : ((l ++ [a]).map f).Nodup := by
  rw [List.map_append, List.nodup_append]
  refine ⟨hl, by simp, ?_⟩
  intro n hn hn1
  simp only [List.map_cons, List.map_nil, List.mem_singleton] at hn1
  subst hn1
  obtain ⟨x, hx, hfx⟩ := List.mem_map.1 hn
  exact ha x hx hfx

/-- Names are pairwise distinct within each of the four named collections. -/
theorem reachable_names_nodup (D : String) (s : Schema) (h : Schema.Reachable D s) :
    (s.tables.map (fun t => t.name)).Nodup ∧ (s.enums.map (fun e => e.name)).Nodup ∧
      (s.tags.map (fun t => t.name)).Nodup ∧
      (s.tableGroups.map (fun t => t.name)).Nodup := by
  induction h with
  | empty s ht he hg htg hr => simp [ht, he, hg, htg]
  | pushTable s t _ ih =>
    rcases pushTable_state s t with ⟨heq, _⟩ | ⟨heq, hne⟩
    · rw [heq]; exact ih
    · rw [heq]
      exact ⟨nodup_map_append_singleton _ _ _ ih.1 hne, ih.2.1, ih.2.2.1, ih.2.2.2⟩
  | pushTag s t _ ih =>
    rcases pushTag_state s t with ⟨heq, _⟩ | ⟨heq, hne⟩
    · rw [heq]; exact ih
    · rw [heq]
      exact ⟨ih.1, ih.2.1, nodup_map_append_singleton _ _ _ ih.2.2.1 hne, ih.2.2.2⟩
  | pushTableGroup s t _ ih =>
    rcases pushTableGroup_state s t with ⟨heq, _⟩ | ⟨heq, hne⟩
    · rw [heq]; exact ih
    · rw [heq]
      exact ⟨ih.1, ih.2.1, ih.2.2.1, nodup_map_append_singleton _ _ _ ih.2.2.2 hne⟩
  | pushRef s r _ ih =>
    rcases pushRef_state s r with ⟨heq, _⟩ | ⟨heq, _⟩
    · rw [heq]; exact ih
    · rw [heq]; exact ih
  | pushEnum db s e _ ih =>
    rcases pushEnum_state D db s e with ⟨heq, _⟩ | ⟨heq, hne⟩
    · rw [heq]; exact ih
    · rw [heq]
      refine ⟨ih.1, nodup_map_append_singleton _ _ _ ih.2.1 ?_, ih.2.2.1, ih.2.2.2⟩
      intro x hx
      rw [(bindEnumToField_enum D db.schemas e).2]
      exact hne x hx
  | pushEnumAt db i j e s s1 hs hs1 _ ih =>
    obtain ⟨s2, hs2, _, _, _, _, htags, htg, _, htab, henum⟩ :=
      pushEnumAt_getElem? D db i j e s hs
    rw [hs1] at hs2
    cases hs2
    rw [unlink_table_names htab, htags, htg]
    refine ⟨ih.1, ?_, ih.2.2.1, ih.2.2.2⟩
    rcases henum with h | ⟨_, hne, _, e1, _, hn, h⟩
    · rw [h]; exact ih.2.1
    · rw [h]
      refine nodup_map_append_singleton _ _ _ ih.2.1 ?_
      intro x hx
      rw [hn]
      exact hne x hx

/-- C7. `pushTable`, `pushEnum`, `pushTag` and `pushTableGroup` raise exactly when the
schema already holds an entity of that kind with the same name; when they raise the
schema is unchanged, and otherwise the entity is appended at the end of its own
collection while the other collections are unchanged (`pushEnum` on a schema held by the
database keeps the same tables, whose fields may have received the enum link).
Consequently no two tables, enums, tags or table groups of a reachable schema share a
name. -/
theorem schema_push_spec (DEFAULT_SCHEMA_NAME : String) :
    (∀ (s : Schema) (t : Table),
      ((∃ x ∈ s.tables, x.name = t.name) ↔ (s.pushTable t).isRaised = true) ∧
      ((s.pushTable t).isRaised = true → (s.pushTable t).state = s) ∧
      ((s.pushTable t).isRaised = false →
        (s.pushTable t).state = { s with tables := s.tables ++ [t] })) ∧
    (∀ (s : Schema) (t : Tag),
      ((∃ x ∈ s.tags, x.name = t.name) ↔ (s.pushTag t).isRaised = true) ∧
      ((s.pushTag t).isRaised = true → (s.pushTag t).state = s) ∧
      ((s.pushTag t).isRaised = false →
        (s.pushTag t).state = { s with tags := s.tags ++ [t] })) ∧
    (∀ (s : Schema) (t : TableGroup),
      ((∃ x ∈ s.tableGroups, x.name = t.name) ↔ (s.pushTableGroup t).isRaised = true) ∧
      ((s.pushTableGroup t).isRaised = true → (s.pushTableGroup t).state = s) ∧
      ((s.pushTableGroup t).isRaised = false →
        (s.pushTableGroup t).state = { s with tableGroups := s.tableGroups ++ [t] })) ∧
    (∀ (db : Database) (s : Schema) (e : Enum),
      ((∃ x ∈ s.enums, x.name = e.name) ↔
        (Schema.pushEnum DEFAULT_SCHEMA_NAME db s e).isRaised = true) ∧
      ((Schema.pushEnum DEFAULT_SCHEMA_NAME db s e).isRaised = true →
        (Schema.pushEnum DEFAULT_SCHEMA_NAME db s e).state = (db, s)) ∧
      ((Schema.pushEnum DEFAULT_SCHEMA_NAME db s e).isRaised = false →
        ∃ e1, e1.id = e.id ∧ e1.name = e.name ∧
          (Schema.pushEnum DEFAULT_SCHEMA_NAME db s e).state.2 =
            { s with enums := s.enums ++ [e1] })) ∧
    (∀ (db : Database) (i : Nat) (s : Schema) (e : Enum), db.schemas[i]? = some s →
      ((∃ x ∈ s.enums, x.name = e.name) ↔
        (Database.pushEnumAt DEFAULT_SCHEMA_NAME db i e).isRaised = true) ∧
      ((Database.pushEnumAt DEFAULT_SCHEMA_NAME db i e).isRaised = true →
        (Database.pushEnumAt DEFAULT_SCHEMA_NAME db i e).state = db) ∧
      ((Database.pushEnumAt DEFAULT_SCHEMA_NAME db i e).isRaised = false →
        ∃ s1 e1,
          (Database.pushEnumAt DEFAULT_SCHEMA_NAME db i e).state.schemas[i]? = some s1 ∧
          e1.id = e.id ∧ e1.name = e.name ∧ s1.enums = s.enums ++ [e1] ∧
          s1.tags = s.tags ∧ s1.tableGroups = s.tableGroups ∧ s1.refs = s.refs ∧
          s1.tables.map Table.unlink = s.tables.map Table.unlink)) ∧
    (∀ s : Schema, Schema.Reachable DEFAULT_SCHEMA_NAME s →
      (s.tables.map (fun t => t.name)).Nodup ∧ (s.enums.map (fun e => e.name)).Nodup ∧
      (s.tags.map (fun t => t.name)).Nodup ∧
      (s.tableGroups.map (fun t => t.name)).Nodup) := by
  refine ⟨?_, ?_, ?_, ?_, ?_, reachable_names_nodup DEFAULT_SCHEMA_NAME⟩
  · intro s t
    rcases pushTable_state s t with ⟨heq, hex⟩ | ⟨heq, hne⟩
    · rw [heq]; simp [Res.isRaised, Res.state, hex]
    · rw [heq]
      simp only [Res.isRaised, Res.state, Bool.false_eq_true, iff_false, false_implies,
        implies_true, and_self, and_true]
      rintro ⟨x, hx, hn⟩
      exact hne x hx hn
  · intro s t
    rcases pushTag_state s t with ⟨heq, hex⟩ | ⟨heq, hne⟩
    · rw [heq]; simp [Res.isRaised, Res.state, hex]
    · rw [heq]
      simp only [Res.isRaised, Res.state, Bool.false_eq_true, iff_false, false_implies,
        implies_true, and_self, and_true]
      rintro ⟨x, hx, hn⟩
      exact hne x hx hn
  · intro s t
    rcases pushTableGroup_state s t with ⟨heq, hex⟩ | ⟨heq, hne⟩
    · rw [heq]; simp [Res.isRaised, Res.state, hex]
    · rw [heq]
      simp only [Res.isRaised, Res.state, Bool.false_eq_true, iff_false, false_implies,
        implies_true, and_self, and_true]
      rintro ⟨x, hx, hn⟩
      exact hne x hx hn
  · intro db s e
    rcases pushEnum_state DEFAULT_SCHEMA_NAME db s e with ⟨heq, hex⟩ | ⟨heq, hne⟩
    · rw [heq]; simp [Res.isRaised, Res.state, hex]
    · rw [heq]
      simp only [Res.isRaised, Res.state, Bool.false_eq_true, iff_false, false_implies,
        implies_true, and_true, true_and]
      refine ⟨?_, fun _ => ⟨_, (bindEnumToField_enum DEFAULT_SCHEMA_NAME db.schemas e).1,
        (bindEnumToField_enum DEFAULT_SCHEMA_NAME db.schemas e).2, rfl⟩⟩
      rintro ⟨x, hx, hn⟩
      exact hne x hx hn
  · intro db i s e hs
    rcases pushEnumAt_state DEFAULT_SCHEMA_NAME db i e with
      ⟨hst, hnone | ⟨s0, hs0, hex, heq⟩⟩ | ⟨s0, hs0, hne, heq⟩
    · rw [hs] at hnone; cases hnone
    · rw [hs] at hs0; cases hs0
      rw [heq]; simp [Res.isRaised, Res.state, hex]
    · rw [hs] at hs0; cases hs0
      obtain ⟨s1, hs1, _, _, _, _, htags, htg, hrefs, htab, henum⟩ :=
        pushEnumAt_getElem? DEFAULT_SCHEMA_NAME db i i e s hs
      have hnr : (Database.pushEnumAt DEFAULT_SCHEMA_NAME db i e).isRaised = false := by
        rw [heq]; rfl
      refine ⟨?_, ?_, ?_⟩
      · rw [hnr]
        simp only [Bool.false_eq_true, iff_false]
        rintro ⟨x, hx, hn⟩
        exact hne x hx hn
      · rw [hnr]; intro h; cases h
      · intro _
        have hmod : (Database.pushEnumAt DEFAULT_SCHEMA_NAME db i e).state.schemas[i]? =
            (fun a : Schema => ({ a with enums := a.enums ++
              [(Schema.bindEnumToField DEFAULT_SCHEMA_NAME db.schemas e).2] } : Schema)) <$>
              (Schema.bindEnumToField DEFAULT_SCHEMA_NAME db.schemas e).1[i]? := by
          rw [heq]; simp [Res.state, List.getElem?_modify]
        obtain ⟨b, hb, hub⟩ :=
          bindEnumToField_getElem? DEFAULT_SCHEMA_NAME db.schemas e i s hs
        rw [hb] at hmod
        rw [hs1] at hmod
        simp only [Option.map_eq_map, Option.map_some', Option.some.injEq] at hmod
        refine ⟨s1, _, hs1, (bindEnumToField_enum DEFAULT_SCHEMA_NAME db.schemas e).1,
          (bindEnumToField_enum DEFAULT_SCHEMA_NAME db.schemas e).2, ?_, htags, htg, hrefs,
          htab⟩
        rw [hmod, (unlink_fields hub).2.2.2.2.2.1]

/-- C7 at a concrete schema: after `users` is pushed twice into an empty schema (the
second call raises), the held names are pairwise distinct. -/
theorem schema_push_spec_witness :
    ((emptySchema.pushTable usersTable).state.pushTable usersTable).isRaised = true ∧
    ((((emptySchema.pushTable usersTable).state.pushTable usersTable).state.tables.map
        (fun t => t.name)).Nodup ∧
      ((((emptySchema.pushTable usersTable).state.pushTable usersTable).state.enums.map
        (fun e => e.name)).Nodup) ∧
      ((((emptySchema.pushTable usersTable).state.pushTable usersTable).state.tags.map
        (fun t => t.name)).Nodup) ∧
      ((((emptySchema.pushTable usersTable).state.pushTable usersTable).state.tableGroups.map
        (fun t => t.name)).Nodup)) :=
  ⟨rfl, (schema_push_spec "public").2.2.2.2.2 _
    (Schema.Reachable.pushTable _ usersTable
      (Schema.Reachable.pushTable _ usersTable
        (Schema.Reachable.empty emptySchema rfl rfl rfl rfl rfl)))⟩

/-! ## `Schema.pushRef` -/

/-- C9. `pushRef(ref)` raises (a duplicate-reference error) exactly when a held ref `r`
has `r.equals(ref)`; on error the schema is unchanged, otherwise `ref` is appended.
Hence in every schema reachable by `pushRef` from an empty refs list, an earlier held
ref never `equals` a later one. -/
theorem pushRef_spec :
    (∀ (s : Schema) (ref : Ref),
      ((∃ r ∈ s.refs, r.equals ref = true) ↔ (s.pushRef ref).isRaised = true) ∧
      ((s.pushRef ref).isRaised = true → s.pushRef ref = .raised .refDuplicated s) ∧
      ((s.pushRef ref).isRaised = false →
        s.pushRef ref = .ok () { s with refs := s.refs ++ [ref] })) ∧
    (∀ s : Schema, Schema.RefsReachable s →
      s.refs.Pairwise (fun a b => a.equals b = false)) := by
  have hop : ∀ (s : Schema) (ref : Ref),
      ((∃ r ∈ s.refs, r.equals ref = true) ↔ (s.pushRef ref).isRaised = true) ∧
      ((s.pushRef ref).isRaised = true → s.pushRef ref = .raised .refDuplicated s) ∧
      ((s.pushRef ref).isRaised = false →
        s.pushRef ref = .ok () { s with refs := s.refs ++ [ref] }) := by
    intro s ref
    unfold Schema.pushRef Schema.checkRef
    by_cases h : s.refs.any (fun r => r.equals ref) = true
    · simp only [h, if_true, Res.isRaised]
      simp only [List.any_eq_true] at h
      simp [h]
    · simp only [h, Bool.false_eq_true, if_false, Res.isRaised]
      simp only [List.any_eq_true] at h
      simp [h]
  refine ⟨hop, ?_⟩
  intro s hs
  induction hs with
  | empty s hr => simp [hr]
  | pushRef s r _ ih =>
    obtain ⟨hiff, hraise, hok⟩ := hop s r
    cases hc : (s.pushRef r).isRaised with
    | true => rw [hraise hc]; exact ih
    | false =>
      rw [hok hc]
      simp only [Res.state, List.pairwise_append, List.pairwise_singleton, List.mem_singleton,
        true_and]
      refine ⟨ih, ?_⟩
      intro a ha b hb
      subst hb
      cases hab : a.equals b with
      | false => rfl
      | true =>
        have := hiff.1 ⟨a, ha, hab⟩
        rw [hc] at this
        cases this

/-- C9 at a concrete schema: after a ref and the same ref in the other direction are
pushed into an empty schema, the second call has raised and one ref is held. -/
theorem pushRef_spec_witness :
    ((emptySchema.pushRef usersPostsRef).state.pushRef postsUsersRef).isRaised = true ∧
    ((emptySchema.pushRef usersPostsRef).state.pushRef postsUsersRef).state.refs
      = [usersPostsRef] ∧
    ((emptySchema.pushRef usersPostsRef).state.pushRef postsUsersRef).state.refs.Pairwise
      (fun a b => a.equals b = false) :=
  ⟨rfl, rfl, pushRef_spec.2 _
    (Schema.RefsReachable.pushRef _ postsUsersRef
      (Schema.RefsReachable.pushRef _ usersPostsRef
        (Schema.RefsReachable.empty emptySchema rfl)))⟩

/-! ## `Database.findTable` -/

/-- `findTable` never takes its error branch: `findSchema` has returned a held schema. -/
theorem findTable_not_raised (D : String) (db : Database) (rawTable : RawTable) :
    (db.findTable D rawTable).isRaised = false := by
  rcases findSchema_cases D db (orDefault rawTable.schemaName D) with
    ⟨i, hi, hfs⟩ | ⟨_, hfs⟩
  · obtain ⟨⟨a, ha, _⟩, _⟩ := firstIdx_eq_some _ _ _ hi
    simp [Database.findTable, hfs, ha, Res.isRaised]
  · simp [Database.findTable, hfs, Res.isRaised]

/-- C4, the code at the failing input: on a database without schemas,
`findTable({ name: "users", schemaName: "x" })` raises nothing; it returns no table and
leaves a newly created schema `x` in the schemas list. -/
theorem findTable_missing_schema :
    (Database.init emptyBundle).schemas = [] ∧
    (Database.findTable "public" (Database.init emptyBundle) usersInX).isRaised = false ∧
    Database.findTable "public" (Database.init emptyBundle) usersInX =
      .ok none (Database.findTable "public" (Database.init emptyBundle) usersInX).state ∧
    (Database.findTable "public" (Database.init emptyBundle) usersInX).state.schemas.map
      (fun s => s.name) = ["x"] :=
  ⟨rfl, rfl, rfl, rfl⟩

/-! ## Enum binding across schemas -/

/-- C10, the code at the failing input: the field `st` of table `a.t` has type name
`status` and type schema `b`, the enum `status` is pushed into schema `b`, and after
construction the field has no enum and the enum has no field. -/
theorem pushEnum_cross_schema_unlinked :
    ∃ db, Database.new "public" crossSchemaEnumBundle = .ok db ∧
      db.enumLinks = [("a", [[none]], []), ("b", [], [[]])] :=
  ⟨_, rfl, rfl⟩

/-! ## Later states of schemas and databases -/

theorem Schema.Le.same (s : Schema) : Schema.Le s s :=
  ⟨rfl, rfl, List.Subset.refl _⟩

theorem Schema.Le.later {a b c : Schema} (h1 : Schema.Le a b) (h2 : Schema.Le b c) :
    Schema.Le a c :=
  ⟨h2.1.trans h1.1, h2.2.1.trans h1.2.1, List.Subset.trans h1.2.2 h2.2.2⟩

theorem Database.Le.sameDb (db : Database) : Database.Le db db :=
  fun _ s hs => ⟨s, hs, Schema.Le.same s⟩

theorem Database.Le.laterDb {a b c : Database} (h1 : Database.Le a b)
    (h2 : Database.Le b c) : Database.Le a c := by
  intro i s hs
  obtain ⟨s1, hs1, hle1⟩ := h1 i s hs
  obtain ⟨s2, hs2, hle2⟩ := h2 i s1 hs1
  exact ⟨s2, hs2, hle1.later hle2⟩

theorem Database.Le.ofSchemasEq {db db1 : Database} (h : db1.schemas = db.schemas) :
    Database.Le db db1 := by
  intro i s hs
  exact ⟨s, by rw [h]; exact hs, Schema.Le.same s⟩

theorem Table.key_unlink (t : Table) : t.unlink.key = t.key := by
  simp [Table.unlink, Table.key, List.map_map, Function.comp_def]

theorem keys_of_unlink {a b : Schema} (h : a.unlink = b.unlink) : a.keys = b.keys := by
  obtain ⟨_, _, _, _, h5, h6, h7, h8, h9⟩ := unlink_fields h
  have hk : a.tables.map Table.key = b.tables.map Table.key := by
    have := congrArg (List.map Table.key) h9
    simpa [List.map_map, Function.comp_def, Table.key_unlink] using this
  simp [Schema.keys, hk, h5, h6, h7, h8]

theorem Schema.Le.ofUnlink {a b : Schema} (h : b.unlink = a.unlink) : Schema.Le a b :=
  ⟨(unlink_fields h).2.1, (unlink_fields h).2.2.2.1, by rw [keys_of_unlink h]; exact List.Subset.refl _⟩

theorem Database.Le.ofUnlinkDb {db db1 : Database}
    (h : db1.schemas.map Schema.unlink = db.schemas.map Schema.unlink) :
    Database.Le db db1 := by
  intro i s hs
  have hi := congrArg (fun l => l[i]?) h
  simp only [List.getElem?_map, hs, Option.map_some'] at hi
  cases hb : db1.schemas[i]? with
  | none => simp [hb] at hi
  | some b =>
    simp only [hb, Option.map_some', Option.some.injEq] at hi
    exact ⟨b, rfl, Schema.Le.ofUnlink hi⟩

theorem names_of_unlink {l l1 : List Schema}
    (h : l1.map Schema.unlink = l.map Schema.unlink) :
    l1.map (fun s => s.name) = l.map (fun s => s.name) := by
  have := congrArg (List.map (fun s : Schema => s.name)) h
  simpa [List.map_map, Function.comp_def, Schema.unlink] using this

theorem map_set_eq {α β : Type} (f : α → β) (l : List α) (i : Nat) (a b : α)
    (ha : l[i]? = some a) (hf : f b = f a) : (l.set i b).map f = l.map f := by
  induction l generalizing i with
  | nil => simp
  | cons x rest ih =>
    cases i with
    | zero => simp at ha; subst ha; simp [hf]
    | succ k => simp at ha; simp [ih k ha]

theorem firstIdx_congr {α : Type} (p : α → Bool) (l l1 : List α) (i : Nat)
    (h : firstIdx p l = some i)
    (hle : ∀ (j : Nat) (a : α), l[j]? = some a → ∃ a1, l1[j]? = some a1 ∧ p a1 = p a) :
    firstIdx p l1 = some i := by
  obtain ⟨⟨a, ha, hpa⟩, hlt⟩ := firstIdx_eq_some p l i h
  obtain ⟨a1, ha1, hp1⟩ := hle i a ha
  refine firstIdx_of_spec p l1 i a1 ha1 (hp1.trans hpa) ?_
  intro j hj b hb
  have hjl : j < l.length := by
    have := (List.getElem?_eq_some.1 ha).1
    omega
  obtain ⟨b1, hb1, hpb⟩ := hle j l[j] (List.getElem?_eq_getElem hjl)
  rw [hb] at hb1
  cases hb1
  rw [hpb]
  exact hlt j hj _ (List.getElem?_eq_getElem hjl)

theorem schemaMatches_of_le (name : String) {s s1 : Schema} (h : Schema.Le s s1) :
    schemaMatches name s1 = schemaMatches name s := by
  simp [schemaMatches, h.1, h.2.1]

theorem firstIdx_of_le (name : String) {db db1 : Database} (h : Database.Le db db1)
    (i : Nat) (hi : firstIdx (schemaMatches name) db.schemas = some i) :
    firstIdx (schemaMatches name) db1.schemas = some i := by
  refine firstIdx_congr _ _ _ _ hi ?_
  intro j a ha
  obtain ⟨a1, ha1, hle⟩ := h j a ha
  exact ⟨a1, ha1, schemaMatches_of_le name hle⟩

theorem Database.HoldsIn.keptLater {db db1 : Database} (h : Database.Le db db1) (name : String)
    (k : Key) (hk : db.HoldsIn name k) : db1.HoldsIn name k := by
  obtain ⟨i, s, hi, hs, hks⟩ := hk
  obtain ⟨s1, hs1, hle⟩ := h i s hs
  exact ⟨i, s1, firstIdx_of_le name h i hi, hs1, hle.2.2 hks⟩

theorem Database.Step.sameStep (db : Database) : Database.Step db db :=
  ⟨Database.Le.sameDb db, fun h => h⟩

theorem Database.Step.andThen {a b c : Database} (h1 : Database.Step a b)
    (h2 : Database.Step b c) : Database.Step a c :=
  ⟨h1.1.laterDb h2.1, fun h => h2.2 (h1.2 h)⟩

theorem Database.Step.stepOfSchemasEq {db db1 : Database} (h : db1.schemas = db.schemas) :
    Database.Step db db1 :=
  ⟨Database.Le.ofSchemasEq h, by rw [h]; exact fun h => h⟩

theorem Database.Step.stepOfUnlink {db db1 : Database}
    (h : db1.schemas.map Schema.unlink = db.schemas.map Schema.unlink) :
    Database.Step db db1 :=
  ⟨Database.Le.ofUnlinkDb h, by rw [names_of_unlink h]; exact fun h => h⟩

/-- Replacing the schema at position `i` by a later state of it is a step. -/
theorem set_step (db : Database) (st : DbState) (i : Nat) (s s1 : Schema)
    (hs : db.schemas[i]? = some s) (hle : Schema.Le s s1) :
    Database.Step db { db with dbState := st, schemas := db.schemas.set i s1 } ∧
      (db.schemas.set i s1)[i]? = some s1 := by
  have hlt : i < db.schemas.length := (List.getElem?_eq_some.1 hs).1
  refine ⟨⟨?_, ?_⟩, by simp [List.getElem?_set, hlt]⟩
  · intro j a ha
    by_cases hij : i = j
    · subst hij
      rw [hs] at ha
      cases ha
      exact ⟨s1, by simp [List.getElem?_set, hlt], hle⟩
    · exact ⟨a, by simp [List.getElem?_set, hij, ha], Schema.Le.same a⟩
  · intro hnd
    have : (db.schemas.set i s1).map (fun s => s.name) = db.schemas.map (fun s => s.name) :=
      map_set_eq _ _ _ s s1 hs hle.1
    simpa [this] using hnd

/-- `findSchema` always returns, the schema it returns is the first match of the schemas
list afterwards, and the call is a step that leaves `hasDefaultSchema` alone. -/
theorem findSchema_sum (D : String) (db : Database) (name : String) :
    ∃ i db1, db.findSchema D name = .ok i db1 ∧ Database.Step db db1 ∧
      firstIdx (schemaMatches name) db1.schemas = some i ∧
      db1.hasDefaultSchema = db.hasDefaultSchema := by
  rcases findSchema_cases D db name with ⟨i, hi, hfs⟩ | ⟨hnone, hfs⟩
  · exact ⟨i, db, hfs, Database.Step.sameStep db, hi, rfl⟩
  · refine ⟨_, _, hfs, ⟨?_, ?_⟩, ?_, rfl⟩
    · intro j a ha
      refine ⟨a, ?_, Schema.Le.same a⟩
      have hlt : j < db.schemas.length := (List.getElem?_eq_some.1 ha).1
      simp only [List.getElem?_append_left hlt]
      exact ha
    · intro hnd
      refine nodup_map_append_singleton _ _ _ hnd ?_
      intro x hx hn
      have := (firstIdx_eq_none _ _).1 hnone x hx
      rw [schemaMatches_eq_false] at this
      exact this (Or.inl hn)
    · refine firstIdx_of_spec _ _ _ (createdSchema D db name) (by simp) ?_ ?_
      · simp [schemaMatches, createdSchema]
      · intro j hj b hb
        simp only [List.getElem?_append_left hj] at hb
        exact (firstIdx_eq_none _ _).1 hnone b (List.getElem?_mem hb)

theorem orDefault_of_not_truthy (D : String) (sn : Option String) (h : truthy sn = false) :
    orDefault sn D = D := by
  cases sn with
  | none => rfl
  | some n =>
    simp only [truthy] at h
    simp [orDefault, h]

/-- The routing block always returns the first schema matching the declared (or default)
schema name, and sets `hasDefaultSchema` only for a declared name equal to the default. -/
theorem route_sum (D : String) (db : Database) (sn : Option String) :
    ∃ i db1, db.route D sn = .ok i db1 ∧ Database.Step db db1 ∧
      firstIdx (schemaMatches (orDefault sn D)) db1.schemas = some i ∧
      db1.hasDefaultSchema = (db.hasDefaultSchema || setsDefaultFlag D sn) := by
  cases ht : truthy sn with
  | true =>
    obtain ⟨i, db1, hfs, hstep, hfi, hflag⟩ := findSchema_sum D db (orDefault sn D)
    by_cases hd : sn = some D
    · subst hd
      refine ⟨i, { db1 with hasDefaultSchema := true }, ?_, ?_, hfi, ?_⟩
      · simp [Database.route, ht, hfs]
      · exact hstep.andThen (Database.Step.stepOfSchemasEq rfl)
      · simp [setsDefaultFlag, ht]
    · refine ⟨i, db1, ?_, hstep, hfi, ?_⟩
      · simp [Database.route, ht, hfs, hd]
      · simp [setsDefaultFlag, ht, hd, hflag]
  | false =>
    obtain ⟨i, db1, hfs, hstep, hfi, hflag⟩ := findSchema_sum D db D
    refine ⟨i, db1, ?_, hstep, ?_, ?_⟩
    · simp [Database.route, ht, hfs]
    · rw [orDefault_of_not_truthy D sn ht]; exact hfi
    · simp [setsDefaultFlag, ht, hflag]

/-- The body of a process loop, once routed: the outcome is that of the push on the
schema the record is routed to. -/
theorem routedPush_cases (D : String) (sn : Option String) (next : DbState → DbState)
    (op : DbState → Schema → Res Schema Unit) (db : Database) :
    ∃ i db1 s, Database.Step db db1 ∧
      firstIdx (schemaMatches (orDefault sn D)) db1.schemas = some i ∧
      db1.schemas[i]? = some s ∧
      db1.hasDefaultSchema = (db.hasDefaultSchema || setsDefaultFlag D sn) ∧
      routedPush D sn next op db =
        (match op db1.dbState s with
         | .ok _ s1 =>
           .ok { db1 with dbState := next db1.dbState, schemas := db1.schemas.set i s1 }
         | .raised e _ => .error e) := by
  obtain ⟨i, db1, hroute, hstep, hfi, hflag⟩ := route_sum D db sn
  obtain ⟨⟨s, hs, _⟩, _⟩ := firstIdx_eq_some _ _ _ hfi
  refine ⟨i, db1, s, hstep, hfi, hs, hflag, ?_⟩
  simp only [routedPush, hroute, Res.toExcept, Database.atSchema, hs]
  cases op db1.dbState s <;> rfl

/-- A routed push that succeeds is a step after which the routed-to schema holds the
key of the pushed entity. -/
theorem routedPush_ok (D : String) (sn : Option String) (next : DbState → DbState)
    (op : DbState → Schema → Res Schema Unit) (k : Key)
    (hop : ∀ st s s1, op st s = .ok () s1 → Schema.Le s s1 ∧ k ∈ s1.keys)
    (db dbf : Database) (h : routedPush D sn next op db = .ok dbf) :
    Database.Step db dbf ∧
      dbf.hasDefaultSchema = (db.hasDefaultSchema || setsDefaultFlag D sn) ∧
      dbf.HoldsIn (orDefault sn D) k := by
  obtain ⟨i, db1, s, hstep, hfi, hs, hflag, heq⟩ := routedPush_cases D sn next op db
  rw [heq] at h
  cases hop1 : op db1.dbState s with
  | raised e s1 => simp [hop1] at h
  | ok u s1 =>
    simp only [hop1, Except.ok.injEq] at h
    obtain ⟨hle, hk⟩ := hop _ _ _ hop1
    obtain ⟨hst2, hget⟩ := set_step db1 (next db1.dbState) i s s1 hs hle
    subst h
    refine ⟨hstep.andThen hst2, hflag, i, s1, ?_, hget, hk⟩
    exact firstIdx_of_le _ hst2.1 i hfi

/-! ## Keys of the entities the process loops push -/

theorem mem_keys_iff (s : Schema) (k : Key) :
    k ∈ s.keys ↔ (∃ t ∈ s.tables, t.key = k) ∨ (∃ t ∈ s.tags, Key.tag t.name = k) ∨
      (∃ e ∈ s.enums, Key.enum e.name = k) ∨
      (∃ t ∈ s.tableGroups, Key.tableGroup t.name = k) ∨
      (∃ r ∈ s.refs, Key.ref r.name r.endpoints = k) := by
  simp only [Schema.keys, List.mem_append, List.mem_map, or_assoc]

theorem fieldNewAll_raw (rfs : List RawField) (st : DbState) :
    (Field.newAll rfs st).1.map (fun f => ({ name := f.name, type := f.type } : RawField))
      = rfs := by
  induction rfs generalizing st with
  | nil => rfl
  | cons rf rest ih => simp [Field.newAll, Field.new, ih]

theorem tableNew_key (r : RawTable) (st : DbState) : (Table.new r st).1.key = r.key := by
  simp [Table.new, Table.key, RawTable.key, fieldNewAll_raw]

theorem pushTable_le (s s1 : Schema) (t : Table) (h : s.pushTable t = .ok () s1) :
    Schema.Le s s1 ∧ t.key ∈ s1.keys := by
  rcases pushTable_state s t with ⟨heq, _⟩ | ⟨heq, _⟩
  · rw [heq] at h; cases h
  · rw [heq] at h
    cases h
    refine ⟨⟨rfl, rfl, ?_⟩, ?_⟩
    · intro k hk
      rw [mem_keys_iff] at hk ⊢
      rcases hk with ⟨x, hx, hxk⟩ | hk
      · exact Or.inl ⟨x, by simp [hx], hxk⟩
      · exact Or.inr hk
    · rw [mem_keys_iff]
      exact Or.inl ⟨t, by simp, rfl⟩

theorem pushTag_le (s s1 : Schema) (t : Tag) (h : s.pushTag t = .ok () s1) :
    Schema.Le s s1 ∧ Key.tag t.name ∈ s1.keys := by
  rcases pushTag_state s t with ⟨heq, _⟩ | ⟨heq, _⟩
  · rw [heq] at h; cases h
  · rw [heq] at h
    cases h
    refine ⟨⟨rfl, rfl, ?_⟩, ?_⟩
    · intro k hk
      rw [mem_keys_iff] at hk ⊢
      rcases hk with hk | ⟨x, hx, hxk⟩ | hk
      · exact Or.inl hk
      · exact Or.inr (Or.inl ⟨x, by simp [hx], hxk⟩)
      · exact Or.inr (Or.inr hk)
    · rw [mem_keys_iff]
      exact Or.inr (Or.inl ⟨t, by simp, rfl⟩)

theorem pushTableGroup_le (s s1 : Schema) (t : TableGroup)
    (h : s.pushTableGroup t = .ok () s1) :
    Schema.Le s s1 ∧ Key.tableGroup t.name ∈ s1.keys := by
  rcases pushTableGroup_state s t with ⟨heq, _⟩ | ⟨heq, _⟩
  · rw [heq] at h; cases h
  · rw [heq] at h
    cases h
    refine ⟨⟨rfl, rfl, ?_⟩, ?_⟩
    · intro k hk
      rw [mem_keys_iff] at hk ⊢
      rcases hk with hk | hk | hk | ⟨x, hx, hxk⟩ | hk
      · exact Or.inl hk
      · exact Or.inr (Or.inl hk)
      · exact Or.inr (Or.inr (Or.inl hk))
      · exact Or.inr (Or.inr (Or.inr (Or.inl ⟨x, by simp [hx], hxk⟩)))
      · exact Or.inr (Or.inr (Or.inr (Or.inr hk)))
    · rw [mem_keys_iff]
      exact Or.inr (Or.inr (Or.inr (Or.inl ⟨t, by simp, rfl⟩)))

theorem pushRef_le (s s1 : Schema) (r : Ref) (h : s.pushRef r = .ok () s1) :
    Schema.Le s s1 ∧ Key.ref r.name r.endpoints ∈ s1.keys := by
  rcases pushRef_state s r with ⟨heq, _⟩ | ⟨heq, _⟩
  · rw [heq] at h; cases h
  · rw [heq] at h
    cases h
    refine ⟨⟨rfl, rfl, ?_⟩, ?_⟩
    · intro k hk
      rw [mem_keys_iff] at hk ⊢
      rcases hk with hk | hk | hk | hk | ⟨x, hx, hxk⟩
      · exact Or.inl hk
      · exact Or.inr (Or.inl hk)
      · exact Or.inr (Or.inr (Or.inl hk))
      · exact Or.inr (Or.inr (Or.inr (Or.inl hk)))
      · exact Or.inr (Or.inr (Or.inr (Or.inr ⟨x, by simp [hx], hxk⟩)))
    · rw [mem_keys_iff]
      exact Or.inr (Or.inr (Or.inr (Or.inr ⟨r, by simp, rfl⟩)))

/-! ## The bodies of the process loops -/

theorem processTable_ok (D : String) (r : RawTable) (db dbf : Database)
    (h : Database.processTable D r db = .ok dbf) :
    Database.Step db dbf ∧
      dbf.hasDefaultSchema = (db.hasDefaultSchema || setsDefaultFlag D r.schemaName) ∧
      dbf.HoldsIn (orDefault r.schemaName D) r.key :=
  routedPush_ok D r.schemaName (fun st => (Table.new r st).2)
    (fun st schema => schema.pushTable (Table.new r st).1) r.key
    (fun st s s1 hop => by
      have := pushTable_le s s1 _ hop
      rwa [tableNew_key] at this) db dbf h

theorem processTag_ok (D : String) (r : RawTag) (db dbf : Database)
    (h : Database.processTag D r db = .ok dbf) :
    Database.Step db dbf ∧
      dbf.hasDefaultSchema = (db.hasDefaultSchema || setsDefaultFlag D r.schemaName) ∧
      dbf.HoldsIn (orDefault r.schemaName D) (Key.tag r.name) :=
  routedPush_ok D r.schemaName (fun st => (Tag.new r st).2)
    (fun st schema => schema.pushTag (Tag.new r st).1) (Key.tag r.name)
    (fun _ s s1 hop => pushTag_le s s1 _ hop) db dbf h

theorem processRef_ok (D : String) (r : RawRef) (db dbf : Database)
    (h : Database.processRef D r db = .ok dbf) :
    Database.Step db dbf ∧
      dbf.hasDefaultSchema = (db.hasDefaultSchema || setsDefaultFlag D r.schemaName) ∧
      dbf.HoldsIn (orDefault r.schemaName D) (Key.ref r.name r.endpoints) :=
  routedPush_ok D r.schemaName (fun st => (Ref.new r st).2)
    (fun st schema => schema.pushRef (Ref.new r st).1) (Key.ref r.name r.endpoints)
    (fun _ s s1 hop => pushRef_le s s1 _ hop) db dbf h

theorem processTableGroup_ok (D : String) (r : RawTableGroup) (db dbf : Database)
    (h : Database.processTableGroup D r db = .ok dbf) :
    Database.Step db dbf ∧
      dbf.hasDefaultSchema = (db.hasDefaultSchema || setsDefaultFlag D r.schemaName) ∧
      dbf.HoldsIn (orDefault r.schemaName D) (Key.tableGroup r.name) :=
  routedPush_ok D r.schemaName (fun st => (TableGroup.new r st).2)
    (fun st schema => schema.pushTableGroup (TableGroup.new r st).1)
    (Key.tableGroup r.name)
    (fun _ s s1 hop => pushTableGroup_le s s1 _ hop) db dbf h

theorem map_modify_eq {α β : Type} (g : α → β) (f : α → α) (hf : ∀ a, g (f a) = g a)
    (i : Nat) (l : List α) : (List.modify f i l).map g = l.map g := by
  apply List.ext_getElem?
  intro j
  simp only [List.getElem?_map, List.getElem?_modify]
  cases l[j]? with
  | none => rfl
  | some a =>
    by_cases hij : i = j
    · simp [hij, hf]
    · simp [hij]

theorem pushEnumAt_names (D : String) (db : Database) (i : Nat) (e : Enum) :
    (Database.pushEnumAt D db i e).state.schemas.map (fun s => s.name) =
      db.schemas.map (fun s => s.name) := by
  rcases pushEnumAt_state D db i e with ⟨hst, _⟩ | ⟨s, _, _, heq⟩
  · rw [hst]
  · rw [heq]
    simp only [Res.state]
    refine Eq.trans (map_modify_eq (fun s : Schema => s.name) _ ?_ i _)
      (names_of_unlink (bindEnumToField_unlink D db.schemas e))
    intro a
    rfl

theorem pushEnumAt_step (D : String) (db : Database) (i : Nat) (e : Enum) :
    Database.Step db (Database.pushEnumAt D db i e).state := by
  refine ⟨?_, by rw [pushEnumAt_names]; exact fun h => h⟩
  intro j s hs
  obtain ⟨s1, hs1, _, hname, _, halias, htags, htg, hrefs, htab, henum⟩ :=
    pushEnumAt_getElem? D db i j e s hs
  refine ⟨s1, hs1, hname, halias, ?_⟩
  have hk : s1.tables.map Table.key = s.tables.map Table.key := by
    have := congrArg (List.map Table.key) htab
    simpa [List.map_map, Function.comp_def, Table.key_unlink] using this
  intro k hk0
  rw [mem_keys_iff] at hk0 ⊢
  rcases hk0 with ⟨x, hx, hxk⟩ | hk0 | ⟨x, hx, hxk⟩ | hk0 | hk0
  · left
    have : k ∈ s1.tables.map Table.key := by
      rw [hk]; exact List.mem_map.2 ⟨x, hx, hxk⟩
    obtain ⟨y, hy, hyk⟩ := List.mem_map.1 this
    exact ⟨y, hy, hyk⟩
  · rw [htags]; exact Or.inr (Or.inl hk0)
  · right; right; left
    rcases henum with h | ⟨_, _, _, e1, _, _, h⟩
    · rw [h]; exact ⟨x, hx, hxk⟩
    · rw [h]; exact ⟨x, by simp [hx], hxk⟩
  · rw [htg]; exact Or.inr (Or.inr (Or.inr (Or.inl hk0)))
  · rw [hrefs]; exact Or.inr (Or.inr (Or.inr (Or.inr hk0)))

theorem pushEnumAt_ok_at (D : String) (db : Database) (i : Nat) (e : Enum) (s : Schema)
    (hs : db.schemas[i]? = some s)
    (hok : (Database.pushEnumAt D db i e).isRaised = false) :
    ∃ s1, (Database.pushEnumAt D db i e).state.schemas[i]? = some s1 ∧
      Key.enum e.name ∈ s1.keys := by
  rcases pushEnumAt_state D db i e with ⟨_, hnone | ⟨s0, _, _, heq⟩⟩ | ⟨s0, hs0, _, heq⟩
  · rw [hs] at hnone; cases hnone
  · rw [heq] at hok; cases hok
  · obtain ⟨b, hb, _⟩ := bindEnumToField_getElem? D db.schemas e i s hs
    rw [heq]
    refine ⟨{ b with enums := b.enums ++ [(Schema.bindEnumToField D db.schemas e).2] },
      by simp [Res.state, List.getElem?_modify, hb], ?_⟩
    rw [mem_keys_iff]
    refine Or.inr (Or.inr (Or.inl ⟨(Schema.bindEnumToField D db.schemas e).2, by simp, ?_⟩))
    rw [(bindEnumToField_enum D db.schemas e).2]

theorem processEnum_ok (D : String) (r : RawEnum) (db dbf : Database)
    (h : Database.processEnum D r db = .ok dbf) :
    Database.Step db dbf ∧
      dbf.hasDefaultSchema = (db.hasDefaultSchema || setsDefaultFlag D r.schemaName) ∧
      dbf.HoldsIn (orDefault r.schemaName D) (Key.enum r.name) := by
  obtain ⟨i, db1, hroute, hstep, hfi, hflag⟩ := route_sum D db r.schemaName
  obtain ⟨⟨s, hs, _⟩, _⟩ := firstIdx_eq_some _ _ _ hfi
  simp only [Database.processEnum, hroute, Res.toExcept] at h
  have hst2 := pushEnumAt_step D { db1 with dbState := (Enum.new r db1.dbState).2 } i
    (Enum.new r db1.dbState).1
  cases hp : Database.pushEnumAt D { db1 with dbState := (Enum.new r db1.dbState).2 } i
      (Enum.new r db1.dbState).1 with
  | raised e d => simp [hp] at h
  | ok u d =>
    simp only [hp, Except.ok.injEq] at h
    subst h
    obtain ⟨s1, hs1, hk⟩ := pushEnumAt_ok_at D
      { db1 with dbState := (Enum.new r db1.dbState).2 } i (Enum.new r db1.dbState).1 s hs
      (by rw [hp]; rfl)
    rw [hp] at hst2 hs1
    simp only [Res.state] at hst2 hs1
    have hflag2 : d.hasDefaultSchema = db1.hasDefaultSchema := by
      rcases pushEnumAt_state D { db1 with dbState := (Enum.new r db1.dbState).2 } i
        (Enum.new r db1.dbState).1 with ⟨hst, _⟩ | ⟨_, _, _, heq⟩
      · rw [hp] at hst; simp only [Res.state] at hst; rw [hst]
      · rw [hp] at heq; cases heq; rfl
    have hstep1 : Database.Step db1 { db1 with dbState := (Enum.new r db1.dbState).2 } :=
      Database.Step.stepOfSchemasEq rfl
    refine ⟨hstep.andThen (hstep1.andThen hst2), by rw [hflag2, hflag], i, s1, ?_, hs1, hk⟩
    exact firstIdx_of_le _ (hstep1.andThen hst2).1 i hfi

/-! ## The `Schema` constructor and `processSchemas` -/

theorem bind_eq_ok {α β : Type} (x : Except Error α) (f : α → Except Error β) (b : β)
    (h : x.bind f = .ok b) : ∃ a, x = .ok a ∧ f a = .ok b := by
  cases x with
  | error e => simp [Except.bind] at h
  | ok a => exact ⟨a, rfl, by simpa [Except.bind] using h⟩

theorem ctorFrame_refl (st : Database × Schema) : ctorFrame st st :=
  ⟨rfl, rfl, rfl, rfl⟩

theorem ctorFrame_trans (a b c : Database × Schema) (h1 : ctorFrame a b)
    (h2 : ctorFrame b c) : ctorFrame a c :=
  ⟨h2.1.trans h1.1, h2.2.1.trans h1.2.1, h2.2.2.1.trans h1.2.2.1, h2.2.2.2.trans h1.2.2.2⟩

theorem schema_processTable_frame (r : RawTable) (st st1 : Database × Schema)
    (h : Schema.processTable r st = .ok st1) : ctorFrame st st1 := by
  unfold Schema.processTable at h
  rcases pushTable_state st.2 (Table.new r st.1.dbState).1 with ⟨heq, _⟩ | ⟨heq, _⟩
  · simp [heq, Res.toExcept] at h
  · simp only [heq, Res.toExcept, Except.ok.injEq] at h
    subst h
    exact ⟨rfl, rfl, rfl, rfl⟩

theorem schema_processTag_frame (r : RawTag) (st st1 : Database × Schema)
    (h : Schema.processTag r st = .ok st1) : ctorFrame st st1 := by
  unfold Schema.processTag at h
  rcases pushTag_state st.2 (Tag.new r st.1.dbState).1 with ⟨heq, _⟩ | ⟨heq, _⟩
  · simp [heq, Res.toExcept] at h
  · simp only [heq, Res.toExcept, Except.ok.injEq] at h
    subst h
    exact ⟨rfl, rfl, rfl, rfl⟩

theorem schema_processRef_frame (r : RawRef) (st st1 : Database × Schema)
    (h : Schema.processRef r st = .ok st1) : ctorFrame st st1 := by
  unfold Schema.processRef at h
  rcases pushRef_state st.2 (Ref.new r st.1.dbState).1 with ⟨heq, _⟩ | ⟨heq, _⟩
  · simp [heq, Res.toExcept] at h
  · simp only [heq, Res.toExcept, Except.ok.injEq] at h
    subst h
    exact ⟨rfl, rfl, rfl, rfl⟩

theorem schema_processTableGroup_frame (r : RawTableGroup) (st st1 : Database × Schema)
    (h : Schema.processTableGroup r st = .ok st1) : ctorFrame st st1 := by
  unfold Schema.processTableGroup at h
  rcases pushTableGroup_state st.2 (TableGroup.new r st.1.dbState).1 with
    ⟨heq, _⟩ | ⟨heq, _⟩
  · simp [heq, Res.toExcept] at h
  · simp only [heq, Res.toExcept, Except.ok.injEq] at h
    subst h
    exact ⟨rfl, rfl, rfl, rfl⟩

theorem schema_processEnum_frame (D : String) (r : RawEnum) (st st1 : Database × Schema)
    (h : Schema.processEnum D r st = .ok st1) : ctorFrame st st1 := by
  unfold Schema.processEnum at h
  rcases pushEnum_state D { st.1 with dbState := (Enum.new r st.1.dbState).2 } st.2
    (Enum.new r st.1.dbState).1 with ⟨heq, _⟩ | ⟨heq, _⟩
  · simp [heq, Res.toExcept] at h
  · simp only [heq, Res.toExcept, Except.ok.injEq] at h
    subst h
    exact ⟨bindEnumToField_unlink D _ _, rfl, rfl, rfl⟩

/-- The `Schema` constructor keeps the held schemas of the database up to enum links and
gives the new schema the name and alias of the raw record. -/
theorem schema_new_sum (D : String) (raw : RawSchema) (db db1 : Database) (s : Schema)
    (h : Schema.new D raw db = .ok (s, db1)) :
    db1.schemas.map Schema.unlink = db.schemas.map Schema.unlink ∧
      db1.hasDefaultSchema = db.hasDefaultSchema ∧ s.name = raw.name ∧
      s.alias_ = raw.alias_ := by
  unfold Schema.new at h
  obtain ⟨st5, h5, hfin⟩ := bind_eq_ok _ _ _ h
  obtain ⟨st4, h4, h5⟩ := bind_eq_ok _ _ _ h5
  obtain ⟨st3, h3, h4⟩ := bind_eq_ok _ _ _ h4
  obtain ⟨st2, h2, h3⟩ := bind_eq_ok _ _ _ h3
  obtain ⟨st1, h1, h2⟩ := bind_eq_ok _ _ _ h2
  have f1 := forEach_rel _ ctorFrame ctorFrame_refl ctorFrame_trans
    schema_processTable_frame _ _ _ h1
  have f2 := forEach_rel _ ctorFrame ctorFrame_refl ctorFrame_trans
    schema_processTag_frame _ _ _ h2
  have f3 := forEach_rel _ ctorFrame ctorFrame_refl ctorFrame_trans
    (schema_processEnum_frame D) _ _ _ h3
  have f4 := forEach_rel _ ctorFrame ctorFrame_refl ctorFrame_trans
    schema_processRef_frame _ _ _ h4
  have f5 := forEach_rel _ ctorFrame ctorFrame_refl ctorFrame_trans
    schema_processTableGroup_frame _ _ _ h5
  have f := ctorFrame_trans _ _ _ (ctorFrame_trans _ _ _ (ctorFrame_trans _ _ _
    (ctorFrame_trans _ _ _ f1 f2) f3) f4) f5
  simp only [Except.ok.injEq, Prod.mk.injEq] at hfin
  obtain ⟨rfl, rfl⟩ := hfin
  exact f

theorem processSchema_ok (D : String) (raw : RawSchema) (db dbf : Database)
    (h : Database.processSchema D raw db = .ok dbf) :
    Database.Step db dbf ∧ dbf.hasDefaultSchema = db.hasDefaultSchema := by
  unfold Database.processSchema at h
  cases hn : Schema.new D raw db with
  | error e => simp [hn] at h
  | ok r =>
    obtain ⟨s, db1⟩ := r
    obtain ⟨hun, hflag, _, _⟩ := schema_new_sum D raw db db1 s hn
    simp only [hn] at h
    unfold Database.pushSchema at h
    cases hc : db1.checkSchema s with
    | some e => simp [hc, Res.toExcept] at h
    | none =>
      simp only [hc, Res.toExcept, Except.ok.injEq] at h
      subst h
      refine ⟨(Database.Step.stepOfUnlink hun).andThen ⟨?_, ?_⟩, hflag⟩
      · intro j a ha
        have hlt : j < db1.schemas.length := (List.getElem?_eq_some.1 ha).1
        exact ⟨a, by simp only [List.getElem?_append_left hlt]; exact ha, Schema.Le.same a⟩
      · intro hnd
        exact nodup_map_append_singleton _ _ _ hnd ((checkSchema_eq_none db1 s).1 hc)

/-! ## Tag binding: what it keeps -/

theorem tagFrame_refl (s : Schema) : tagFrame s s :=
  ⟨rfl, rfl, rfl, rfl, rfl, rfl, List.Subset.refl _⟩

theorem tagFrame_trans (a b c : Schema) (h1 : tagFrame a b) (h2 : tagFrame b c) :
    tagFrame a c :=
  ⟨h2.1.trans h1.1, h2.2.1.trans h1.2.1, h2.2.2.1.trans h1.2.2.1,
    h2.2.2.2.1.trans h1.2.2.2.1, h2.2.2.2.2.1.trans h1.2.2.2.2.1,
    h2.2.2.2.2.2.1.trans h1.2.2.2.2.2.1, List.Subset.trans h1.2.2.2.2.2.2 h2.2.2.2.2.2.2⟩

theorem foldl_pushTag_key (l : List Tag) (t : Table) :
    (List.foldl Table.pushTag t l).key = t.key := by
  induction l generalizing t with
  | nil => rfl
  | cons a rest ih => simp only [List.foldl_cons]; rw [ih]; rfl

theorem bindRawTag_frame (rawTag : RawTag) (st st1 : Table × Schema × DbState)
    (h : bindRawTag rawTag st = .ok st1) :
    st1.1.key = st.1.key ∧ tagFrame st.2.1 st1.2.1 := by
  unfold bindRawTag at h
  split at h
  · simp only [Except.ok.injEq] at h
    subst h
    refine ⟨foldl_pushTag_key _ _, rfl, rfl, rfl, rfl, rfl, rfl, ?_⟩
    intro n hn
    obtain ⟨x, hx, hxn⟩ := List.mem_map.1 hn
    refine List.mem_map.2 ⟨_, List.mem_map.2 ⟨x, hx, rfl⟩, ?_⟩
    subst hxn
    show (if (x.name == rawTag.name) = true then x.pushTable st.1 else x).name = x.name
    split <;> rfl
  · cases hc : st.2.1.checkTag (Tag.new rawTag st.2.2).1 with
    | some e => simp [hc] at h
    | none =>
      simp only [hc, Except.ok.injEq] at h
      subst h
      refine ⟨rfl, rfl, rfl, rfl, rfl, rfl, rfl, ?_⟩
      intro n hn
      simp only [List.map_append, List.mem_append]
      exact Or.inl hn

theorem bindTableTags_frame (t t1 : Table) (b b1 : Schema × DbState)
    (h : bindTableTags t b = .ok (t1, b1)) : t1.key = t.key ∧ tagFrame b.1 b1.1 := by
  unfold bindTableTags at h
  exact forEach_rel bindRawTag
    (fun x y : Table × Schema × DbState => y.1.key = x.1.key ∧ tagFrame x.2.1 y.2.1)
    (fun x => ⟨rfl, tagFrame_refl _⟩)
    (fun x y z h1 h2 => ⟨h2.1.trans h1.1, tagFrame_trans _ _ _ h1.2 h2.2⟩)
    bindRawTag_frame t.rawTags (t, b) (t1, b1) h

theorem forall₂_map_eq {α β : Type} (f : α → β) (l l1 : List α)
    (h : List.Forall₂ (fun a a1 => f a1 = f a) l l1) : l1.map f = l.map f := by
  induction h with
  | nil => rfl
  | cons hab _ ih => simp [hab, ih]

theorem bindSchemaTags_le (schema schema1 : Schema) (st st1 : DbState)
    (h : bindSchemaTags schema st = .ok (schema1, st1)) : Schema.Le schema schema1 := by
  unfold bindSchemaTags at h
  cases hm : mapAccumE bindTableTags schema.tables (schema, st) with
  | error e => simp [hm] at h
  | ok r =>
    obtain ⟨tables, schemaX, stX⟩ := r
    simp only [hm, Except.ok.injEq, Prod.mk.injEq] at h
    obtain ⟨rfl, rfl⟩ := h
    obtain ⟨hf, hname, halias, _, henums, htg, hrefs, htags⟩ :=
      mapAccumE_rel bindTableTags (fun t t1 : Table => t1.key = t.key)
        (fun b b1 : Schema × DbState => tagFrame b.1 b1.1)
        (fun b => tagFrame_refl _) (fun a b c h1 h2 => tagFrame_trans _ _ _ h1 h2)
        (fun a b a1 b1 hb => bindTableTags_frame a a1 b b1 hb)
        schema.tables (schema, st) tables (schemaX, stX) hm
    have hkeys := forall₂_map_eq Table.key _ _ hf
    refine ⟨hname, halias, ?_⟩
    intro k hk
    rw [mem_keys_iff] at hk ⊢
    rcases hk with ⟨x, hx, hxk⟩ | ⟨x, hx, hxk⟩ | hk | hk | hk
    · left
      have : k ∈ tables.map Table.key := by
        rw [hkeys]; exact List.mem_map.2 ⟨x, hx, hxk⟩
      obtain ⟨y, hy, hyk⟩ := List.mem_map.1 this
      exact ⟨y, hy, hyk⟩
    · right; left
      have : x.name ∈ schemaX.tags.map (fun t => t.name) :=
        htags (List.mem_map.2 ⟨x, hx, rfl⟩)
      obtain ⟨y, hy, hyn⟩ := List.mem_map.1 this
      refine ⟨y, hy, ?_⟩
      rw [← hxk]
      exact congrArg Key.tag hyn
    · rw [show schemaX.enums = schema.enums from henums]
      exact Or.inr (Or.inr (Or.inl hk))
    · rw [show schemaX.tableGroups = schema.tableGroups from htg]
      exact Or.inr (Or.inr (Or.inr (Or.inl hk)))
    · rw [show schemaX.refs = schema.refs from hrefs]
      exact Or.inr (Or.inr (Or.inr (Or.inr hk)))

theorem bindTagToTable_ok (db dbf : Database) (h : db.bindTagToTable = .ok dbf) :
    Database.Step db dbf ∧ dbf.hasDefaultSchema = db.hasDefaultSchema := by
  unfold Database.bindTagToTable at h
  cases hm : mapAccumE bindSchemaTags db.schemas db.dbState with
  | error e => simp [hm] at h
  | ok r =>
    obtain ⟨schemas, st⟩ := r
    simp only [hm, Except.ok.injEq] at h
    subst h
    obtain ⟨hf, _⟩ := mapAccumE_rel bindSchemaTags Schema.Le (fun _ _ : DbState => True)
      (fun _ => trivial) (fun _ _ _ _ _ => trivial)
      (fun a b a1 b1 hb => ⟨bindSchemaTags_le a a1 b b1 hb, trivial⟩)
      db.schemas db.dbState schemas st hm
    refine ⟨⟨fun i s hs => forall₂_getElem? _ _ _ hf i s hs, ?_⟩, rfl⟩
    have hn : schemas.map (fun s => s.name) = db.schemas.map (fun s => s.name) :=
      forall₂_map_eq (fun s : Schema => s.name) _ _ (hf.imp (fun a b hab => hab.1))
    simp only [hn]
    exact fun h => h

/-! ## The process loops and the constructor -/

/-- A process loop whose body is a step, contributes `key a` to `hasDefaultSchema` and
establishes a fact that later states keep. -/
theorem forEach_collect {α : Type} (body : α → Database → Except Error Database)
    (key : α → Bool) (fact : α → Database → Prop)
    (hbody : ∀ a s s1, body a s = .ok s1 →
      Database.Step s s1 ∧ s1.hasDefaultSchema = (s.hasDefaultSchema || key a) ∧ fact a s1)
    (hmono : ∀ a s s1, Database.Le s s1 → fact a s → fact a s1)
    (l : List α) (s s1 : Database) (h : forEach body l s = .ok s1) :
    Database.Step s s1 ∧ s1.hasDefaultSchema = (s.hasDefaultSchema || l.any key) ∧
      ∀ a ∈ l, fact a s1 := by
  induction l generalizing s with
  | nil =>
    simp only [forEach, Except.ok.injEq] at h
    subst h
    exact ⟨Database.Step.sameStep s, by simp, by simp⟩
  | cons a rest ih =>
    simp only [forEach] at h
    cases hb : body a s with
    | error e => simp [hb] at h
    | ok s2 =>
      simp only [hb] at h
      obtain ⟨hst, hfl, hfa⟩ := hbody a s s2 hb
      obtain ⟨hst2, hfl2, hfa2⟩ := ih s2 h
      refine ⟨hst.andThen hst2, ?_, ?_⟩
      · rw [hfl2, hfl]; simp [Bool.or_assoc]
      · intro x hx
        rcases List.mem_cons.1 hx with rfl | hx
        · exact hmono _ _ _ hst2.1 hfa
        · exact hfa2 x hx

theorem processSchemas_ok (D : String) (l : List RawSchema) (db dbf : Database)
    (h : Database.processSchemas D l db = .ok dbf) :
    Database.Step db dbf ∧ dbf.hasDefaultSchema = db.hasDefaultSchema := by
  obtain ⟨hst, hfl, _⟩ := forEach_collect (Database.processSchema D) (fun _ => false)
    (fun _ _ => True)
    (fun a s s1 hb => ⟨(processSchema_ok D a s s1 hb).1,
      by simp [(processSchema_ok D a s s1 hb).2], trivial⟩)
    (fun _ _ _ _ _ => trivial) l db dbf h
  have hany : l.any (fun _ => false) = false := by
    induction l with
    | nil => rfl
    | cons a rest ih => simp
  exact ⟨hst, by rw [hfl, hany]; simp⟩

theorem processTables_ok (D : String) (l : List RawTable) (db dbf : Database)
    (h : Database.processTables D l db = .ok dbf) :
    Database.Step db dbf ∧
      dbf.hasDefaultSchema =
        (db.hasDefaultSchema || l.any (fun r => setsDefaultFlag D r.schemaName)) ∧
      ∀ r ∈ l, dbf.HoldsIn (orDefault r.schemaName D) r.key :=
  forEach_collect (Database.processTable D) (fun r => setsDefaultFlag D r.schemaName)
    (fun r d => d.HoldsIn (orDefault r.schemaName D) r.key)
    (processTable_ok D) (fun _ _ _ hle hf => Database.HoldsIn.keptLater hle _ _ hf) l db dbf h

theorem processTags_ok (D : String) (l : List RawTag) (db dbf : Database)
    (h : Database.processTags D l db = .ok dbf) :
    Database.Step db dbf ∧
      dbf.hasDefaultSchema =
        (db.hasDefaultSchema || l.any (fun r => setsDefaultFlag D r.schemaName)) ∧
      ∀ r ∈ l, dbf.HoldsIn (orDefault r.schemaName D) (Key.tag r.name) := by
  unfold Database.processTags at h
  obtain ⟨db1, h1, h2⟩ := bind_eq_ok _ _ _ h
  obtain ⟨hst, hfl, hfa⟩ := forEach_collect (Database.processTag D)
    (fun r => setsDefaultFlag D r.schemaName)
    (fun r d => d.HoldsIn (orDefault r.schemaName D) (Key.tag r.name))
    (processTag_ok D) (fun _ _ _ hle hf => Database.HoldsIn.keptLater hle _ _ hf) l db db1 h1
  obtain ⟨hst2, hfl2⟩ := bindTagToTable_ok db1 dbf h2
  exact ⟨hst.andThen hst2, by rw [hfl2, hfl],
    fun r hr => Database.HoldsIn.keptLater hst2.1 _ _ (hfa r hr)⟩

theorem processRefs_ok (D : String) (l : List RawRef) (db dbf : Database)
    (h : Database.processRefs D l db = .ok dbf) :
    Database.Step db dbf ∧
      dbf.hasDefaultSchema =
        (db.hasDefaultSchema || l.any (fun r => setsDefaultFlag D r.schemaName)) ∧
      ∀ r ∈ l, dbf.HoldsIn (orDefault r.schemaName D) (Key.ref r.name r.endpoints) :=
  forEach_collect (Database.processRef D) (fun r => setsDefaultFlag D r.schemaName)
    (fun r d => d.HoldsIn (orDefault r.schemaName D) (Key.ref r.name r.endpoints))
    (processRef_ok D) (fun _ _ _ hle hf => Database.HoldsIn.keptLater hle _ _ hf) l db dbf h

theorem processEnums_ok (D : String) (l : List RawEnum) (db dbf : Database)
    (h : Database.processEnums D l db = .ok dbf) :
    Database.Step db dbf ∧
      dbf.hasDefaultSchema =
        (db.hasDefaultSchema || l.any (fun r => setsDefaultFlag D r.schemaName)) ∧
      ∀ r ∈ l, dbf.HoldsIn (orDefault r.schemaName D) (Key.enum r.name) :=
  forEach_collect (Database.processEnum D) (fun r => setsDefaultFlag D r.schemaName)
    (fun r d => d.HoldsIn (orDefault r.schemaName D) (Key.enum r.name))
    (processEnum_ok D) (fun _ _ _ hle hf => Database.HoldsIn.keptLater hle _ _ hf) l db dbf h

theorem processTableGroups_ok (D : String) (l : List RawTableGroup) (db dbf : Database)
    (h : Database.processTableGroups D l db = .ok dbf) :
    Database.Step db dbf ∧
      dbf.hasDefaultSchema =
        (db.hasDefaultSchema || l.any (fun r => setsDefaultFlag D r.schemaName)) ∧
      ∀ r ∈ l, dbf.HoldsIn (orDefault r.schemaName D) (Key.tableGroup r.name) :=
  forEach_collect (Database.processTableGroup D) (fun r => setsDefaultFlag D r.schemaName)
    (fun r d => d.HoldsIn (orDefault r.schemaName D) (Key.tableGroup r.name))
    (processTableGroup_ok D) (fun _ _ _ hle hf => Database.HoldsIn.keptLater hle _ _ hf)
    l db dbf h

theorem any_map_eq {α β : Type} (f : α → β) (p : β → Bool) (l : List α) :
    (l.map f).any p = l.any (fun a => p (f a)) := by
  induction l with
  | nil => rfl
  | cons a rest ih => simp [ih]

/-- What a successful construction establishes: distinct schema names, the value of
`hasDefaultSchema`, and every top-level record held by the schema its declared (or
default) schema name finds. -/
theorem new_sum (D : String) (raw : RawDatabase) (db : Database)
    (h : Database.new D raw = .ok db) :
    (db.schemas.map (fun s => s.name)).Nodup ∧
      db.hasDefaultSchema = raw.schemaNames.any (setsDefaultFlag D) ∧
      (∀ r ∈ raw.tables, db.HoldsIn (orDefault r.schemaName D) r.key) ∧
      (∀ r ∈ raw.tags, db.HoldsIn (orDefault r.schemaName D) (Key.tag r.name)) ∧
      (∀ r ∈ raw.refs, db.HoldsIn (orDefault r.schemaName D) (Key.ref r.name r.endpoints)) ∧
      (∀ r ∈ raw.enums, db.HoldsIn (orDefault r.schemaName D) (Key.enum r.name)) ∧
      (∀ r ∈ raw.tableGroups,
        db.HoldsIn (orDefault r.schemaName D) (Key.tableGroup r.name)) := by
  unfold Database.new at h
  obtain ⟨d5, h5, h6⟩ := bind_eq_ok _ _ _ h
  obtain ⟨d4, h4, h5⟩ := bind_eq_ok _ _ _ h5
  obtain ⟨d3, h3, h4⟩ := bind_eq_ok _ _ _ h4
  obtain ⟨d2, h2, h3⟩ := bind_eq_ok _ _ _ h3
  obtain ⟨d1, h1, h2⟩ := bind_eq_ok _ _ _ h2
  obtain ⟨s1, f1⟩ := processSchemas_ok D _ _ _ h1
  obtain ⟨s2, f2, k2⟩ := processTables_ok D _ _ _ h2
  obtain ⟨s3, f3, k3⟩ := processTags_ok D _ _ _ h3
  obtain ⟨s4, f4, k4⟩ := processRefs_ok D _ _ _ h4
  obtain ⟨s5, f5, k5⟩ := processEnums_ok D _ _ _ h5
  obtain ⟨s6, f6, k6⟩ := processTableGroups_ok D _ _ _ h6
  refine ⟨?_, ?_, ?_, ?_, ?_, ?_, k6⟩
  · exact s6.2 (s5.2 (s4.2 (s3.2 (s2.2 (s1.2 (by simp [Database.init]))))))
  · rw [f6, f5, f4, f3, f2, f1]
    simp only [Database.init, RawDatabase.schemaNames, List.any_append, any_map_eq,
      Bool.false_or, Bool.or_assoc]
  · exact fun r hr => Database.HoldsIn.keptLater
      (s3.1.laterDb (s4.1.laterDb (s5.1.laterDb s6.1))) _ _ (k2 r hr)
  · exact fun r hr => Database.HoldsIn.keptLater (s4.1.laterDb (s5.1.laterDb s6.1)) _ _ (k3 r hr)
  · exact fun r hr => Database.HoldsIn.keptLater (s5.1.laterDb s6.1) _ _ (k4 r hr)
  · exact fun r hr => Database.HoldsIn.keptLater s6.1 _ _ (k5 r hr)

/-! ## The default-schema flag -/

theorem setsDefaultFlag_iff (D : String) (sn : Option String) :
    setsDefaultFlag D sn = true ↔ D ≠ "" ∧ sn = some D := by
  cases sn with
  | none => simp [setsDefaultFlag, truthy]
  | some n =>
    simp only [setsDefaultFlag, truthy, Bool.and_eq_true, bne_iff_ne, ne_eq, beq_iff_eq,
      Option.some.injEq]
    constructor
    · rintro ⟨h1, h2⟩; subst h2; exact ⟨h1, rfl⟩
    · rintro ⟨h1, h2⟩; subst h2; exact ⟨h1, rfl⟩

/-- C2, the claim at the bundle of the single raw table `{ name: "users" }`: the
construction succeeds, a table record has no `schemaName`, and `hasDefaultSchema` is
false. -/
theorem users_bundle_flag_false :
    ∃ db, Database.new "public" usersBundle = .ok db ∧
      (∃ r ∈ usersBundle.tables, r.schemaName = none) ∧ db.hasDefaultSchema = false :=
  ⟨_, rfl, ⟨_, List.mem_singleton.2 rfl, rfl⟩, rfl⟩

/-- C2 as amended. After a successful construction `hasDefaultSchema` is true exactly
when some top-level table, tag, ref, enum or table-group record declares a `schemaName`
equal to `DEFAULT_SCHEMA_NAME` (a non-empty name); a record without `schemaName` is
routed to the default schema without setting the flag. -/
theorem hasDefaultSchema_iff (DEFAULT_SCHEMA_NAME : String) (raw : RawDatabase)
    (db : Database) (h : Database.new DEFAULT_SCHEMA_NAME raw = .ok db) :
    db.hasDefaultSchema = true ↔
      DEFAULT_SCHEMA_NAME ≠ "" ∧
        ((∃ r ∈ raw.tables, r.schemaName = some DEFAULT_SCHEMA_NAME) ∨
         (∃ r ∈ raw.tags, r.schemaName = some DEFAULT_SCHEMA_NAME) ∨
         (∃ r ∈ raw.refs, r.schemaName = some DEFAULT_SCHEMA_NAME) ∨
         (∃ r ∈ raw.enums, r.schemaName = some DEFAULT_SCHEMA_NAME) ∨
         (∃ r ∈ raw.tableGroups, r.schemaName = some DEFAULT_SCHEMA_NAME)) := by
  rw [(new_sum DEFAULT_SCHEMA_NAME raw db h).2.1]
  simp only [RawDatabase.schemaNames, List.any_append, any_map_eq, Bool.or_eq_true,
    List.any_eq_true, setsDefaultFlag_iff, or_assoc]
  constructor
  · rintro (⟨r, hr, hd, hs⟩ | ⟨r, hr, hd, hs⟩ | ⟨r, hr, hd, hs⟩ | ⟨r, hr, hd, hs⟩ |
      ⟨r, hr, hd, hs⟩)
    · exact ⟨hd, Or.inl ⟨r, hr, hs⟩⟩
    · exact ⟨hd, Or.inr (Or.inl ⟨r, hr, hs⟩)⟩
    · exact ⟨hd, Or.inr (Or.inr (Or.inl ⟨r, hr, hs⟩))⟩
    · exact ⟨hd, Or.inr (Or.inr (Or.inr (Or.inl ⟨r, hr, hs⟩)))⟩
    · exact ⟨hd, Or.inr (Or.inr (Or.inr (Or.inr ⟨r, hr, hs⟩)))⟩
  · rintro ⟨hd, ⟨r, hr, hs⟩ | ⟨r, hr, hs⟩ | ⟨r, hr, hs⟩ | ⟨r, hr, hs⟩ | ⟨r, hr, hs⟩⟩
    · exact Or.inl ⟨r, hr, hd, hs⟩
    · exact Or.inr (Or.inl ⟨r, hr, hd, hs⟩)
    · exact Or.inr (Or.inr (Or.inl ⟨r, hr, hd, hs⟩))
    · exact Or.inr (Or.inr (Or.inr (Or.inl ⟨r, hr, hd, hs⟩)))
    · exact Or.inr (Or.inr (Or.inr (Or.inr ⟨r, hr, hd, hs⟩)))

/-- C2 as amended, at the bundle of the single raw table
`{ name: "users", schemaName: "public" }`. -/
theorem hasDefaultSchema_iff_witness :
    ∃ db, Database.new "public" publicUsersBundle = .ok db ∧ db.hasDefaultSchema = true ∧
      (db.hasDefaultSchema = true ↔
        "public" ≠ "" ∧
          ((∃ r ∈ publicUsersBundle.tables, r.schemaName = some "public") ∨
           (∃ r ∈ publicUsersBundle.tags, r.schemaName = some "public") ∨
           (∃ r ∈ publicUsersBundle.refs, r.schemaName = some "public") ∨
           (∃ r ∈ publicUsersBundle.enums, r.schemaName = some "public") ∨
           (∃ r ∈ publicUsersBundle.tableGroups, r.schemaName = some "public"))) :=
  ⟨_, rfl, rfl, hasDefaultSchema_iff "public" publicUsersBundle _ rfl⟩

/-! ## Uniqueness of schema names -/

/-- C6, the claim at a bundle declaring the schemas `a` and `b` with the same alias `x`:
the construction succeeds and both held schemas have the alias `x`. -/
theorem shared_alias_constructs :
    ∃ db, Database.new "public" sharedAliasBundle = .ok db ∧
      db.schemas.map (fun s => (s.name, s.alias_)) = [("a", some "x"), ("b", some "x")] :=
  ⟨_, rfl, rfl⟩

/-- C6 as amended. After a successful construction no two held schemas have the same
name (aliases are not compared when a schema is pushed). -/
theorem schema_names_distinct (DEFAULT_SCHEMA_NAME : String) (raw : RawDatabase)
    (db : Database) (h : Database.new DEFAULT_SCHEMA_NAME raw = .ok db) :
    db.schemas.Pairwise (fun a b => a.name ≠ b.name) := by
  have hnd := (new_sum DEFAULT_SCHEMA_NAME raw db h).1
  exact List.pairwise_map.1 hnd

/-- C6 as amended, at the bundle declaring `a` and `b` with the same alias. -/
theorem schema_names_distinct_witness :
    ∃ db, Database.new "public" sharedAliasBundle = .ok db ∧
      db.schemas.map (fun s => s.name) = ["a", "b"] ∧
      db.schemas.Pairwise (fun a b => a.name ≠ b.name) :=
  ⟨_, rfl, rfl, schema_names_distinct "public" sharedAliasBundle _ rfl⟩

/-! ## Routing of records without `schemaName` -/

theorem holdsIn_firstMatch (db : Database) (name : String) (k : Key)
    (h : db.HoldsIn name k) : ∃ s, db.FirstMatch name s ∧ k ∈ s.keys := by
  obtain ⟨i, s, hi, hs, hk⟩ := h
  obtain ⟨⟨a, ha, hpa⟩, hlt⟩ := firstIdx_eq_some _ _ _ hi
  rw [hs] at ha
  cases ha
  exact ⟨s, ⟨i, hs, (schemaMatches_iff name s).1 hpa,
    fun j hj t ht => (schemaMatches_eq_false name t).1 (hlt j hj t ht)⟩, hk⟩

theorem mem_keys_table (s : Schema) (r : RawTable) (h : r.key ∈ s.keys) :
    ∃ t ∈ s.tables, t.name = r.name ∧ t.alias_ = r.alias_ ∧ t.rawTags = r.tags ∧
      t.fields.map (fun f => ({ name := f.name, type := f.type } : RawField)) = r.fields := by
  rw [mem_keys_iff] at h
  rcases h with ⟨t, ht, hk⟩ | ⟨t, _, hk⟩ | ⟨t, _, hk⟩ | ⟨t, _, hk⟩ | ⟨t, _, hk⟩
  · simp only [Table.key, RawTable.key, Key.table.injEq] at hk
    exact ⟨t, ht, hk.1, hk.2.1, hk.2.2.2, hk.2.2.1⟩
  · simp [RawTable.key] at hk
  · simp [RawTable.key] at hk
  · simp [RawTable.key] at hk
  · simp [RawTable.key] at hk

theorem mem_keys_tag (s : Schema) (n : String) (h : Key.tag n ∈ s.keys) :
    ∃ t ∈ s.tags, t.name = n := by
  rw [mem_keys_iff] at h
  rcases h with ⟨t, _, hk⟩ | ⟨t, ht, hk⟩ | ⟨t, _, hk⟩ | ⟨t, _, hk⟩ | ⟨t, _, hk⟩
  · simp [Table.key] at hk
  · exact ⟨t, ht, by simpa using hk⟩
  · simp at hk
  · simp at hk
  · simp at hk

theorem mem_keys_enum (s : Schema) (n : String) (h : Key.enum n ∈ s.keys) :
    ∃ e ∈ s.enums, e.name = n := by
  rw [mem_keys_iff] at h
  rcases h with ⟨t, _, hk⟩ | ⟨t, _, hk⟩ | ⟨t, ht, hk⟩ | ⟨t, _, hk⟩ | ⟨t, _, hk⟩
  · simp [Table.key] at hk
  · simp at hk
  · exact ⟨t, ht, by simpa using hk⟩
  · simp at hk
  · simp at hk

theorem mem_keys_tableGroup (s : Schema) (n : String) (h : Key.tableGroup n ∈ s.keys) :
    ∃ t ∈ s.tableGroups, t.name = n := by
  rw [mem_keys_iff] at h
  rcases h with ⟨t, _, hk⟩ | ⟨t, _, hk⟩ | ⟨t, _, hk⟩ | ⟨t, ht, hk⟩ | ⟨t, _, hk⟩
  · simp [Table.key] at hk
  · simp at hk
  · simp at hk
  · exact ⟨t, ht, by simpa using hk⟩
  · simp at hk

theorem mem_keys_ref (s : Schema) (n : Option String) (e : Endpoint × Endpoint)
    (h : Key.ref n e ∈ s.keys) : ∃ r ∈ s.refs, r.name = n ∧ r.endpoints = e := by
  rw [mem_keys_iff] at h
  rcases h with ⟨t, _, hk⟩ | ⟨t, _, hk⟩ | ⟨t, _, hk⟩ | ⟨t, _, hk⟩ | ⟨t, ht, hk⟩
  · simp [Table.key] at hk
  · simp at hk
  · simp at hk
  · simp at hk
  · simp only [Key.ref.injEq] at hk
    exact ⟨t, ht, hk.1, hk.2⟩

theorem filter_name_length_le_one (l : List Schema) (n : String)
    (h : (l.map (fun s => s.name)).Nodup) :
    (l.filter (fun s => s.name == n)).length ≤ 1 := by
  induction l with
  | nil => simp
  | cons a rest ih =>
    simp only [List.map_cons, List.nodup_cons] at h
    by_cases ha : a.name = n
    · have hrest : rest.filter (fun s => s.name == n) = [] := by
        rw [List.filter_eq_nil_iff]
        intro x hx hxn
        simp only [beq_iff_eq] at hxn
        exact h.1 (List.mem_map.2 ⟨x, hx, by rw [hxn, ha]⟩)
      simp [List.filter_cons, ha, hrest]
    · have := ih h.2
      simpa [List.filter_cons, ha] using this

/-- C3, the claim at a bundle that declares a schema `foo` with alias `public` next to
the raw table `{ name: "users" }`: the construction succeeds, the table has no
`schemaName`, and no held schema is named `public` (the table is held by `foo`). -/
theorem aliased_default_not_named :
    ∃ db, Database.new "public" aliasedDefaultBundle = .ok db ∧
      (∃ r ∈ aliasedDefaultBundle.tables, r.schemaName = none) ∧
      db.schemas.map (fun s => (s.name, s.alias_, s.tables.map (fun t => t.name))) =
        [("foo", some "public", ["users"])] ∧
      ¬ ∃ s ∈ db.schemas, s.name = "public" :=
  ⟨_, rfl, ⟨_, List.mem_singleton.2 rfl, rfl⟩, rfl, by decide⟩

/-- C3 as amended. After a successful construction every top-level table, tag, ref, enum
and table-group record without a (non-empty) `schemaName` is held by the first schema
whose name or alias equals `DEFAULT_SCHEMA_NAME`, and at most one held schema has that
name. -/
theorem default_routing (DEFAULT_SCHEMA_NAME : String) (raw : RawDatabase)
    (db : Database) (h : Database.new DEFAULT_SCHEMA_NAME raw = .ok db) :
    (∀ r ∈ raw.tables, truthy r.schemaName = false →
      ∃ s, db.FirstMatch DEFAULT_SCHEMA_NAME s ∧
        ∃ t ∈ s.tables, t.name = r.name ∧ t.alias_ = r.alias_ ∧ t.rawTags = r.tags ∧
          t.fields.map (fun f => ({ name := f.name, type := f.type } : RawField))
            = r.fields) ∧
    (∀ r ∈ raw.tags, truthy r.schemaName = false →
      ∃ s, db.FirstMatch DEFAULT_SCHEMA_NAME s ∧ ∃ t ∈ s.tags, t.name = r.name) ∧
    (∀ r ∈ raw.refs, truthy r.schemaName = false →
      ∃ s, db.FirstMatch DEFAULT_SCHEMA_NAME s ∧
        ∃ x ∈ s.refs, x.name = r.name ∧ x.endpoints = r.endpoints) ∧
    (∀ r ∈ raw.enums, truthy r.schemaName = false →
      ∃ s, db.FirstMatch DEFAULT_SCHEMA_NAME s ∧ ∃ e ∈ s.enums, e.name = r.name) ∧
    (∀ r ∈ raw.tableGroups, truthy r.schemaName = false →
      ∃ s, db.FirstMatch DEFAULT_SCHEMA_NAME s ∧ ∃ t ∈ s.tableGroups, t.name = r.name) ∧
    (db.schemas.filter (fun s => s.name == DEFAULT_SCHEMA_NAME)).length ≤ 1 := by
  obtain ⟨hnd, _, k1, k2, k3, k4, k5⟩ := new_sum DEFAULT_SCHEMA_NAME raw db h
  refine ⟨?_, ?_, ?_, ?_, ?_, filter_name_length_le_one _ _ hnd⟩
  · intro r hr ht
    have hk := k1 r hr
    rw [orDefault_of_not_truthy _ _ ht] at hk
    obtain ⟨s, hs, hks⟩ := holdsIn_firstMatch _ _ _ hk
    exact ⟨s, hs, mem_keys_table s r hks⟩
  · intro r hr ht
    have hk := k2 r hr
    rw [orDefault_of_not_truthy _ _ ht] at hk
    obtain ⟨s, hs, hks⟩ := holdsIn_firstMatch _ _ _ hk
    exact ⟨s, hs, mem_keys_tag s _ hks⟩
  · intro r hr ht
    have hk := k3 r hr
    rw [orDefault_of_not_truthy _ _ ht] at hk
    obtain ⟨s, hs, hks⟩ := holdsIn_firstMatch _ _ _ hk
    exact ⟨s, hs, mem_keys_ref s _ _ hks⟩
  · intro r hr ht
    have hk := k4 r hr
    rw [orDefault_of_not_truthy _ _ ht] at hk
    obtain ⟨s, hs, hks⟩ := holdsIn_firstMatch _ _ _ hk
    exact ⟨s, hs, mem_keys_enum s _ hks⟩
  · intro r hr ht
    have hk := k5 r hr
    rw [orDefault_of_not_truthy _ _ ht] at hk
    obtain ⟨s, hs, hks⟩ := holdsIn_firstMatch _ _ _ hk
    exact ⟨s, hs, mem_keys_tableGroup s _ hks⟩

/-- C3 as amended, at the bundle that declares `foo` with alias `public`: the table
without `schemaName` is held by the first schema matching `public`. -/
theorem default_routing_witness :
    ∃ db, Database.new "public" aliasedDefaultBundle = .ok db ∧
      (∀ r ∈ aliasedDefaultBundle.tables, truthy r.schemaName = false →
        ∃ s, db.FirstMatch "public" s ∧
          ∃ t ∈ s.tables, t.name = r.name ∧ t.alias_ = r.alias_ ∧ t.rawTags = r.tags ∧
            t.fields.map (fun f => ({ name := f.name, type := f.type } : RawField))
              = r.fields) ∧
      (db.schemas.filter (fun s => s.name == "public")).length ≤ 1 :=
  ⟨_, rfl, (default_routing "public" aliasedDefaultBundle _ rfl).1,
    (default_routing "public" aliasedDefaultBundle _ rfl).2.2.2.2.2⟩

/-! ## Duplicate tables abort the construction -/

/-- The body of `processTables` raises only the duplicate-table error. -/
theorem processTable_error (D : String) (r : RawTable) (db : Database) (e : Error)
    (h : Database.processTable D r db = .error e) :
    ∃ sname, e = .tableExisted sname r.name := by
  obtain ⟨i, db1, s, _, _, _, _, heq⟩ := routedPush_cases D r.schemaName
    (fun st => (Table.new r st).2)
    (fun st schema => schema.pushTable (Table.new r st).1) db
  have h2 : routedPush D r.schemaName (fun st => (Table.new r st).2)
    (fun st schema => schema.pushTable (Table.new r st).1) db = .error e := h
  rw [heq] at h2
  rcases pushTable_state s (Table.new r db1.dbState).1 with ⟨hp, _⟩ | ⟨hp, _⟩
  · simp only [hp, Except.error.injEq] at h2
    exact ⟨s.name, h2.symm⟩
  · simp [hp] at h2

/-- When the schema a table record is routed to already holds a table of that name, the
body of `processTables` raises. -/
theorem processTable_dup (D : String) (r : RawTable) (db : Database) (k : RawTable)
    (hname : k.name = r.name) (hk : db.HoldsIn (orDefault r.schemaName D) k.key) :
    ∃ e, Database.processTable D r db = .error e := by
  obtain ⟨i, db1, s, hstep, hfi, hs, _, heq⟩ := routedPush_cases D r.schemaName
    (fun st => (Table.new r st).2)
    (fun st schema => schema.pushTable (Table.new r st).1) db
  obtain ⟨i2, s2, hfi2, hs2, hk2⟩ := Database.HoldsIn.keptLater hstep.1 _ _ hk
  rw [hfi] at hfi2
  cases hfi2
  rw [hs] at hs2
  cases hs2
  obtain ⟨t, ht, htn, _⟩ := mem_keys_table s k hk2
  have h2 : Database.processTable D r db = routedPush D r.schemaName
    (fun st => (Table.new r st).2)
    (fun st schema => schema.pushTable (Table.new r st).1) db := rfl
  rw [h2, heq]
  rcases pushTable_state s (Table.new r db1.dbState).1 with ⟨hp, _⟩ | ⟨_, hne⟩
  · exact ⟨.tableExisted s.name (Table.new r db1.dbState).1.name, by simp only [hp]⟩
  · exact absurd (htn.trans hname) (hne t ht)

theorem forEach_error {α σ : Type} (body : α → σ → Except Error σ) (P : Error → Prop)
    (hbody : ∀ a s e, body a s = .error e → P e) (l : List α) (s : σ) (e : Error)
    (h : forEach body l s = .error e) : P e := by
  induction l generalizing s with
  | nil => simp [forEach] at h
  | cons a rest ih =>
    simp only [forEach] at h
    cases hb : body a s with
    | error e1 =>
      simp only [hb, Except.error.injEq] at h
      subst h
      exact hbody a s e1 hb
    | ok s1 =>
      simp only [hb] at h
      exact ih s1 h

/-- The loop of `processTables` over a list with two records of the same name routed to
the same schema raises a duplicate-table error. -/
theorem processTables_dup (D : String) (l1 l2 l3 : List RawTable) (r1 r2 : RawTable)
    (hname : r1.name = r2.name)
    (hsch : orDefault r1.schemaName D = orDefault r2.schemaName D) (db : Database) :
    ∃ sname tname, Database.processTables D (l1 ++ r1 :: (l2 ++ r2 :: l3)) db =
      .error (.tableExisted sname tname) := by
  cases hres : Database.processTables D (l1 ++ r1 :: (l2 ++ r2 :: l3)) db with
  | error e =>
    obtain ⟨sname, tname, he⟩ := forEach_error (Database.processTable D)
      (fun e => ∃ sname tname, e = Error.tableExisted sname tname)
      (fun a s e hb => by
        obtain ⟨sname, he⟩ := processTable_error D a s e hb
        exact ⟨sname, a.name, he⟩) _ _ _ hres
    exact ⟨sname, tname, by rw [he]⟩
  | ok dbf =>
    exfalso
    unfold Database.processTables at hres
    rw [forEach_append] at hres
    obtain ⟨dA, _, hres⟩ := bind_eq_ok _ _ _ hres
    simp only [forEach] at hres
    cases hB : Database.processTable D r1 dA with
    | error e => simp [hB] at hres
    | ok dB =>
      simp only [hB] at hres
      rw [forEach_append] at hres
      obtain ⟨dC, hC, hres⟩ := bind_eq_ok _ _ _ hres
      simp only [forEach] at hres
      have hk := (processTable_ok D r1 dA dB hB).2.2
      have hstepC := (processTables_ok D l2 dB dC hC).1
      have hkC := Database.HoldsIn.keptLater hstepC.1 _ _ hk
      rw [hsch] at hkC
      obtain ⟨e, he⟩ := processTable_dup D r2 dC r1 hname hkC
      simp [he] at hres

/-- C8, the claim at a bundle that declares two schemas named `a` next to two raw tables
`{ name: "users", schemaName: "public" }`: the construction raises the duplicate-schema
error, not a duplicate-table error. -/
theorem duplicate_schemas_raise_first :
    (∃ l1 l2 l3 r1 r2, duplicateSchemasBundle.tables = l1 ++ r1 :: (l2 ++ r2 :: l3) ∧
      r1.name = r2.name ∧ r1.schemaName = r2.schemaName) ∧
    Database.new "public" duplicateSchemasBundle = .error (.schemaExisted "a") :=
  ⟨⟨[], [], [], _, _, rfl, rfl, rfl⟩, rfl⟩

/-- A loop that raises has a first element whose body raises: the elements before it are
processed and the error of the loop is the error of that body. -/
theorem forEach_error_split {α σ : Type} (body : α → σ → Except Error σ) (l : List α)
    (s : σ) (e : Error) (h : forEach body l s = .error e) :
    ∃ pre a post s1, l = pre ++ a :: post ∧ forEach body pre s = .ok s1 ∧
      body a s1 = .error e := by
  induction l generalizing s with
  | nil => simp [forEach] at h
  | cons a rest ih =>
    simp only [forEach] at h
    cases hb : body a s with
    | error e1 =>
      simp only [hb, Except.error.injEq] at h
      subst h
      exact ⟨[], a, rest, s, rfl, rfl, hb⟩
    | ok s1 =>
      simp only [hb] at h
      obtain ⟨pre, x, post, s2, hl, hpre, hx⟩ := ih s1 h
      refine ⟨a :: pre, x, post, s2, by rw [hl]; rfl, ?_, hx⟩
      simp only [forEach, hb]
      exact hpre

/-- A loop that completes on a list completes on each of its initial segments. -/
theorem forEach_ok_prefix {α σ : Type} (body : α → σ → Except Error σ) (l1 l2 : List α)
    (s s1 : σ) (h : forEach body (l1 ++ l2) s = .ok s1) :
    ∃ s2, forEach body l1 s = .ok s2 := by
  rw [forEach_append] at h
  cases h1 : forEach body l1 s with
  | error e => simp [h1, Except.bind] at h
  | ok s2 => exact ⟨s2, rfl⟩

/-- C8 as amended. When the top-level tables list contains two records with the same
name routed to the same schema (the same declared or default schema name), the
construction raises and returns no Database, and the error raised is the first violation
in processing order. When processing the explicit schema list succeeds, it is the
duplicate-table error of the first table record whose push raises: the records before it
are pushed, it is the second of the two records or comes before it, and the error names
the table. When processing the explicit schema list raises, the construction raises that
same error. -/
theorem duplicate_table_aborts (DEFAULT_SCHEMA_NAME : String) (raw : RawDatabase)
    (l1 l2 l3 : List RawTable) (r1 r2 : RawTable)
    (htables : raw.tables = l1 ++ r1 :: (l2 ++ r2 :: l3)) (hname : r1.name = r2.name)
    (hsch : orDefault r1.schemaName DEFAULT_SCHEMA_NAME =
      orDefault r2.schemaName DEFAULT_SCHEMA_NAME) :
    (∃ e, Database.new DEFAULT_SCHEMA_NAME raw = .error e) ∧
    (∀ db1, Database.processSchemas DEFAULT_SCHEMA_NAME raw.schemas (Database.init raw)
        = .ok db1 →
      ∃ pre r post db2 sname, raw.tables = pre ++ r :: post ∧
        pre.length ≤ l1.length + 1 + l2.length ∧
        Database.processTables DEFAULT_SCHEMA_NAME pre db1 = .ok db2 ∧
        Database.processTable DEFAULT_SCHEMA_NAME r db2 =
          .error (.tableExisted sname r.name) ∧
        Database.new DEFAULT_SCHEMA_NAME raw = .error (.tableExisted sname r.name)) ∧
    (∀ e, Database.processSchemas DEFAULT_SCHEMA_NAME raw.schemas (Database.init raw)
        = .error e →
      Database.new DEFAULT_SCHEMA_NAME raw = .error e) := by
  have key : ∀ db1, Database.processSchemas DEFAULT_SCHEMA_NAME raw.schemas
      (Database.init raw) = .ok db1 →
      ∃ pre r post db2 sname, raw.tables = pre ++ r :: post ∧
        pre.length ≤ l1.length + 1 + l2.length ∧
        Database.processTables DEFAULT_SCHEMA_NAME pre db1 = .ok db2 ∧
        Database.processTable DEFAULT_SCHEMA_NAME r db2 =
          .error (.tableExisted sname r.name) ∧
        Database.new DEFAULT_SCHEMA_NAME raw = .error (.tableExisted sname r.name) := by
    intro db1 h1
    obtain ⟨sname, tname, ht⟩ :=
      processTables_dup DEFAULT_SCHEMA_NAME l1 l2 l3 r1 r2 hname hsch db1
    rw [← htables] at ht
    obtain ⟨pre, r, post, db2, hsplit, hpre, hr⟩ :=
      forEach_error_split (Database.processTable DEFAULT_SCHEMA_NAME) raw.tables db1 _ ht
    obtain ⟨sn, he⟩ := processTable_error DEFAULT_SCHEMA_NAME r db2 _ hr
    refine ⟨pre, r, post, db2, sn, hsplit, ?_, hpre, by rw [hr, he], ?_⟩
    · by_contra hlen
      have hshape : raw.tables = (l1 ++ r1 :: (l2 ++ r2 :: [])) ++ l3 := by
        rw [htables]; simp
      have hP : (l1 ++ r1 :: (l2 ++ r2 :: [])).length = l1.length + 1 + l2.length + 1 := by
        simp; omega
      rw [hsplit] at hshape
      have hpref : ∃ rest, pre = (l1 ++ r1 :: (l2 ++ r2 :: [])) ++ rest := by
        rcases List.append_eq_append_iff.1 hshape with ⟨a, ha, _⟩ | ⟨c, hc, _⟩
        · have hl := congrArg List.length ha
          rw [hP, List.length_append] at hl
          have ha0 : a = [] := List.length_eq_zero.1 (by omega)
          rw [ha0, List.append_nil] at ha
          exact ⟨[], by rw [List.append_nil]; exact ha.symm⟩
        · exact ⟨c, hc⟩
      obtain ⟨rest, hrest⟩ := hpref
      rw [hrest] at hpre
      obtain ⟨d, hd⟩ := forEach_ok_prefix _ _ _ _ _ hpre
      obtain ⟨sname2, tname2, ht2⟩ :=
        processTables_dup DEFAULT_SCHEMA_NAME l1 l2 [] r1 r2 hname hsch db1
      have hd2 : Database.processTables DEFAULT_SCHEMA_NAME (l1 ++ r1 :: (l2 ++ r2 :: []))
          db1 = .ok d := hd
      rw [ht2] at hd2
      cases hd2
    · simp only [Database.new, h1, ht, Except.bind, he]
  refine ⟨?_, key, ?_⟩
  · cases h1 : Database.processSchemas DEFAULT_SCHEMA_NAME raw.schemas
        (Database.init raw) with
    | error e => exact ⟨e, by simp only [Database.new, h1, Except.bind]⟩
    | ok db1 =>
      obtain ⟨_, r, _, _, sname, _, _, _, _, h⟩ := key db1 h1
      exact ⟨_, h⟩
  · intro e h1
    simp only [Database.new, h1, Except.bind]

/-- C8 as amended, at the bundle of two raw tables
`{ name: "users", schemaName: "public" }`, where the duplicate-table error is raised, and
at the same bundle with two declared schemas named `a`, where the error of the schema
list is raised. -/
theorem duplicate_table_aborts_witness :
    Database.new "public" duplicateUsersBundle = .error (.tableExisted "public" "users") ∧
    Database.new "public" duplicateSchemasBundle = .error (.schemaExisted "a") ∧
    (∃ e, Database.new "public" duplicateUsersBundle = .error e) :=
  ⟨rfl,
    (duplicate_table_aborts "public" duplicateSchemasBundle [] [] []
      ⟨some "public", "users", none, [], []⟩ ⟨some "public", "users", none, [], []⟩
      rfl rfl rfl).2.2 (.schemaExisted "a") rfl,
    (duplicate_table_aborts "public" duplicateUsersBundle [] [] []
      ⟨some "public", "users", none, [], []⟩ ⟨some "public", "users", none, [], []⟩
      rfl rfl rfl).1⟩

/-! ## Enum binding: fields of another type schema -/

/-- C11, the code at the failing input: the field `st` of table `x.users` has type name
`status` and type schema `x`, the enum `status` is pushed into schema `zz`, and after
construction the field is linked to that enum and the enum lists the field. -/
theorem pushEnum_foreign_schema_linked :
    ∃ db, Database.new "public" foreignEnumBundle = .ok db ∧
      db.enumLinks = [("x", [[some 1]], []), ("zz", [], [[1]])] ∧
      db.schemas.map (fun s => (s.name, s.enums.map (fun e => e.id),
        s.tables.map (fun t => t.fields.map (fun f => f.id)))) =
        [("x", [], [[1]]), ("zz", [1], [])] :=
  ⟨_, rfl, rfl, rfl⟩

/-! ## `Schema.checkSameId` -/

theorem or_truthy (x y : JsVal) : (x.or y).truthy = (x.truthy || y.truthy) := by
  unfold JsVal.or
  cases h : x.truthy <;> simp [h]

theorem and_truthy (x y : JsVal) : (x.and y).truthy = (x.truthy && y.truthy) := by
  unfold JsVal.and
  cases h : x.truthy <;> simp [h]

theorem bool_truthy (b : Bool) : (JsVal.bool b).truthy = b := rfl

/-- When `checkSameId` is truthy: one name is the other's name or alias, or both have the
same non-empty alias. -/
theorem checkSameId_truthy (a b : Schema) :
    (a.checkSameId b).truthy = true ↔
      (a.name = b.name ∨ a.alias_ = some b.name ∨ b.alias_ = some a.name ∨
        ∃ x, x ≠ "" ∧ a.alias_ = some x ∧ b.alias_ = some x) := by
  simp only [Schema.checkSameId, or_truthy, and_truthy, bool_truthy, Bool.or_eq_true,
    Bool.and_eq_true, beq_iff_eq, or_assoc]
  constructor
  · rintro (h | h | h | ⟨h1, h2⟩)
    · exact Or.inl h
    · exact Or.inr (Or.inl h)
    · exact Or.inr (Or.inr (Or.inl h.symm))
    · right; right; right
      cases ha : a.alias_ with
      | none => simp [ha, JsVal.ofOption, JsVal.truthy] at h1
      | some x =>
        simp only [ha, JsVal.ofOption, JsVal.truthy, bne_iff_ne, ne_eq] at h1
        exact ⟨x, h1, rfl, by rw [← h2, ha]⟩
  · rintro (h | h | h | ⟨x, hx, h1, h2⟩)
    · exact Or.inl h
    · exact Or.inr (Or.inl h)
    · exact Or.inr (Or.inr (Or.inl h.symm))
    · right; right; right
      rw [h1, h2]
      simpa [JsVal.ofOption, JsVal.truthy] using hx

/-- C15. `checkSameId` is symmetric in truthiness, and truthy whenever the name of one
schema equals the name or the alias of the other. -/
theorem checkSameId_symm (a b : Schema) :
    ((a.checkSameId b).truthy = true ↔ (b.checkSameId a).truthy = true) ∧
    ((a.name = b.name ∨ a.alias_ = some b.name ∨ b.alias_ = some a.name) →
      (a.checkSameId b).truthy = true) := by
  constructor
  · rw [checkSameId_truthy, checkSameId_truthy]
    constructor
    · rintro (h | h | h | ⟨x, hx, h1, h2⟩)
      · exact Or.inl h.symm
      · exact Or.inr (Or.inr (Or.inl h))
      · exact Or.inr (Or.inl h)
      · exact Or.inr (Or.inr (Or.inr ⟨x, hx, h2, h1⟩))
    · rintro (h | h | h | ⟨x, hx, h1, h2⟩)
      · exact Or.inl h.symm
      · exact Or.inr (Or.inr (Or.inl h))
      · exact Or.inr (Or.inl h)
      · exact Or.inr (Or.inr (Or.inr ⟨x, hx, h2, h1⟩))
  · intro h
    rw [checkSameId_truthy]
    rcases h with h | h | h
    · exact Or.inl h
    · exact Or.inr (Or.inl h)
    · exact Or.inr (Or.inr (Or.inl h))

/-- C15 at two concrete schemas: `public` and a schema `u` with alias `public`. -/
theorem checkSameId_symm_witness :
    (emptySchema.checkSameId aliasPublicSchema).truthy = true ∧
    (aliasPublicSchema.checkSameId emptySchema).truthy = true :=
  ⟨(checkSameId_symm emptySchema aliasPublicSchema).2 (Or.inr (Or.inr rfl)),
    (checkSameId_symm emptySchema aliasPublicSchema).1.1
      ((checkSameId_symm emptySchema aliasPublicSchema).2 (Or.inr (Or.inr rfl)))⟩

/-! ## `findSchema` never raises -/

/-- C19. `findSchema` never raises: when no held schema matches, the name check of
`pushSchema` on the schema just constructed passes; and a second call with the same name
returns the same schema and leaves the database (schemas list and allocator) as the
first call left it. -/
theorem findSchema_never_raises (DEFAULT_SCHEMA_NAME : String) (db : Database)
    (name : String) :
    (db.findSchema DEFAULT_SCHEMA_NAME name).isRaised = false ∧
    ((¬ ∃ s ∈ db.schemas, s.name = name ∨ s.alias_ = some name) →
      ∃ s db0, Schema.new DEFAULT_SCHEMA_NAME (autoSchema DEFAULT_SCHEMA_NAME name) db
          = .ok (s, db0) ∧ db0.checkSchema s = none) ∧
    (∃ i db1, db.findSchema DEFAULT_SCHEMA_NAME name = .ok i db1 ∧
      db1.findSchema DEFAULT_SCHEMA_NAME name = .ok i db1) := by
  refine ⟨?_, ?_, ?_⟩
  · rcases findSchema_cases DEFAULT_SCHEMA_NAME db name with ⟨i, _, hfs⟩ | ⟨_, hfs⟩ <;>
      rw [hfs] <;> rfl
  · intro hno
    refine ⟨_, _, schema_new_auto DEFAULT_SCHEMA_NAME db name, ?_⟩
    rw [checkSchema_eq_none]
    intro a ha hn
    exact hno ⟨a, ha, Or.inl hn⟩
  · obtain ⟨i, db1, hfs, _, hfi, _⟩ := findSchema_sum DEFAULT_SCHEMA_NAME db name
    refine ⟨i, db1, hfs, ?_⟩
    rcases findSchema_cases DEFAULT_SCHEMA_NAME db1 name with ⟨j, hj, hfs1⟩ | ⟨hnone, _⟩
    · rw [hfi] at hj
      cases hj
      exact hfs1
    · rw [hfi] at hnone
      cases hnone

/-- C19 at a concrete database: two calls `findSchema("x")` in a row on a database
holding only `public`. -/
theorem findSchema_never_raises_witness :
    (publicDb.findSchema "public" "x").isRaised = false ∧
    (∃ i db1, publicDb.findSchema "public" "x" = .ok i db1 ∧
      db1.schemas.map (fun s => s.name) = ["public", "x"] ∧
      db1.findSchema "public" "x" = .ok i db1) :=
  ⟨(findSchema_never_raises "public" publicDb "x").1, _, _, rfl, rfl,
    by
      obtain ⟨i, db1, h1, h2⟩ := (findSchema_never_raises "public" publicDb "x").2.2
      have h3 : publicDb.findSchema "public" "x" = .ok _ _ := rfl
      rw [h3] at h1
      cases h1
      exact h2⟩

/-! ## Binding happens when an enum is pushed, not when a table is -/

theorem fieldNewAll_unlinked (rfs : List RawField) (st : DbState) :
    ∀ f ∈ (Field.newAll rfs st).1, f._enum = none := by
  induction rfs generalizing st with
  | nil => simp [Field.newAll]
  | cons rf rest ih =>
    intro f hf
    simp only [Field.newAll, List.mem_cons] at hf
    rcases hf with rfl | hf
    · rfl
    · exact ih _ f hf

theorem set_getElem?_self {α : Type} (l : List α) (i : Nat) (a : α) (h : l[i]? = some a) :
    l.set i a = l := by
  induction l generalizing i with
  | nil => simp
  | cons x rest ih =>
    cases i with
    | zero => simp at h; subst h; simp
    | succ k => simp at h; simp [ih k h]

/-- C17. `pushTable` only appends the table: it changes no field, no enum and nothing
else of the schema or of the database, and a table just constructed has no linked field.
So a table pushed after a matching enum stays unlinked: in the database constructed from
a declared schema `public` holding the enum `status` and a top-level table `public.t`
with a field of type name `status`, the field has no enum and the enum has no field. -/
theorem pushTable_binds_nothing :
    (∀ (s : Schema) (t : Table),
      (s.pushTable t).state = s ∨
        (s.pushTable t).state = { s with tables := s.tables ++ [t] }) ∧
    (∀ (db : Database) (i : Nat) (s : Schema) (t : Table), db.schemas[i]? = some s →
      (db.atSchema i (fun schema => schema.pushTable t)).state = db ∨
        (db.atSchema i (fun schema => schema.pushTable t)).state =
          { db with schemas := db.schemas.set i { s with tables := s.tables ++ [t] } }) ∧
    (∀ (r : RawTable) (st : DbState), ∀ f ∈ (Table.new r st).1.fields, f._enum = none) ∧
    (∃ db, Database.new "public" enumBeforeTableBundle = .ok db ∧
      db.enumLinks = [("public", [[none]], [[]])]) := by
  refine ⟨?_, ?_, ?_, ⟨_, rfl, rfl⟩⟩
  · intro s t
    rcases pushTable_state s t with ⟨heq, _⟩ | ⟨heq, _⟩
    · exact Or.inl (by rw [heq]; rfl)
    · exact Or.inr (by rw [heq]; rfl)
  · intro db i s t hs
    rcases pushTable_state s t with ⟨heq, _⟩ | ⟨heq, _⟩
    · left
      simp only [Database.atSchema, hs, heq, Res.state, set_getElem?_self _ _ _ hs]
    · right
      simp only [Database.atSchema, hs, heq, Res.state]
  · intro r st f hf
    exact fieldNewAll_unlinked _ _ f hf

/-- C17 at a concrete schema: pushing `users` into the empty schema `public` appends it
and leaves the enums alone. -/
theorem pushTable_binds_nothing_witness :
    (emptySchema.pushTable usersTable).state.tables = [usersTable] ∧
    (emptySchema.pushTable usersTable).state.enums = [] ∧
    ((emptySchema.pushTable usersTable).state = emptySchema ∨
      (emptySchema.pushTable usersTable).state =
        { emptySchema with tables := emptySchema.tables ++ [usersTable] }) :=
  ⟨rfl, rfl, pushTable_binds_nothing.1 emptySchema usersTable⟩

/-! ## `Schema.findTable` -/

theorem tablesReachable_nodup (s : Schema) (h : Schema.TablesReachable s) :
    (s.tables.map (fun t => t.name)).Nodup := by
  induction h with
  | empty s ht => simp [ht]
  | pushTable s s1 t _ hp ih =>
    rcases pushTable_state s t with ⟨heq, _⟩ | ⟨heq, hne⟩
    · rw [heq] at hp; cases hp
    · rw [heq] at hp
      cases hp
      exact nodup_map_append_singleton _ _ _ ih hne

/-- C18, the claim at a concrete schema: after the table `u` with alias `users` and then
the table `users` are pushed into an empty schema, `findTable("users")` returns `u`, not
the held table named `users`. -/
theorem findTable_returns_alias_holder :
    ∃ s, Schema.TablesReachable s ∧ usersTable ∈ s.tables ∧
      s.findTable usersTable.name = some aliasedTable ∧
      s.findTable usersTable.name ≠ some usersTable :=
  ⟨((emptySchema.pushTable aliasedTable).state.pushTable usersTable).state,
    Schema.TablesReachable.pushTable (emptySchema.pushTable aliasedTable).state _ usersTable
      (Schema.TablesReachable.pushTable emptySchema _ aliasedTable
        (Schema.TablesReachable.empty emptySchema rfl) rfl) rfl,
    by decide, rfl, by decide⟩

/-- C18 as amended. In a schema reachable from a schema without tables by successful
`pushTable` calls, for every held table `t`: `findTable(t.name)` returns `t` itself
whenever no table held before `t` has the alias `t.name`, and otherwise it returns the
first table held before `t` with the alias `t.name`, which is another table than `t`; and
`findTable(n)` returns nothing exactly when no held table has name or alias `n`. -/
theorem findTable_spec (s : Schema) (h : Schema.TablesReachable s) :
    (∀ (l1 l2 : List Table) (t : Table), s.tables = l1 ++ t :: l2 →
      ((∀ u ∈ l1, u.alias_ ≠ some t.name) → s.findTable t.name = some t) ∧
      (∀ (l0 l3 : List Table) (u : Table), l1 = l0 ++ u :: l3 →
        u.alias_ = some t.name → (∀ v ∈ l0, v.alias_ ≠ some t.name) →
        s.findTable t.name = some u ∧ u.name ≠ t.name ∧ u ≠ t)) ∧
    (∀ n : String, s.findTable n = none ↔
      ¬ ∃ u ∈ s.tables, u.name = n ∨ u.alias_ = some n) := by
  have hnd := tablesReachable_nodup s h
  constructor
  · intro l1 l2 t htab
    rw [htab] at hnd
    simp only [List.map_append, List.map_cons] at hnd
    have hdis := (List.nodup_append.1 hnd).2.2
    have hname : ∀ u ∈ l1, u.name ≠ t.name := fun u hu hn =>
      hdis (List.mem_map.2 ⟨u, hu, hn⟩) (List.mem_cons_self _ _)
    constructor
    · intro hal
      have hl1 : l1.find? (fun u => u.name == t.name || u.alias_ == some t.name) = none := by
        rw [List.find?_eq_none]
        intro u hu
        simp [hname u hu, hal u hu]
      simp [Schema.findTable, htab, List.find?_append, hl1]
    · intro l0 l3 u hl1 hu hal
      have hul1 : u ∈ l1 := by rw [hl1]; simp
      have hl0 : l0.find? (fun u => u.name == t.name || u.alias_ == some t.name) = none := by
        rw [List.find?_eq_none]
        intro v hv
        have hv1 : v ∈ l1 := by rw [hl1]; exact List.mem_append_left _ hv
        simp [hname v hv1, hal v hv]
      refine ⟨?_, hname u hul1, fun hut => hname u hul1 (by rw [hut])⟩
      simp [Schema.findTable, htab, hl1, List.find?_append, hl0, hu]
  · intro n
    simp only [Schema.findTable, List.find?_eq_none, Bool.or_eq_true, beq_iff_eq,
      not_exists, not_and]

/-- C18 as amended, at the schema holding `u` (alias `users`) and then `users`:
`findTable("u")` returns `u`, which has no table before it, and `findTable("users")`
returns `u` as well, the table held before `users` with the alias `users`. -/
theorem findTable_spec_witness :
    Schema.TablesReachable
      ((emptySchema.pushTable aliasedTable).state.pushTable usersTable).state ∧
    ((emptySchema.pushTable aliasedTable).state.pushTable usersTable).state.findTable "u"
      = some aliasedTable ∧
    ((emptySchema.pushTable aliasedTable).state.pushTable usersTable).state.findTable
      usersTable.name = some aliasedTable ∧
    aliasedTable.name ≠ usersTable.name ∧ aliasedTable ≠ usersTable :=
  ⟨Schema.TablesReachable.pushTable (emptySchema.pushTable aliasedTable).state _ usersTable
      (Schema.TablesReachable.pushTable emptySchema _ aliasedTable
        (Schema.TablesReachable.empty emptySchema rfl) rfl) rfl,
    ((findTable_spec _
      (Schema.TablesReachable.pushTable (emptySchema.pushTable aliasedTable).state _
        usersTable
        (Schema.TablesReachable.pushTable emptySchema _ aliasedTable
          (Schema.TablesReachable.empty emptySchema rfl) rfl) rfl)).1
      [] [usersTable] aliasedTable rfl).1 (by simp),
    ((findTable_spec _
      (Schema.TablesReachable.pushTable (emptySchema.pushTable aliasedTable).state _
        usersTable
        (Schema.TablesReachable.pushTable emptySchema _ aliasedTable
          (Schema.TablesReachable.empty emptySchema rfl) rfl) rfl)).1
      [aliasedTable] [] usersTable rfl).2 [] [] aliasedTable rfl rfl (by simp)⟩

/-! ## `export` -/

/-- C13, the code on every database and at a failing input: `Database.export()` has the
property `schemas`, one exported schema per held schema in order, each carrying the
name, note and alias of its schema, but it has no property `name`, `note` or
`databaseType`; for the database constructed from a project named `shop` the name is
`shop` and the exported record has no name. -/
theorem export_drops_database_scalars :
    (∀ db : Database,
      db.export.prop "name" = none ∧ db.export.prop "note" = none ∧
      db.export.prop "databaseType" = none ∧
      db.export.prop "schemas" = some (.arr (db.schemas.map Schema.export)) ∧
      (db.schemas.map Schema.export).length = db.schemas.length) ∧
    (∀ s : Schema,
      s.export.prop "name" = some (.str s.name) ∧
      s.export.prop "note" = some (Json.ofOption s.note) ∧
      s.export.prop "alias" = some (Json.ofOption s.alias_)) ∧
    (∃ db, Database.new "public" shopBundle = .ok db ∧ db.name = some "shop" ∧
      db.note = some "the shop" ∧ db.databaseType = some "PostgreSQL" ∧
      db.export.prop "name" = none ∧ db.export.prop "note" = none ∧
      db.export.prop "databaseType" = none) :=
  ⟨fun db => ⟨rfl, rfl, rfl, rfl, by simp⟩, fun s => ⟨rfl, rfl, rfl⟩,
    ⟨_, rfl, rfl, rfl, rfl, rfl, rfl, rfl⟩⟩

/-! ## Invariants of the construction pipeline -/

theorem findSchema_inv (D : String) (I : Database → Prop)
    (hcreate : ∀ (db : Database) (name : String), I db →
      firstIdx (schemaMatches name) db.schemas = none →
      I { db with dbState := (db.dbState.generateId .schemaId).2,
                  schemas := db.schemas ++ [createdSchema D db name] })
    (db : Database) (name : String) (i : Nat) (db1 : Database)
    (h : db.findSchema D name = .ok i db1) (hI : I db) :
    I db1 ∧ ∃ s, db1.schemas[i]? = some s := by
  rcases findSchema_cases D db name with ⟨j, hj, hfs⟩ | ⟨hnone, hfs⟩
  · rw [hfs] at h
    cases h
    obtain ⟨⟨a, ha, _⟩, _⟩ := firstIdx_eq_some _ _ _ hj
    exact ⟨hI, a, ha⟩
  · rw [hfs] at h
    cases h
    exact ⟨hcreate db name hI hnone, createdSchema D db name, by simp⟩

theorem route_inv (D : String) (I : Database → Prop)
    (hflag : ∀ db : Database, I db → I { db with hasDefaultSchema := true })
    (hcreate : ∀ (db : Database) (name : String), I db →
      firstIdx (schemaMatches name) db.schemas = none →
      I { db with dbState := (db.dbState.generateId .schemaId).2,
                  schemas := db.schemas ++ [createdSchema D db name] })
    (db : Database) (sn : Option String) (i : Nat) (db1 : Database)
    (h : db.route D sn = .ok i db1) (hI : I db) :
    I db1 ∧ ∃ s, db1.schemas[i]? = some s := by
  unfold Database.route at h
  cases ht : truthy sn with
  | true =>
    simp only [ht, if_true] at h
    cases hf : db.findSchema D (orDefault sn D) with
    | raised e d => simp [hf] at h
    | ok j d =>
      obtain ⟨hId, hs⟩ := findSchema_inv D I hcreate db _ j d hf hI
      simp only [hf, Res.ok.injEq] at h
      obtain ⟨rfl, rfl⟩ := h
      by_cases hd : (sn == some D) = true
      · simp only [hd, if_true]
        exact ⟨hflag d hId, hs⟩
      · simp only [hd, Bool.false_eq_true, if_false]
        exact ⟨hId, hs⟩
  | false =>
    simp only [ht, Bool.false_eq_true, if_false] at h
    exact findSchema_inv D I hcreate db _ i db1 h hI

theorem routedPush_inv (D : String) (sn : Option String) (next : DbState → DbState)
    (op : DbState → Schema → Res Schema Unit) (I : Database → Prop)
    (hflag : ∀ db : Database, I db → I { db with hasDefaultSchema := true })
    (hcreate : ∀ (db : Database) (name : String), I db →
      firstIdx (schemaMatches name) db.schemas = none →
      I { db with dbState := (db.dbState.generateId .schemaId).2,
                  schemas := db.schemas ++ [createdSchema D db name] })
    (hset : ∀ (db : Database) (i : Nat) (s s1 : Schema), I db → db.schemas[i]? = some s →
      op db.dbState s = .ok () s1 →
      I { db with dbState := next db.dbState, schemas := db.schemas.set i s1 })
    (db dbf : Database) (h : routedPush D sn next op db = .ok dbf) (hI : I db) : I dbf := by
  unfold routedPush at h
  cases hr : db.route D sn with
  | raised e d => simp [hr, Res.toExcept] at h
  | ok i db1 =>
    obtain ⟨hI1, s, hs⟩ := route_inv D I hflag hcreate db sn i db1 hr hI
    simp only [hr, Res.toExcept, Database.atSchema, hs] at h
    cases hop : op db1.dbState s with
    | raised e s1 => simp [hop] at h
    | ok u s1 =>
      simp only [hop, Except.ok.injEq] at h
      subst h
      exact hset db1 i s s1 hI1 hs hop

theorem forEach_inv {α σ : Type} (body : α → σ → Except Error σ) (I : σ → Prop)
    (h : ∀ a s s1, body a s = .ok s1 → I s → I s1) (l : List α) (s s1 : σ)
    (hl : forEach body l s = .ok s1) (hI : I s) : I s1 :=
  forEach_rel body (fun a b => I a → I b) (fun _ h => h) (fun _ _ _ h1 h2 h => h2 (h1 h))
    h l s s1 hl hI

theorem processTable_inv (D : String) (I : Database → Prop) (hI : PipelineInv D I)
    (r : RawTable) (db dbf : Database) (h : Database.processTable D r db = .ok dbf)
    (h0 : I db) : I dbf :=
  routedPush_inv D r.schemaName (fun st => (Table.new r st).2)
    (fun st schema => schema.pushTable (Table.new r st).1) I hI.flag hI.create
    (fun db i s s1 hdb hs hop => by
      replace hop : s.pushTable (Table.new r db.dbState).1 = .ok () s1 := hop
      rcases pushTable_state s (Table.new r db.dbState).1 with ⟨heq, _⟩ | ⟨heq, hne⟩
      · rw [heq] at hop; cases hop
      · rw [heq] at hop
        cases hop
        exact hI.table db i s r hdb hs hne) db dbf h h0

theorem processTag_inv (D : String) (I : Database → Prop) (hI : PipelineInv D I)
    (r : RawTag) (db dbf : Database) (h : Database.processTag D r db = .ok dbf)
    (h0 : I db) : I dbf :=
  routedPush_inv D r.schemaName (fun st => (Tag.new r st).2)
    (fun st schema => schema.pushTag (Tag.new r st).1) I hI.flag hI.create
    (fun db i s s1 hdb hs hop => by
      replace hop : s.pushTag (Tag.new r db.dbState).1 = .ok () s1 := hop
      rcases pushTag_state s (Tag.new r db.dbState).1 with ⟨heq, _⟩ | ⟨heq, hne⟩
      · rw [heq] at hop; cases hop
      · rw [heq] at hop
        cases hop
        exact hI.tag db i s r hdb hs hne) db dbf h h0

theorem processRef_inv (D : String) (I : Database → Prop)
    (hflag : ∀ db : Database, I db → I { db with hasDefaultSchema := true })
    (hcreate : ∀ (db : Database) (name : String), I db →
      firstIdx (schemaMatches name) db.schemas = none →
      I { db with dbState := (db.dbState.generateId .schemaId).2,
                  schemas := db.schemas ++ [createdSchema D db name] })
    (href : ∀ (db : Database) (i : Nat) (s : Schema) (r : RawRef), I db →
      db.schemas[i]? = some s →
      I { db with dbState := (Ref.new r db.dbState).2,
                  schemas := db.schemas.set i
                    { s with refs := s.refs ++ [(Ref.new r db.dbState).1] } })
    (r : RawRef) (db dbf : Database) (h : Database.processRef D r db = .ok dbf)
    (h0 : I db) : I dbf :=
  routedPush_inv D r.schemaName (fun st => (Ref.new r st).2)
    (fun st schema => schema.pushRef (Ref.new r st).1) I hflag hcreate
    (fun db i s s1 hdb hs hop => by
      replace hop : s.pushRef (Ref.new r db.dbState).1 = .ok () s1 := hop
      rcases pushRef_state s (Ref.new r db.dbState).1 with ⟨heq, _⟩ | ⟨heq, _⟩
      · rw [heq] at hop; cases hop
      · rw [heq] at hop
        cases hop
        exact href db i s r hdb hs) db dbf h h0

theorem processTableGroup_inv (D : String) (I : Database → Prop)
    (hflag : ∀ db : Database, I db → I { db with hasDefaultSchema := true })
    (hcreate : ∀ (db : Database) (name : String), I db →
      firstIdx (schemaMatches name) db.schemas = none →
      I { db with dbState := (db.dbState.generateId .schemaId).2,
                  schemas := db.schemas ++ [createdSchema D db name] })
    (htg : ∀ (db : Database) (i : Nat) (s : Schema) (r : RawTableGroup), I db →
      db.schemas[i]? = some s →
      I { db with dbState := (TableGroup.new r db.dbState).2,
                  schemas := db.schemas.set i
                    { s with tableGroups :=
                        s.tableGroups ++ [(TableGroup.new r db.dbState).1] } })
    (r : RawTableGroup) (db dbf : Database)
    (h : Database.processTableGroup D r db = .ok dbf) (h0 : I db) : I dbf :=
  routedPush_inv D r.schemaName (fun st => (TableGroup.new r st).2)
    (fun st schema => schema.pushTableGroup (TableGroup.new r st).1) I hflag hcreate
    (fun db i s s1 hdb hs hop => by
      replace hop : s.pushTableGroup (TableGroup.new r db.dbState).1 = .ok () s1 := hop
      rcases pushTableGroup_state s (TableGroup.new r db.dbState).1 with
        ⟨heq, _⟩ | ⟨heq, _⟩
      · rw [heq] at hop; cases hop
      · rw [heq] at hop
        cases hop
        exact htg db i s r hdb hs) db dbf h h0

theorem processEnum_inv (D : String) (I : Database → Prop)
    (hflag : ∀ db : Database, I db → I { db with hasDefaultSchema := true })
    (hcreate : ∀ (db : Database) (name : String), I db →
      firstIdx (schemaMatches name) db.schemas = none →
      I { db with dbState := (db.dbState.generateId .schemaId).2,
                  schemas := db.schemas ++ [createdSchema D db name] })
    (henum : ∀ (db : Database) (i : Nat) (r : RawEnum), I db →
      I (Database.pushEnumAt D
          { db with dbState := (Enum.new r db.dbState).2 } i (Enum.new r db.dbState).1).state)
    (r : RawEnum) (db dbf : Database) (h : Database.processEnum D r db = .ok dbf)
    (h0 : I db) : I dbf := by
  unfold Database.processEnum at h
  cases hr : db.route D r.schemaName with
  | raised e d => simp [hr, Res.toExcept] at h
  | ok i db1 =>
    obtain ⟨hI1, _⟩ := route_inv D I hflag hcreate db r.schemaName i db1 hr h0
    simp only [hr, Res.toExcept] at h
    have hst := henum db1 i r hI1
    cases hp : Database.pushEnumAt D { db1 with dbState := (Enum.new r db1.dbState).2 } i
        (Enum.new r db1.dbState).1 with
    | raised e d => simp [hp] at h
    | ok u d =>
      simp only [hp, Except.ok.injEq] at h
      subst h
      rw [hp] at hst
      exact hst

theorem processSchema_inv (D : String) (I : Database → Prop) (hI : PipelineInv D I)
    (raw : RawSchema) (db dbf : Database) (h : Database.processSchema D raw db = .ok dbf)
    (h0 : I db) : I dbf := by
  unfold Database.processSchema at h
  cases hn : Schema.new D raw db with
  | error e => simp [hn] at h
  | ok r =>
    obtain ⟨s, db1⟩ := r
    simp only [hn] at h
    unfold Database.pushSchema at h
    cases hc : db1.checkSchema s with
    | some e => simp [hc, Res.toExcept] at h
    | none =>
      simp only [hc, Res.toExcept, Except.ok.injEq] at h
      subst h
      exact hI.schema db db1 raw s h0 hn ((checkSchema_eq_none db1 s).1 hc)

/-- An invariant of the pipeline that holds before the first process step holds for the
constructed database. -/
theorem new_inv (D : String) (I : Database → Prop) (hI : PipelineInv D I)
    (raw : RawDatabase) (db : Database) (h0 : I (Database.init raw))
    (h : Database.new D raw = .ok db) : I db := by
  unfold Database.new at h
  obtain ⟨d5, h5, h6⟩ := bind_eq_ok _ _ _ h
  obtain ⟨d4, h4, h5⟩ := bind_eq_ok _ _ _ h5
  obtain ⟨d3, h3, h4⟩ := bind_eq_ok _ _ _ h4
  obtain ⟨d2, h2, h3⟩ := bind_eq_ok _ _ _ h3
  obtain ⟨d1, h1, h2⟩ := bind_eq_ok _ _ _ h2
  have i1 : I d1 := forEach_inv _ I (processSchema_inv D I hI) _ _ _ h1 h0
  have i2 : I d2 := forEach_inv _ I (processTable_inv D I hI) _ _ _ h2 i1
  unfold Database.processTags at h3
  obtain ⟨d2b, h3a, h3b⟩ := bind_eq_ok _ _ _ h3
  have i2b : I d2b := forEach_inv _ I (processTag_inv D I hI) _ _ _ h3a i2
  have i3 : I d3 := hI.bind d2b d3 i2b h3b
  have i4 : I d4 := forEach_inv _ I
    (processRef_inv D I hI.flag hI.create hI.ref) _ _ _ h4 i3
  have i5 : I d5 := forEach_inv _ I
    (processEnum_inv D I hI.flag hI.create hI.enumAt) _ _ _ h5 i4
  exact forEach_inv _ I
    (processTableGroup_inv D I hI.flag hI.create hI.tableGroup) _ _ _ h6 i5

/-! ## Tag binding: what it establishes -/

theorem forEach_facts {α σ : Type} (body : α → σ → Except Error σ) (Q : σ → σ → Prop)
    (hrefl : ∀ s, Q s s) (htrans : ∀ a b c, Q a b → Q b c → Q a c)
    (fact : α → σ → Prop)
    (hbody : ∀ a s s1, body a s = .ok s1 → Q s s1 ∧ fact a s1)
    (hmono : ∀ a s s1, Q s s1 → fact a s → fact a s1)
    (l : List α) (s s1 : σ) (h : forEach body l s = .ok s1) :
    Q s s1 ∧ ∀ a ∈ l, fact a s1 := by
  induction l generalizing s with
  | nil =>
    simp only [forEach, Except.ok.injEq] at h
    subst h
    exact ⟨hrefl s, by simp⟩
  | cons a rest ih =>
    simp only [forEach] at h
    cases hb : body a s with
    | error e => simp [hb] at h
    | ok s2 =>
      simp only [hb] at h
      obtain ⟨hq, hf⟩ := hbody a s s2 hb
      obtain ⟨hq2, hf2⟩ := ih s2 h
      refine ⟨htrans _ _ _ hq hq2, ?_⟩
      intro x hx
      rcases List.mem_cons.1 hx with rfl | hx
      · exact hmono _ _ _ hq2 hf
      · exact hf2 x hx

theorem mapAccumE_facts {α β : Type} (body : α → β → Except Error (α × β))
    (R : α → α → Prop) (Q : β → β → Prop)
    (hrefl : ∀ b, Q b b) (htrans : ∀ a b c, Q a b → Q b c → Q a c)
    (fact : α → β → Prop)
    (hbody : ∀ a b a1 b1, body a b = .ok (a1, b1) → R a a1 ∧ Q b b1 ∧ fact a1 b1)
    (hmono : ∀ a b b1, Q b b1 → fact a b → fact a b1)
    (l : List α) (b : β) (l1 : List α) (b1 : β)
    (hl : mapAccumE body l b = .ok (l1, b1)) :
    List.Forall₂ R l l1 ∧ Q b b1 ∧ ∀ a1 ∈ l1, fact a1 b1 := by
  induction l generalizing b l1 with
  | nil =>
    simp only [mapAccumE, Except.ok.injEq, Prod.mk.injEq] at hl
    obtain ⟨rfl, rfl⟩ := hl
    exact ⟨List.Forall₂.nil, hrefl b, by simp⟩
  | cons a rest ih =>
    simp only [mapAccumE] at hl
    cases hb : body a b with
    | error e => simp [hb] at hl
    | ok r =>
      obtain ⟨a2, b2⟩ := r
      simp only [hb] at hl
      cases hr : mapAccumE body rest b2 with
      | error e => simp [hr] at hl
      | ok r2 =>
        obtain ⟨rest2, b3⟩ := r2
        simp only [hr, Except.ok.injEq, Prod.mk.injEq] at hl
        obtain ⟨rfl, rfl⟩ := hl
        obtain ⟨h1, h2, h3⟩ := hbody a b a2 b2 hb
        obtain ⟨h4, h5, h6⟩ := ih b2 rest2 hr
        refine ⟨List.Forall₂.cons h1 h4, htrans _ _ _ h2 h5, ?_⟩
        intro x hx
        rcases List.mem_cons.1 hx with rfl | hx
        · exact hmono _ _ _ h5 h3
        · exact h6 x hx

theorem tagsGrow_refl (l : List Tag) : tagsGrow l l :=
  ⟨fun tag ht => ⟨tag, ht, rfl, rfl, List.Subset.refl _⟩, ⟨[], by simp⟩, fun h => h⟩

theorem tagsGrow_trans (a b c : List Tag) (h1 : tagsGrow a b) (h2 : tagsGrow b c) :
    tagsGrow a c := by
  obtain ⟨g1, ⟨n1, e1⟩, d1⟩ := h1
  obtain ⟨g2, ⟨n2, e2⟩, d2⟩ := h2
  refine ⟨?_, ⟨n1 ++ n2, by rw [e2, e1, List.append_assoc]⟩, fun h => d2 (d1 h)⟩
  intro tag ht
  obtain ⟨t1, ht1, i1, m1, s1⟩ := g1 tag ht
  obtain ⟨t2, ht2, i2, m2, s2⟩ := g2 t1 ht1
  exact ⟨t2, ht2, i2.trans i1, m2.trans m1, List.Subset.trans s1 s2⟩

theorem tableGrow_refl (t : Table) : tableGrow t t :=
  ⟨rfl, rfl, rfl, rfl, rfl, List.Subset.refl _⟩

theorem tableGrow_trans (a b c : Table) (h1 : tableGrow a b) (h2 : tableGrow b c) :
    tableGrow a c :=
  ⟨h2.1.trans h1.1, h2.2.1.trans h1.2.1, h2.2.2.1.trans h1.2.2.1,
    h2.2.2.2.1.trans h1.2.2.2.1, h2.2.2.2.2.1.trans h1.2.2.2.2.1,
    List.Subset.trans h1.2.2.2.2.2 h2.2.2.2.2.2⟩

theorem bindStep_refl (b : Schema × DbState) : bindStep b b :=
  ⟨rfl, rfl, rfl, rfl, rfl, rfl, rfl, tagsGrow_refl _, rfl⟩

theorem bindStep_trans (a b c : Schema × DbState) (h1 : bindStep a b) (h2 : bindStep b c) :
    bindStep a c :=
  ⟨h2.1.trans h1.1, h2.2.1.trans h1.2.1, h2.2.2.1.trans h1.2.2.1,
    h2.2.2.2.1.trans h1.2.2.2.1, h2.2.2.2.2.1.trans h1.2.2.2.2.1,
    h2.2.2.2.2.2.1.trans h1.2.2.2.2.2.1, h2.2.2.2.2.2.2.1.trans h1.2.2.2.2.2.2.1,
    tagsGrow_trans _ _ _ h1.2.2.2.2.2.2.2.1 h2.2.2.2.2.2.2.2.1,
    h2.2.2.2.2.2.2.2.2.trans h1.2.2.2.2.2.2.2.2⟩

theorem boundTo_mono (t t1 : Table) (tags tags1 : List Tag) (n : String)
    (ht : tableGrow t t1) (hg : tagsGrow tags tags1) (h : t.boundTo tags n) :
    t1.boundTo tags1 n := by
  obtain ⟨tag, htag, hn, hid, htid⟩ := h
  obtain ⟨tag1, htag1, i1, m1, s1⟩ := hg.1 tag htag
  refine ⟨tag1, htag1, m1.trans hn, ?_, ?_⟩
  · rw [i1]; exact ht.2.2.2.2.2 hid
  · rw [ht.1]; exact s1 htid

theorem foldl_pushTag_eq (l : List Tag) (t : Table) :
    List.foldl Table.pushTag t l = { t with tags := t.tags ++ l.map (fun x => x.id) } := by
  induction l generalizing t with
  | nil => simp
  | cons a rest ih =>
    simp only [List.foldl_cons, ih, Table.pushTag, List.map_cons, List.append_assoc,
      List.singleton_append]

theorem any_name_false {l : List Tag} {n : String}
    (h : ¬ (l.any (fun tag => tag.name == n)) = true) : ∀ x ∈ l, x.name ≠ n := by
  intro x hx hn
  apply h
  rw [List.any_eq_true]
  exact ⟨x, hx, by simp [hn]⟩

/-- One raw tag of one table: the call returns, the table and the schema's tags grow, the
allocator's schema counter is kept, and the table is bound to a tag of that name. -/
theorem bindRawTag_spec (rawTag : RawTag) (st : Table × Schema × DbState) :
    ∃ st1, bindRawTag rawTag st = .ok st1 ∧ tableGrow st.1 st1.1 ∧ bindStep st.2 st1.2 ∧
      st1.2.1.tables = st.2.1.tables ∧ st1.1.boundTo st1.2.1.tags rawTag.name := by
  obtain ⟨t, s, d⟩ := st
  by_cases hany : (s.tags.any (fun tag => tag.name == rawTag.name)) = true
  · have heq : bindRawTag rawTag (t, s, d) =
        .ok (List.foldl Table.pushTag t (s.tags.filter (fun tag => tag.name == rawTag.name)),
          { s with
            tags := s.tags.map
              (fun tag => if tag.name == rawTag.name then tag.pushTable t else tag) },
          d) := by
      simp only [bindRawTag, hany, if_true]
    refine ⟨_, heq, ?_, ?_, rfl, ?_⟩
    · rw [foldl_pushTag_eq]
      exact ⟨rfl, rfl, rfl, rfl, rfl, by simp⟩
    · refine ⟨rfl, rfl, rfl, rfl, rfl, rfl, rfl, ⟨?_, ⟨[], ?_⟩, ?_⟩, rfl⟩
      · intro tag htag
        refine ⟨_, List.mem_map.2 ⟨tag, htag, rfl⟩, ?_⟩
        by_cases hc : (tag.name == rawTag.name) = true
        · simp [hc, Tag.pushTable]
        · simp [hc]
      · simp only [List.map_map, List.append_nil]
        apply List.map_congr_left
        intro x _
        simp only [Function.comp]
        split <;> rfl
      · intro hnd
        have : (s.tags.map (fun tag => if (tag.name == rawTag.name) = true
            then tag.pushTable t else tag)).map (fun t => t.name)
            = s.tags.map (fun t => t.name) := by
          simp only [List.map_map]
          apply List.map_congr_left
          intro x _
          simp only [Function.comp]
          split <;> rfl
        simp only [this]
        exact hnd
    · rw [List.any_eq_true] at hany
      obtain ⟨tag, htag, hn⟩ := hany
      have hn1 : tag.name = rawTag.name := by simpa using hn
      refine ⟨tag.pushTable t, ?_, hn1, ?_, ?_⟩
      · refine List.mem_map.2 ⟨tag, htag, ?_⟩
        simp [hn]
      · rw [foldl_pushTag_eq]
        simp only [List.mem_append, List.mem_map, List.mem_filter]
        exact Or.inr ⟨tag, ⟨htag, hn⟩, rfl⟩
      · rw [foldl_pushTag_eq]
        simp [Tag.pushTable]
  · have hfresh := any_name_false hany
    have hcheck : s.checkTag (Tag.new rawTag d).1 = none :=
      (checkTag_eq_none s _).2 hfresh
    have heq : bindRawTag rawTag (t, s, d) =
        .ok (t.pushTag (Tag.new rawTag d).1,
          { s with tags := s.tags ++ [(Tag.new rawTag d).1.pushTable t] },
          (Tag.new rawTag d).2) := by
      simp only [bindRawTag, hany, Bool.false_eq_true, if_false, hcheck]
    refine ⟨_, heq, ?_, ?_, rfl, ?_⟩
    · exact ⟨rfl, rfl, rfl, rfl, rfl, by simp [Table.pushTag]⟩
    · refine ⟨rfl, rfl, rfl, rfl, rfl, rfl, rfl, ⟨?_, ⟨[rawTag.name], ?_⟩, ?_⟩, rfl⟩
      · intro tag htag
        exact ⟨tag, by simp [htag], rfl, rfl, List.Subset.refl _⟩
      · simp [Tag.pushTable, Tag.new]
      · intro hnd
        exact nodup_map_append_singleton _ _ _ hnd hfresh
    · refine ⟨(Tag.new rawTag d).1.pushTable t, by simp, rfl, ?_, ?_⟩
      · simp [Table.pushTag, Tag.pushTable]
      · simp [Table.pushTag, Tag.pushTable, Tag.new]

theorem forEach_total {α σ : Type} (body : α → σ → Except Error σ)
    (h : ∀ a s, ∃ s1, body a s = .ok s1) (l : List α) (s : σ) :
    ∃ s1, forEach body l s = .ok s1 := by
  induction l generalizing s with
  | nil => exact ⟨s, rfl⟩
  | cons a rest ih =>
    obtain ⟨s2, hb⟩ := h a s
    obtain ⟨s3, hr⟩ := ih s2
    exact ⟨s3, by simp only [forEach, hb, hr]⟩

theorem mapAccumE_total {α β : Type} (body : α → β → Except Error (α × β))
    (h : ∀ a b, ∃ r, body a b = .ok r) (l : List α) (b : β) :
    ∃ r, mapAccumE body l b = .ok r := by
  induction l generalizing b with
  | nil => exact ⟨([], b), rfl⟩
  | cons a rest ih =>
    obtain ⟨⟨a1, b1⟩, hb⟩ := h a b
    obtain ⟨⟨rest1, b2⟩, hr⟩ := ih b1
    exact ⟨(a1 :: rest1, b2), by simp only [mapAccumE, hb, hr]⟩

/-- The raw tags of one table: the loop returns, and afterwards the table is bound for
each of its raw tags. -/
theorem bindTableTags_spec (t : Table) (b : Schema × DbState) :
    ∃ t1 b1, bindTableTags t b = .ok (t1, b1) ∧ tableGrow t t1 ∧ bindStep b b1 ∧
      b1.1.tables = b.1.tables ∧ ∀ rawTag ∈ t1.rawTags, t1.boundTo b1.1.tags rawTag.name := by
  obtain ⟨⟨t1, b1⟩, hres⟩ := forEach_total bindRawTag
    (fun a st => by
      obtain ⟨st1, h, _⟩ := bindRawTag_spec a st
      exact ⟨st1, h⟩) t.rawTags (t, b)
  obtain ⟨⟨hg, hs, htab⟩, hf⟩ := forEach_facts bindRawTag
    (fun x y : Table × Schema × DbState =>
      tableGrow x.1 y.1 ∧ bindStep x.2 y.2 ∧ y.2.1.tables = x.2.1.tables)
    (fun x => ⟨tableGrow_refl _, bindStep_refl _, rfl⟩)
    (fun x y z h1 h2 => ⟨tableGrow_trans _ _ _ h1.1 h2.1, bindStep_trans _ _ _ h1.2.1 h2.2.1,
      h2.2.2.trans h1.2.2⟩)
    (fun rawTag x => x.1.boundTo x.2.1.tags rawTag.name)
    (fun a x y hb => by
      obtain ⟨st1, h, h1, h2, h3, h4⟩ := bindRawTag_spec a x
      rw [hb] at h
      cases h
      exact ⟨⟨h1, h2, h3⟩, h4⟩)
    (fun a x y hq hfa => boundTo_mono _ _ _ _ _ hq.1 hq.2.1.2.2.2.2.2.2.2.1 hfa)
    t.rawTags (t, b) (t1, b1) hres
  refine ⟨t1, b1, hres, hg, hs, htab, ?_⟩
  intro rawTag hr
  rw [hg.2.2.2.2.1] at hr
  exact hf rawTag hr

/-- The tables of one schema: the loop returns, the schema keeps everything but its tags
and the tag lists of its tables, and afterwards every table is bound for each of its raw
tags. -/
theorem bindSchemaTags_spec (schema : Schema) (st : DbState) :
    ∃ schema1 st1, bindSchemaTags schema st = .ok (schema1, st1) ∧
      schemaBound schema schema1 ∧ st1.schemaId = st.schemaId := by
  obtain ⟨⟨tables, schemaX, stX⟩, hres⟩ := mapAccumE_total bindTableTags
    (fun a b => by
      obtain ⟨t1, b1, h, _⟩ := bindTableTags_spec a b
      exact ⟨(t1, b1), h⟩) schema.tables (schema, st)
  obtain ⟨hf, ⟨hs, _⟩, hb⟩ := mapAccumE_facts bindTableTags tableGrow
    (fun b b1 : Schema × DbState => bindStep b b1 ∧ b1.1.tables = b.1.tables)
    (fun b => ⟨bindStep_refl _, rfl⟩)
    (fun a b c h1 h2 => ⟨bindStep_trans _ _ _ h1.1 h2.1, h2.2.trans h1.2⟩)
    (fun t1 b => ∀ rawTag ∈ t1.rawTags, t1.boundTo b.1.tags rawTag.name)
    (fun a b a1 b1 hbody => by
      obtain ⟨t1, b2, h, h1, h2, h3, h4⟩ := bindTableTags_spec a b
      rw [hbody] at h
      cases h
      exact ⟨h1, ⟨h2, h3⟩, h4⟩)
    (fun a b b1 hq hfa rawTag hr =>
      boundTo_mono _ _ _ _ _ (tableGrow_refl a) hq.1.2.2.2.2.2.2.2.1 (hfa rawTag hr))
    schema.tables (schema, st) tables (schemaX, stX) hres
  obtain ⟨h1, h2, h3, h4, h5, h6, h7, h8, h9⟩ := hs
  refine ⟨{ schemaX with tables := tables }, stX, ?_, ?_, h9⟩
  · simp only [bindSchemaTags, hres]
  · exact ⟨h1, h2, h3, h4, h5, h6, h7, h8, hf, fun t ht rawTag hr => hb t ht rawTag hr⟩

/-- `bindTagToTable` returns on every database; it changes only the schemas (each as tag
binding does) and the allocator, whose schema counter it keeps. -/
theorem bindTagToTable_spec (db : Database) :
    ∃ schemas st, db.bindTagToTable = .ok { db with schemas := schemas, dbState := st } ∧
      List.Forall₂ schemaBound db.schemas schemas ∧ st.schemaId = db.dbState.schemaId := by
  obtain ⟨⟨schemas, st⟩, hres⟩ := mapAccumE_total bindSchemaTags
    (fun a b => by
      obtain ⟨s1, b1, h, _⟩ := bindSchemaTags_spec a b
      exact ⟨(s1, b1), h⟩) db.schemas db.dbState
  obtain ⟨hf, hq⟩ := mapAccumE_rel bindSchemaTags schemaBound
    (fun b b1 : DbState => b1.schemaId = b.schemaId) (fun _ => rfl)
    (fun a b c h1 h2 => h2.trans h1)
    (fun a b a1 b1 hbody => by
      obtain ⟨s1, b2, h, h1, h2⟩ := bindSchemaTags_spec a b
      rw [hbody] at h
      cases h
      exact ⟨h1, h2⟩)
    db.schemas db.dbState schemas st hres
  exact ⟨schemas, st, by simp only [Database.bindTagToTable, hres], hf, hq⟩

theorem forall₂_mem_right {α : Type} (R : α → α → Prop) (l l1 : List α)
    (h : List.Forall₂ R l l1) (b : α) (hb : b ∈ l1) : ∃ a ∈ l, R a b := by
  induction h with
  | nil => simp at hb
  | cons hab _ ih =>
    rcases List.mem_cons.1 hb with rfl | hb
    · exact ⟨_, List.mem_cons_self _ _, hab⟩
    · obtain ⟨a, ha, hr⟩ := ih hb
      exact ⟨a, List.mem_cons_of_mem _ ha, hr⟩

/-- C20. On a database whose schemas each hold tags of pairwise distinct names,
`bindTagToTable` completes whatever the raw tags of the tables are; each schema keeps its
tags (same identifiers and names) followed by new tags whose names it did not hold, and
the tag names of each schema are pairwise distinct afterwards. -/
theorem bindTagToTable_never_raises (db : Database)
    (hdb : ∀ s ∈ db.schemas, (s.tags.map (fun t => t.name)).Nodup) :
    ∃ db1, db.bindTagToTable = .ok db1 ∧ db1.schemas.length = db.schemas.length ∧
      (∀ (i : Nat) (s : Schema), db.schemas[i]? = some s →
        ∃ s1 new, db1.schemas[i]? = some s1 ∧
          s1.tags.map (fun t => t.name) = s.tags.map (fun t => t.name) ++ new ∧
          (∀ n ∈ new, n ∉ s.tags.map (fun t => t.name)) ∧
          (∀ tag ∈ s.tags, ∃ tag1 ∈ s1.tags, tag1.id = tag.id ∧ tag1.name = tag.name)) ∧
      (∀ s1 ∈ db1.schemas, (s1.tags.map (fun t => t.name)).Nodup) := by
  obtain ⟨schemas, st, hres, hf, _⟩ := bindTagToTable_spec db
  refine ⟨_, hres, hf.length_eq.symm, ?_, ?_⟩
  · intro i s hs
    obtain ⟨s1, hs1, hb⟩ := forall₂_getElem? _ _ _ hf i s hs
    obtain ⟨hg, ⟨new, hnew⟩, hnd⟩ := hb.2.2.2.2.2.2.2.1
    have hnd1 := hnd (hdb s (List.getElem?_mem hs))
    refine ⟨s1, new, hs1, hnew, ?_, ?_⟩
    · intro n hn hold
      rw [hnew] at hnd1
      exact (List.nodup_append.1 hnd1).2.2 hold hn
    · intro tag htag
      obtain ⟨tag1, h1, h2, h3, _⟩ := hg tag htag
      exact ⟨tag1, h1, h2, h3⟩
  · intro s1 hs1
    obtain ⟨s, hs, hb⟩ := forall₂_mem_right _ _ _ hf s1 hs1
    exact hb.2.2.2.2.2.2.2.1.2.2 (hdb s hs)

/-- C20 at a concrete database: `users` declares `pii` twice and `posts` once; one tag
`pii` is created and bound three times. -/
theorem bindTagToTable_never_raises_witness :
    (∃ db1, taggedDb.bindTagToTable = .ok db1 ∧
      db1.schemas.map (fun s => (s.tags.map (fun t => (t.name, t.tables)),
        s.tables.map (fun t => t.tags))) = [([("pii", [1, 1, 2])], [[1, 1], [1]])]) ∧
    (∃ db1, taggedDb.bindTagToTable = .ok db1 ∧
      ∀ s1 ∈ db1.schemas, (s1.tags.map (fun t => t.name)).Nodup) :=
  ⟨⟨_, rfl, rfl⟩, by
    obtain ⟨db1, h1, _, _, h2⟩ := bindTagToTable_never_raises taggedDb (by
      intro s hs
      have : s.tags = [] := by
        simp only [taggedDb, List.mem_singleton] at hs
        rw [hs]
        rfl
      simp [this])
    exact ⟨db1, h1, h2⟩⟩

/-! ## Schema identifiers -/

theorem fieldNewAll_schemaId (rfs : List RawField) (st : DbState) :
    (Field.newAll rfs st).2.schemaId = st.schemaId := by
  induction rfs generalizing st with
  | nil => rfl
  | cons rf rest ih =>
    simp only [Field.newAll]
    rw [ih]
    rfl

theorem tableNew_schemaId (r : RawTable) (st : DbState) :
    (Table.new r st).2.schemaId = st.schemaId := by
  simp only [Table.new]
  rw [fieldNewAll_schemaId]
  rfl

theorem ids_of_unlink {l l1 : List Schema}
    (h : l1.map Schema.unlink = l.map Schema.unlink) :
    l1.map (fun s => s.id) = l.map (fun s => s.id) := by
  have := congrArg (List.map (fun s : Schema => s.id)) h
  simpa [List.map_map, Function.comp_def, Schema.unlink] using this

theorem idsIncreasing_of_eq (db db1 : Database) (h : db.idsIncreasing)
    (hids : db1.schemas.map (fun s => s.id) = db.schemas.map (fun s => s.id))
    (hst : db1.dbState.schemaId = db.dbState.schemaId) : db1.idsIncreasing := by
  refine ⟨by rw [hids]; exact h.1, ?_⟩
  intro s hs
  have hmem : s.id ∈ db1.schemas.map (fun s => s.id) := List.mem_map.2 ⟨s, hs, rfl⟩
  rw [hids] at hmem
  obtain ⟨x, hx, hxi⟩ := List.mem_map.1 hmem
  rw [hst, ← hxi]
  exact h.2 x hx

theorem idsIncreasing_append (db db1 : Database) (s : Schema) (h : db.idsIncreasing)
    (hs : db1.schemas = db.schemas ++ [s]) (hid : s.id = db.dbState.schemaId)
    (hst : db1.dbState.schemaId = db.dbState.schemaId + 1) : db1.idsIncreasing := by
  refine ⟨?_, ?_⟩
  · rw [hs, List.map_append, List.pairwise_append]
    refine ⟨h.1, by simp, ?_⟩
    intro a ha b hb
    simp only [List.map_cons, List.map_nil, List.mem_singleton] at hb
    obtain ⟨x, hx, hxi⟩ := List.mem_map.1 ha
    rw [hb, hid, ← hxi]
    exact h.2 x hx
  · intro x hx
    rw [hs, List.mem_append, List.mem_singleton] at hx
    rw [hst]
    rcases hx with hx | rfl
    · exact Nat.lt_succ_of_lt (h.2 x hx)
    · rw [hid]; exact Nat.lt_succ_self _

theorem idsIncreasing_set (db : Database) (st : DbState) (i : Nat) (s s1 : Schema)
    (h : db.idsIncreasing) (hs : db.schemas[i]? = some s) (hid : s1.id = s.id)
    (hst : st.schemaId = db.dbState.schemaId) :
    Database.idsIncreasing { db with dbState := st, schemas := db.schemas.set i s1 } :=
  idsIncreasing_of_eq db _ h (map_set_eq _ _ _ s s1 hs hid) hst

theorem pushEnumAt_ids (D : String) (db : Database) (i : Nat) (e : Enum) :
    (Database.pushEnumAt D db i e).state.schemas.map (fun s => s.id) =
      db.schemas.map (fun s => s.id) ∧
    (Database.pushEnumAt D db i e).state.dbState = db.dbState := by
  rcases pushEnumAt_state D db i e with ⟨hst, _⟩ | ⟨s, _, _, heq⟩
  · rw [hst]; exact ⟨rfl, rfl⟩
  · rw [heq]
    simp only [Res.state, and_true]
    refine Eq.trans (map_modify_eq (fun s : Schema => s.id) _ ?_ i _)
      (ids_of_unlink (bindEnumToField_unlink D db.schemas e))
    intro a
    rfl

theorem ctorIds_refl (st : Database × Schema) : ctorIds st st := ⟨rfl, rfl⟩

theorem ctorIds_trans (a b c : Database × Schema) (h1 : ctorIds a b) (h2 : ctorIds b c) :
    ctorIds a c :=
  ⟨h2.1.trans h1.1, h2.2.trans h1.2⟩

theorem schema_processTable_ids (r : RawTable) (st st1 : Database × Schema)
    (h : Schema.processTable r st = .ok st1) : ctorIds st st1 := by
  unfold Schema.processTable at h
  rcases pushTable_state st.2 (Table.new r st.1.dbState).1 with ⟨heq, _⟩ | ⟨heq, _⟩
  · simp [heq, Res.toExcept] at h
  · simp only [heq, Res.toExcept, Except.ok.injEq] at h
    subst h
    exact ⟨tableNew_schemaId _ _, rfl⟩

theorem schema_processTag_ids (r : RawTag) (st st1 : Database × Schema)
    (h : Schema.processTag r st = .ok st1) : ctorIds st st1 := by
  unfold Schema.processTag at h
  rcases pushTag_state st.2 (Tag.new r st.1.dbState).1 with ⟨heq, _⟩ | ⟨heq, _⟩
  · simp [heq, Res.toExcept] at h
  · simp only [heq, Res.toExcept, Except.ok.injEq] at h
    subst h
    exact ⟨rfl, rfl⟩

theorem schema_processRef_ids (r : RawRef) (st st1 : Database × Schema)
    (h : Schema.processRef r st = .ok st1) : ctorIds st st1 := by
  unfold Schema.processRef at h
  rcases pushRef_state st.2 (Ref.new r st.1.dbState).1 with ⟨heq, _⟩ | ⟨heq, _⟩
  · simp [heq, Res.toExcept] at h
  · simp only [heq, Res.toExcept, Except.ok.injEq] at h
    subst h
    exact ⟨rfl, rfl⟩

theorem schema_processTableGroup_ids (r : RawTableGroup) (st st1 : Database × Schema)
    (h : Schema.processTableGroup r st = .ok st1) : ctorIds st st1 := by
  unfold Schema.processTableGroup at h
  rcases pushTableGroup_state st.2 (TableGroup.new r st.1.dbState).1 with
    ⟨heq, _⟩ | ⟨heq, _⟩
  · simp [heq, Res.toExcept] at h
  · simp only [heq, Res.toExcept, Except.ok.injEq] at h
    subst h
    exact ⟨rfl, rfl⟩

theorem schema_processEnum_ids (D : String) (r : RawEnum) (st st1 : Database × Schema)
    (h : Schema.processEnum D r st = .ok st1) : ctorIds st st1 := by
  unfold Schema.processEnum at h
  rcases pushEnum_state D { st.1 with dbState := (Enum.new r st.1.dbState).2 } st.2
    (Enum.new r st.1.dbState).1 with ⟨heq, _⟩ | ⟨heq, _⟩
  · simp [heq, Res.toExcept] at h
  · simp only [heq, Res.toExcept, Except.ok.injEq] at h
    subst h
    exact ⟨rfl, rfl⟩

/-- The `Schema` constructor gives the new schema the identifier the allocator issues
next for a schema, and advances that counter by one. -/
theorem schema_new_ids (D : String) (raw : RawSchema) (db db1 : Database) (s : Schema)
    (h : Schema.new D raw db = .ok (s, db1)) :
    s.id = db.dbState.schemaId ∧ db1.dbState.schemaId = db.dbState.schemaId + 1 := by
  unfold Schema.new at h
  obtain ⟨st5, h5, hfin⟩ := bind_eq_ok _ _ _ h
  obtain ⟨st4, h4, h5⟩ := bind_eq_ok _ _ _ h5
  obtain ⟨st3, h3, h4⟩ := bind_eq_ok _ _ _ h4
  obtain ⟨st2, h2, h3⟩ := bind_eq_ok _ _ _ h3
  obtain ⟨st1, h1, h2⟩ := bind_eq_ok _ _ _ h2
  have f1 := forEach_rel _ ctorIds ctorIds_refl ctorIds_trans
    schema_processTable_ids _ _ _ h1
  have f2 := forEach_rel _ ctorIds ctorIds_refl ctorIds_trans
    schema_processTag_ids _ _ _ h2
  have f3 := forEach_rel _ ctorIds ctorIds_refl ctorIds_trans
    (schema_processEnum_ids D) _ _ _ h3
  have f4 := forEach_rel _ ctorIds ctorIds_refl ctorIds_trans
    schema_processRef_ids _ _ _ h4
  have f5 := forEach_rel _ ctorIds ctorIds_refl ctorIds_trans
    schema_processTableGroup_ids _ _ _ h5
  have f := ctorIds_trans _ _ _ (ctorIds_trans _ _ _ (ctorIds_trans _ _ _
    (ctorIds_trans _ _ _ f1 f2) f3) f4) f5
  simp only [Except.ok.injEq, Prod.mk.injEq] at hfin
  obtain ⟨rfl, rfl⟩ := hfin
  exact ⟨f.2, f.1⟩

theorem idsIncreasing_inv (D : String) : PipelineInv D Database.idsIncreasing where
  flag := fun db h => h
  create := fun db name h _ => idsIncreasing_append db _ (createdSchema D db name) h rfl rfl rfl
  table := fun db i s r h hs _ => idsIncreasing_set db _ i s _ h hs rfl (tableNew_schemaId _ _)
  tag := fun db i s r h hs _ => idsIncreasing_set db _ i s _ h hs rfl rfl
  ref := fun db i s r h hs => idsIncreasing_set db _ i s _ h hs rfl rfl
  tableGroup := fun db i s r h hs => idsIncreasing_set db _ i s _ h hs rfl rfl
  enumAt := fun db i r h => by
    obtain ⟨h1, h2⟩ := pushEnumAt_ids D { db with dbState := (Enum.new r db.dbState).2 } i
      (Enum.new r db.dbState).1
    exact idsIncreasing_of_eq db _ h h1 (by rw [h2]; rfl)
  schema := fun db db1 raw s h hn _ => by
    obtain ⟨hid, hst⟩ := schema_new_ids D raw db db1 s hn
    have hun := (schema_new_sum D raw db db1 s hn).1
    have h1 : db1.idsIncreasing :=
      ⟨by rw [ids_of_unlink hun]; exact h.1, by
        intro x hx
        have hmem : x.id ∈ db1.schemas.map (fun s => s.id) := List.mem_map.2 ⟨x, hx, rfl⟩
        rw [ids_of_unlink hun] at hmem
        obtain ⟨y, hy, hyi⟩ := List.mem_map.1 hmem
        rw [hst, ← hyi]
        exact Nat.lt_succ_of_lt (h.2 y hy)⟩
    refine ⟨?_, ?_⟩
    · show (List.map (fun s => s.id) (db1.schemas ++ [s])).Pairwise (fun a b => a < b)
      rw [List.map_append, List.pairwise_append]
      refine ⟨h1.1, by simp, ?_⟩
      intro a ha b hb
      simp only [List.map_cons, List.map_nil, List.mem_singleton] at hb
      rw [ids_of_unlink hun] at ha
      obtain ⟨y, hy, hyi⟩ := List.mem_map.1 ha
      rw [hb, hid, ← hyi]
      exact h.2 y hy
    · intro x hx
      have hx' : x ∈ db1.schemas ++ [s] := hx
      rw [List.mem_append, List.mem_singleton] at hx'
      rcases hx' with hx' | rfl
      · exact h1.2 x hx'
      · show x.id < db1.dbState.schemaId
        rw [hid, hst]
        exact Nat.lt_succ_self _
  bind := fun db db1 h hb => by
    obtain ⟨schemas, st, hres, hf, hst⟩ := bindTagToTable_spec db
    rw [hres] at hb
    cases hb
    exact idsIncreasing_of_eq db _ h
      (forall₂_map_eq (fun s : Schema => s.id) _ _ (hf.imp (fun a b hab => hab.1))) hst

/-- The schema identifiers of a constructed database increase strictly along the schemas
list. -/
theorem new_ids (D : String) (raw : RawDatabase) (db : Database)
    (h : Database.new D raw = .ok db) : db.idsIncreasing :=
  new_inv D Database.idsIncreasing (idsIncreasing_inv D) raw db
    ⟨by simp [Database.init], by simp [Database.init]⟩ h

/-- C16. After a successful construction the identifiers of the held schemas increase
strictly along the schemas list, hence are pairwise distinct, whether a schema was
declared or created by `findSchema`. -/
theorem schema_ids_increasing (DEFAULT_SCHEMA_NAME : String) (raw : RawDatabase)
    (db : Database) (h : Database.new DEFAULT_SCHEMA_NAME raw = .ok db) :
    db.schemas.Pairwise (fun a b => a.id < b.id) ∧
      db.schemas.Pairwise (fun a b => a.id ≠ b.id) := by
  have h1 : db.schemas.Pairwise (fun a b => a.id < b.id) :=
    List.pairwise_map.1 (new_ids DEFAULT_SCHEMA_NAME raw db h).1
  exact ⟨h1, h1.imp (fun hab => Nat.ne_of_lt hab)⟩

/-- C16 at a bundle with a declared schema and two schemas created by `findSchema`. -/
theorem schema_ids_increasing_witness :
    ∃ db, Database.new "public" mixedSchemasBundle = .ok db ∧
      db.schemas.map (fun s => (s.name, s.id)) = [("main", 1), ("x", 2), ("public", 3)] ∧
      db.schemas.Pairwise (fun a b => a.id < b.id) ∧
      db.schemas.Pairwise (fun a b => a.id ≠ b.id) :=
  ⟨_, rfl, rfl, schema_ids_increasing "public" mixedSchemasBundle _ rfl⟩

/-! ## `normalize` -/

theorem foldl_keep {α β γ : Type} (f : β → α → β) (g : β → γ)
    (h : ∀ b a, g (f b a) = g b) (l : List α) (b : β) : g (l.foldl f b) = g b := by
  induction l generalizing b with
  | nil => rfl
  | cons a rest ih => simp only [List.foldl_cons]; rw [ih, h]

/-- `Schema.normalize` sets the entry of the schema in the `schemas` bucket and leaves the
`database` bucket alone. -/
theorem schema_normalize_buckets (database : Database) (s : Schema)
    (m : NormalizedModel) :
    (s.normalize database m).schemas = setEntry m.schemas s.id (Schema.record database s) ∧
      (s.normalize database m).database = m.database := by
  unfold Schema.normalize
  constructor
  · rw [foldl_keep (fun m (t : Tag) => t.normalize m) (fun m => m.schemas) (fun _ _ => rfl),
      foldl_keep (fun m (r : Ref) => r.normalize m) (fun m => m.schemas) (fun _ _ => rfl),
      foldl_keep (fun m (tg : TableGroup) => tg.normalize m) (fun m => m.schemas)
        (fun _ _ => rfl),
      foldl_keep (fun m (e : Enum) => e.normalize m) (fun m => m.schemas) (fun _ _ => rfl),
      foldl_keep (fun m (t : Table) => t.normalize m) (fun m => m.schemas) (fun _ _ => rfl)]
  · rw [foldl_keep (fun m (t : Tag) => t.normalize m) (fun m => m.database) (fun _ _ => rfl),
      foldl_keep (fun m (r : Ref) => r.normalize m) (fun m => m.database) (fun _ _ => rfl),
      foldl_keep (fun m (tg : TableGroup) => tg.normalize m) (fun m => m.database)
        (fun _ _ => rfl),
      foldl_keep (fun m (e : Enum) => e.normalize m) (fun m => m.database) (fun _ _ => rfl),
      foldl_keep (fun m (t : Table) => t.normalize m) (fun m => m.database) (fun _ _ => rfl)]

theorem setEntry_fresh (bucket : List (Nat × List (String × Json))) (id : Nat)
    (record : List (String × Json)) (h : ∀ e ∈ bucket, e.1 ≠ id) :
    setEntry bucket id record = bucket ++ [(id, record)] := by
  unfold setEntry
  have : ¬ (bucket.any (fun e => e.1 == id)) = true := by
    rw [List.any_eq_true]
    rintro ⟨e, he, hid⟩
    exact h e he (by simpa using hid)
  simp only [this, Bool.false_eq_true, if_false]

/-- Normalizing schemas of pairwise distinct identifiers, none of them in the bucket yet,
adds their entries in order. -/
theorem normalize_schemas_fold (database : Database) (l : List Schema)
    (m : NormalizedModel) (hnd : (l.map (fun s => s.id)).Nodup)
    (hdis : ∀ e ∈ m.schemas, ∀ s ∈ l, e.1 ≠ s.id) :
    (l.foldl (fun m schema => schema.normalize database m) m).schemas =
      m.schemas ++ l.map (fun s => (s.id, Schema.record database s)) ∧
    (l.foldl (fun m schema => schema.normalize database m) m).database = m.database := by
  induction l generalizing m with
  | nil => simp
  | cons a rest ih =>
    simp only [List.map_cons, List.nodup_cons] at hnd
    obtain ⟨hs, hd⟩ := schema_normalize_buckets database a m
    have hfresh := setEntry_fresh m.schemas a.id (Schema.record database a)
      (fun e he => hdis e he a (List.mem_cons_self _ _))
    have hdis2 : ∀ e ∈ (a.normalize database m).schemas, ∀ s ∈ rest, e.1 ≠ s.id := by
      intro e he x hx
      rw [hs, hfresh, List.mem_append, List.mem_singleton] at he
      rcases he with he | rfl
      · exact hdis e he x (List.mem_cons_of_mem _ hx)
      · intro hax
        exact hnd.1 (List.mem_map.2 ⟨x, hx, hax.symm⟩)
    obtain ⟨h1, h2⟩ := ih (a.normalize database m) hnd.2 hdis2
    simp only [List.foldl_cons, List.map_cons]
    rw [h1, h2, hs, hfresh, hd]
    simp

/-- C14. For a constructed database the `database` bucket of `normalize()` has exactly
one entry, keyed by the database identifier, whose `schemaIds` are the identifiers of the
held schemas in order; the `schemas` bucket has exactly one entry per held schema, in
order, keyed by pairwise distinct schema identifiers; and each schema entry carries the
database identifier and the identifiers of the schema's tables, enums, table groups,
refs and tags in order. -/
theorem normalize_complete (DEFAULT_SCHEMA_NAME : String) (raw : RawDatabase)
    (d : Database) (h : Database.new DEFAULT_SCHEMA_NAME raw = .ok d) :
    d.normalize.database = [(d.id, d.record)] ∧
    getProp d.record "id" = some (.num d.id) ∧
    getProp d.record "schemaIds" = some (.arr (d.schemas.map (fun s => Json.num s.id))) ∧
    d.normalize.schemas = d.schemas.map (fun s => (s.id, Schema.record d s)) ∧
    d.normalize.schemas.map (fun e => e.1) = d.schemas.map (fun s => s.id) ∧
    (d.normalize.schemas.map (fun e => e.1)).Nodup ∧
    d.normalize.schemas.length = d.schemas.length ∧
    (∀ s : Schema,
      getProp (Schema.record d s) "id" = some (.num s.id) ∧
      getProp (Schema.record d s) "databaseId" = some (.num d.id) ∧
      getProp (Schema.record d s) "tableIds"
        = some (.arr (s.tables.map (fun t => Json.num t.id))) ∧
      getProp (Schema.record d s) "enumIds"
        = some (.arr (s.enums.map (fun e => Json.num e.id))) ∧
      getProp (Schema.record d s) "tableGroupIds"
        = some (.arr (s.tableGroups.map (fun t => Json.num t.id))) ∧
      getProp (Schema.record d s) "refIds"
        = some (.arr (s.refs.map (fun r => Json.num r.id))) ∧
      getProp (Schema.record d s) "tagIds"
        = some (.arr (s.tags.map (fun t => Json.num t.id)))) := by
  have hinc := (new_ids DEFAULT_SCHEMA_NAME raw d h).1
  have hnd : (d.schemas.map (fun s => s.id)).Nodup :=
    hinc.imp (fun hab => Nat.ne_of_lt hab)
  obtain ⟨h1, h2⟩ := normalize_schemas_fold d d.schemas
    { database := [(d.id, d.record)], schemas := [], refs := [], enums := [],
      tableGroups := [], tags := [], tables := [], endpoints := [], enumValues := [],
      indexes := [], indexColumns := [], fields := [] } hnd (by simp)
  have hs : d.normalize.schemas = d.schemas.map (fun s => (s.id, Schema.record d s)) := by
    simpa [Database.normalize] using h1
  refine ⟨h2, rfl, rfl, hs, ?_, ?_, ?_, fun s => ⟨rfl, rfl, rfl, rfl, rfl, rfl, rfl⟩⟩
  · rw [hs, List.map_map]; rfl
  · rw [hs, List.map_map]; exact hnd
  · rw [hs, List.length_map]

/-- C14 at the bundle with a declared schema and two created ones. -/
theorem normalize_complete_witness :
    ∃ d, Database.new "public" mixedSchemasBundle = .ok d ∧
      d.normalize.database.map (fun e => e.1) = [1] ∧
      d.normalize.schemas.map (fun e => e.1) = [1, 2, 3] ∧
      d.normalize.schemas = d.schemas.map (fun s => (s.id, Schema.record d s)) :=
  ⟨_, rfl, rfl, rfl, (normalize_complete "public" mixedSchemasBundle _ rfl).2.2.2.1⟩

/-! ## Tag names stay distinct through the construction -/

theorem mem_of_map_eq {α β : Type} (f : α → β) (l l1 : List α)
    (h : l1.map f = l.map f) (b : α) (hb : b ∈ l1) : ∃ a ∈ l, f b = f a := by
  have hmem : f b ∈ l1.map f := List.mem_map.2 ⟨b, hb, rfl⟩
  rw [h] at hmem
  obtain ⟨a, ha, hab⟩ := List.mem_map.1 hmem
  exact ⟨a, ha, hab.symm⟩

/-- Each schema held after `pushEnum` on the schema at position `i` is a schema held
before, with the same tags and the same tables up to enum links. -/
theorem pushEnumAt_mem (D : String) (db : Database) (i : Nat) (e : Enum) (s1 : Schema)
    (h : s1 ∈ (Database.pushEnumAt D db i e).state.schemas) :
    ∃ s ∈ db.schemas, s1.tags = s.tags ∧
      s1.tables.map Table.unlink = s.tables.map Table.unlink := by
  obtain ⟨j, hj⟩ := List.mem_iff_getElem?.1 h
  have hlen : (Database.pushEnumAt D db i e).state.schemas.length = db.schemas.length := by
    have := congrArg List.length (pushEnumAt_ids D db i e).1
    simpa using this
  have hjlt : j < db.schemas.length := by
    rw [← hlen]
    exact (List.getElem?_eq_some.1 hj).1
  obtain ⟨s2, hs2, _, _, _, _, htags, _, _, htab, _⟩ :=
    pushEnumAt_getElem? D db i j e db.schemas[j] (List.getElem?_eq_getElem hjlt)
  rw [hj] at hs2
  cases hs2
  exact ⟨db.schemas[j], List.getElem_mem _, htags, htab⟩

theorem tagsDistinct_set (db : Database) (st : DbState) (i : Nat) (s1 : Schema)
    (h : db.tagsDistinct) (hs1 : (s1.tags.map (fun t => t.name)).Nodup) :
    Database.tagsDistinct { db with dbState := st, schemas := db.schemas.set i s1 } := by
  intro x hx
  rcases List.mem_or_eq_of_mem_set hx with hx | rfl
  · exact h x hx
  · exact hs1

theorem schema_processTable_tags (r : RawTable) (st st1 : Database × Schema)
    (h : Schema.processTable r st = .ok st1)
    (h0 : (st.2.tags.map (fun t => t.name)).Nodup) :
    (st1.2.tags.map (fun t => t.name)).Nodup := by
  unfold Schema.processTable at h
  rcases pushTable_state st.2 (Table.new r st.1.dbState).1 with ⟨heq, _⟩ | ⟨heq, _⟩
  · simp [heq, Res.toExcept] at h
  · simp only [heq, Res.toExcept, Except.ok.injEq] at h
    subst h
    exact h0

theorem schema_processTag_tags (r : RawTag) (st st1 : Database × Schema)
    (h : Schema.processTag r st = .ok st1)
    (h0 : (st.2.tags.map (fun t => t.name)).Nodup) :
    (st1.2.tags.map (fun t => t.name)).Nodup := by
  unfold Schema.processTag at h
  rcases pushTag_state st.2 (Tag.new r st.1.dbState).1 with ⟨heq, _⟩ | ⟨heq, hne⟩
  · simp [heq, Res.toExcept] at h
  · simp only [heq, Res.toExcept, Except.ok.injEq] at h
    subst h
    exact nodup_map_append_singleton _ _ _ h0 hne

theorem schema_processRef_tags (r : RawRef) (st st1 : Database × Schema)
    (h : Schema.processRef r st = .ok st1)
    (h0 : (st.2.tags.map (fun t => t.name)).Nodup) :
    (st1.2.tags.map (fun t => t.name)).Nodup := by
  unfold Schema.processRef at h
  rcases pushRef_state st.2 (Ref.new r st.1.dbState).1 with ⟨heq, _⟩ | ⟨heq, _⟩
  · simp [heq, Res.toExcept] at h
  · simp only [heq, Res.toExcept, Except.ok.injEq] at h
    subst h
    exact h0

theorem schema_processTableGroup_tags (r : RawTableGroup) (st st1 : Database × Schema)
    (h : Schema.processTableGroup r st = .ok st1)
    (h0 : (st.2.tags.map (fun t => t.name)).Nodup) :
    (st1.2.tags.map (fun t => t.name)).Nodup := by
  unfold Schema.processTableGroup at h
  rcases pushTableGroup_state st.2 (TableGroup.new r st.1.dbState).1 with
    ⟨heq, _⟩ | ⟨heq, _⟩
  · simp [heq, Res.toExcept] at h
  · simp only [heq, Res.toExcept, Except.ok.injEq] at h
    subst h
    exact h0

theorem schema_processEnum_tags (D : String) (r : RawEnum) (st st1 : Database × Schema)
    (h : Schema.processEnum D r st = .ok st1)
    (h0 : (st.2.tags.map (fun t => t.name)).Nodup) :
    (st1.2.tags.map (fun t => t.name)).Nodup := by
  unfold Schema.processEnum at h
  rcases pushEnum_state D { st.1 with dbState := (Enum.new r st.1.dbState).2 } st.2
    (Enum.new r st.1.dbState).1 with ⟨heq, _⟩ | ⟨heq, _⟩
  · simp [heq, Res.toExcept] at h
  · simp only [heq, Res.toExcept, Except.ok.injEq] at h
    subst h
    exact h0

/-- The tags of a schema that the constructor returns have pairwise distinct names. -/
theorem schema_new_tags (D : String) (raw : RawSchema) (db db1 : Database) (s : Schema)
    (h : Schema.new D raw db = .ok (s, db1)) : (s.tags.map (fun t => t.name)).Nodup := by
  unfold Schema.new at h
  obtain ⟨st5, h5, hfin⟩ := bind_eq_ok _ _ _ h
  obtain ⟨st4, h4, h5⟩ := bind_eq_ok _ _ _ h5
  obtain ⟨st3, h3, h4⟩ := bind_eq_ok _ _ _ h4
  obtain ⟨st2, h2, h3⟩ := bind_eq_ok _ _ _ h3
  obtain ⟨st1, h1, h2⟩ := bind_eq_ok _ _ _ h2
  have f1 := forEach_inv _ (fun st : Database × Schema => (st.2.tags.map (fun t => t.name)).Nodup)
    schema_processTable_tags _ _ _ h1 (by simp)
  have f2 := forEach_inv _ (fun st : Database × Schema => (st.2.tags.map (fun t => t.name)).Nodup)
    schema_processTag_tags _ _ _ h2 f1
  have f3 := forEach_inv _ (fun st : Database × Schema => (st.2.tags.map (fun t => t.name)).Nodup)
    (schema_processEnum_tags D) _ _ _ h3 f2
  have f4 := forEach_inv _ (fun st : Database × Schema => (st.2.tags.map (fun t => t.name)).Nodup)
    schema_processRef_tags _ _ _ h4 f3
  have f5 := forEach_inv _ (fun st : Database × Schema => (st.2.tags.map (fun t => t.name)).Nodup)
    schema_processTableGroup_tags _ _ _ h5 f4
  simp only [Except.ok.injEq, Prod.mk.injEq] at hfin
  obtain ⟨rfl, rfl⟩ := hfin
  exact f5

theorem tagsDistinct_inv (D : String) : PipelineInv D Database.tagsDistinct where
  flag := fun db h => h
  create := fun db name h _ => by
    intro x hx
    have hx' : x ∈ db.schemas ++ [createdSchema D db name] := hx
    rw [List.mem_append, List.mem_singleton] at hx'
    rcases hx' with hx' | rfl
    · exact h x hx'
    · simp [createdSchema]
  table := fun db i s r h hs _ =>
    tagsDistinct_set db _ i _ h (h s (List.getElem?_mem hs))
  tag := fun db i s r h hs hne =>
    tagsDistinct_set db _ i _ h
      (nodup_map_append_singleton _ _ _ (h s (List.getElem?_mem hs)) hne)
  ref := fun db i s r h hs =>
    tagsDistinct_set db _ i _ h (h s (List.getElem?_mem hs))
  tableGroup := fun db i s r h hs =>
    tagsDistinct_set db _ i _ h (h s (List.getElem?_mem hs))
  enumAt := fun db i r h => by
    intro x hx
    obtain ⟨s, hs, htags, _⟩ := pushEnumAt_mem D _ i _ x hx
    rw [htags]
    exact h s hs
  schema := fun db db1 raw s h hn _ => by
    intro x hx
    have hx' : x ∈ db1.schemas ++ [s] := hx
    rw [List.mem_append, List.mem_singleton] at hx'
    rcases hx' with hx' | hx'
    · obtain ⟨a, ha, hau⟩ := mem_of_map_eq Schema.unlink _ _
        (schema_new_sum D raw db db1 s hn).1 x hx'
      rw [(unlink_fields hau).2.2.2.2.1]
      exact h a ha
    · rw [hx']
      exact schema_new_tags D raw db db1 s hn
  bind := fun db db1 h hb => by
    obtain ⟨schemas, st, hres, hf, _⟩ := bindTagToTable_spec db
    rw [hres] at hb
    cases hb
    intro x hx
    obtain ⟨a, ha, hab⟩ := forall₂_mem_right _ _ _ hf x hx
    exact hab.2.2.2.2.2.2.2.1.2.2 (h a ha)

/-! ## Tag binding survives the later steps -/

theorem table_unlink_fields {a b : Table} (h : a.unlink = b.unlink) :
    a.id = b.id ∧ a.name = b.name ∧ a.rawTags = b.rawTags ∧ a.tags = b.tags := by
  simp only [Table.unlink, Table.mk.injEq] at h
  exact ⟨h.1, h.2.1, h.2.2.2.2.1, h.2.2.2.2.2⟩

theorem allBound_of_unlink (s s1 : Schema) (htags : s1.tags = s.tags)
    (htab : s1.tables.map Table.unlink = s.tables.map Table.unlink) (h : s.AllBound) :
    s1.AllBound := by
  intro t ht rawTag hr
  obtain ⟨a, ha, hau⟩ := mem_of_map_eq Table.unlink _ _ htab t ht
  obtain ⟨hid, _, hraw, htg⟩ := table_unlink_fields hau
  rw [hraw] at hr
  obtain ⟨tag, htag, hn, h1, h2⟩ := h a ha rawTag hr
  exact ⟨tag, by rw [htags]; exact htag, hn, by rw [htg]; exact h1, by rw [hid]; exact h2⟩

theorem allBound_set (db : Database) (st : DbState) (i : Nat) (s1 : Schema)
    (h : db.allBound) (hs1 : s1.AllBound) :
    Database.allBound { db with dbState := st, schemas := db.schemas.set i s1 } := by
  intro x hx
  rcases List.mem_or_eq_of_mem_set hx with hx | hx
  · exact h x hx
  · rw [hx]
    exact hs1

/-- The steps that follow tag binding keep every table bound. -/
theorem allBound_later (D : String) (raw : RawDatabase) (d3 d4 d5 db : Database)
    (h4 : forEach (Database.processRef D) raw.refs d3 = .ok d4)
    (h5 : forEach (Database.processEnum D) raw.enums d4 = .ok d5)
    (h6 : forEach (Database.processTableGroup D) raw.tableGroups d5 = .ok db)
    (h : d3.allBound) : db.allBound := by
  have hflag : ∀ db : Database, db.allBound →
      Database.allBound { db with hasDefaultSchema := true } := fun db h => h
  have hcreate : ∀ (db : Database) (name : String), db.allBound →
      firstIdx (schemaMatches name) db.schemas = none →
      Database.allBound
        { db with dbState := (db.dbState.generateId .schemaId).2,
                  schemas := db.schemas ++ [createdSchema D db name] } := by
    intro db name h _ x hx
    have hx' : x ∈ db.schemas ++ [createdSchema D db name] := hx
    rw [List.mem_append, List.mem_singleton] at hx'
    rcases hx' with hx' | hx'
    · exact h x hx'
    · rw [hx']
      intro t ht
      simp [createdSchema] at ht
  have i4 : d4.allBound := forEach_inv _ Database.allBound
    (processRef_inv D Database.allBound hflag hcreate
      (fun db i s r h hs => allBound_set db _ i _ h (h s (List.getElem?_mem hs))))
    _ _ _ h4 h
  have i5 : d5.allBound := forEach_inv _ Database.allBound
    (processEnum_inv D Database.allBound hflag hcreate
      (fun db i r h => by
        intro x hx
        obtain ⟨s, hs, htags, htab⟩ := pushEnumAt_mem D _ i _ x hx
        exact allBound_of_unlink s x htags htab (h s hs)))
    _ _ _ h5 i4
  exact forEach_inv _ Database.allBound
    (processTableGroup_inv D Database.allBound hflag hcreate
      (fun db i s r h hs => allBound_set db _ i _ h (h s (List.getElem?_mem hs))))
    _ _ _ h6 i5

/-- Every table of a constructed database is bound for each of its raw tags. -/
theorem new_allBound (D : String) (raw : RawDatabase) (db : Database)
    (h : Database.new D raw = .ok db) : db.allBound := by
  unfold Database.new at h
  obtain ⟨d5, h5, h6⟩ := bind_eq_ok _ _ _ h
  obtain ⟨d4, h4, h5⟩ := bind_eq_ok _ _ _ h5
  obtain ⟨d3, h3, h4⟩ := bind_eq_ok _ _ _ h4
  obtain ⟨d2, h2, h3⟩ := bind_eq_ok _ _ _ h3
  unfold Database.processTags at h3
  obtain ⟨d2b, h3a, h3b⟩ := bind_eq_ok _ _ _ h3
  obtain ⟨schemas, st, hres, hf, _⟩ := bindTagToTable_spec d2b
  rw [hres] at h3b
  cases h3b
  refine allBound_later D raw _ d4 d5 db h4 h5 h6 ?_
  intro x hx
  obtain ⟨a, _, hab⟩ := forall₂_mem_right _ _ _ hf x hx
  exact hab.2.2.2.2.2.2.2.2.2

/-- C12. In every database that the constructor returns, for every held table `t` and
every raw tag of `t`, the schema holding `t` holds a tag of that name, it is the only tag
of that name in the schema, its identifier is in the tag list of `t` and the identifier of
`t` is in its table list; every table of the schema declaring the same name is bound to
that same tag. -/
theorem tag_binding_complete (D : String) (raw : RawDatabase) (db : Database)
    (h : Database.new D raw = .ok db) :
    ∀ s ∈ db.schemas, ∀ t ∈ s.tables, ∀ rawTag ∈ t.rawTags,
      ∃ tag ∈ s.tags, tag.name = rawTag.name ∧
        (∀ tag1 ∈ s.tags, tag1.name = rawTag.name → tag1 = tag) ∧
        tag.id ∈ t.tags ∧ t.id ∈ tag.tables ∧
        ∀ t2 ∈ s.tables, ∀ r2 ∈ t2.rawTags, r2.name = rawTag.name →
          tag.id ∈ t2.tags ∧ t2.id ∈ tag.tables := by
  intro s hs t ht rawTag hr
  have hnd : (s.tags.map (fun t => t.name)).Nodup :=
    new_inv D Database.tagsDistinct (tagsDistinct_inv D) raw db
      (by intro x hx; simp [Database.init] at hx) h s hs
  have hb := new_allBound D raw db h s hs
  obtain ⟨tag, htag, hn, h1, h2⟩ := hb t ht rawTag hr
  have huniq : ∀ tag1 ∈ s.tags, tag1.name = rawTag.name → tag1 = tag :=
    fun tag1 h1 hn1 => List.inj_on_of_nodup_map hnd h1 htag (hn1.trans hn.symm)
  refine ⟨tag, htag, hn, huniq, h1, h2, ?_⟩
  intro t2 ht2 r2 hr2 hn2
  obtain ⟨tag2, htag2, hn3, h3, h4⟩ := hb t2 ht2 r2 hr2
  have := huniq tag2 htag2 (hn3.trans hn2)
  subst this
  exact ⟨h3, h4⟩

/-- C12 at two tables of one schema that declare the same tag name: one tag is created,
both tables hold it and it holds both tables. -/
theorem tag_binding_complete_witness :
    ∃ db, Database.new "public" sharedTagBundle = .ok db ∧
      db.schemas.map (fun s => (s.tags, s.tables.map (fun t => (t.name, t.id, t.tags)))) =
        [([⟨1, "pii", [1, 2]⟩], [("users", 1, [1]), ("posts", 2, [1])])] ∧
      ∀ s ∈ db.schemas, ∀ t ∈ s.tables, ∀ rawTag ∈ t.rawTags,
        ∃ tag ∈ s.tags, tag.name = rawTag.name ∧
          (∀ tag1 ∈ s.tags, tag1.name = rawTag.name → tag1 = tag) ∧
          tag.id ∈ t.tags ∧ t.id ∈ tag.tables ∧
          ∀ t2 ∈ s.tables, ∀ r2 ∈ t2.rawTags, r2.name = rawTag.name →
            tag.id ∈ t2.tags ∧ t2.id ∈ tag.tables :=
  ⟨_, rfl, rfl, tag_binding_complete "public" sharedTagBundle _ rfl⟩

end Dbml
